import Mathlib

/-
Formal model of the jsonmap DSL (tokenizer, parser, evaluator), translated
from the Python sources in src/jsonmap: tokens.py, parser.py, ast.py,
data.py, error.py.  Recursive procedures that walk a stream are modelled
with an explicit fuel parameter so that every definition is executable and
kernel-reducible; fuel exhaustion is reported through a dedicated error
value that the wrappers make unreachable by supplying ample fuel.
-/

namespace JsonMap

/-- JSON object keys.  Python dict keys in this code base are either strings
(field names, statement left-hand sides) or integers (the zip-source indices
inserted by `Zip.evaluate`). -/
inductive JKey
  | s (v : String)
  | i (v : Int)
deriving DecidableEq

/-- JSON values as fixed by `typedefs.py` / `data.py`:
`Json = str | float | List[Any] | Dict[str, Any] | Literal[None]`.
Python floats are modelled as exact rationals (exact for every numeric value
appearing in the claims); objects are insertion-ordered key/value lists, as
Python dicts are. -/
inductive Json
  | null
  | str (s : String)
  | num (q : ℚ)
  | arr (xs : List Json)
  | obj (kvs : List (JKey × Json))

/-- Errors raised while evaluating a compiled program.  The Python evaluator
raises plain builtin exceptions (`ValueError`, `KeyError`, `IndexError`,
`UnboundLocalError` on the unguarded match in `collate`, `AttributeError`
on a non-reference bind argument); none of these carries a source position.
`recursionError` is the fuel sentinel, mirroring Python's own recursion
limit. -/
inductive EvalErr
  | valueError (message : String)
  | keyError (key : JKey)
  | indexError
  | unboundLocalError
  | attributeError
  | recursionError
deriving DecidableEq

/-- Source position attached to an evaluation error: Python's `ValueError`,
`KeyError`, `IndexError` and `UnboundLocalError` have no position attribute,
so no evaluation error carries one. -/
def EvalErr.position? : EvalErr → Option Nat := fun _ => none

/-- Python `int(s)` (base 10): optional surrounding whitespace, an optional
sign, then a non-empty digit string.  (Python additionally accepts
underscore digit separators and non-ASCII digits; no such segment occurs in
this development.) -/
def digitsVal : List Char → Option Nat
  | [] => none
  | cs =>
    cs.foldl
      (fun acc c =>
        match acc with
        | none => none
        | some a => if c.isDigit then some (a * 10 + (c.toNat - 48)) else none)
      (some 0)

/-- Python `int(s)` for base 10, returning `none` where Python raises
`ValueError`. -/
def python_int (s : String) : Option Int :=
  let cs := (s.toList.dropWhile Char.isWhitespace).reverse.dropWhile Char.isWhitespace |>.reverse
  match cs with
  | '+' :: rest => (digitsVal rest).map Int.ofNat
  | '-' :: rest => (digitsVal rest).map (fun n => -(n : Int))
  | rest => (digitsVal rest).map Int.ofNat

/-- Python `float(s)` on the decimal grammar `digits [. digits] [exponent]`
or `. digits [exponent]`, returning an exact rational (the mantissa and
exponent are combined into a single `mkRat numerator denominator`).
(Python additionally accepts `inf`/`nan` spellings, underscore separators,
and rounds to binary double precision; none of that is exercised by the
programs considered here.) -/
def python_float (s : String) : Option ℚ :=
  let cs := (s.toList.dropWhile Char.isWhitespace).reverse.dropWhile Char.isWhitespace |>.reverse
  let (sign, body) : Int × List Char :=
    match cs with
    | '+' :: rest => (1, rest)
    | '-' :: rest => (-1, rest)
    | rest => (1, rest)
  let intDigits := body.takeWhile Char.isDigit
  let afterInt := body.dropWhile Char.isDigit
  let (mantissa?, afterMantissa) : Option (Nat × Nat) × List Char :=
    match afterInt with
    | '.' :: rest =>
      let fracDigits := rest.takeWhile Char.isDigit
      let afterFrac := rest.dropWhile Char.isDigit
      if intDigits.isEmpty ∧ fracDigits.isEmpty then (none, afterFrac)
      else
        let intVal := (digitsVal intDigits).getD 0
        let fracVal := (digitsVal fracDigits).getD 0
        (some (intVal * 10 ^ fracDigits.length + fracVal, fracDigits.length), afterFrac)
    | rest =>
      if intDigits.isEmpty then (none, rest)
      else (some ((digitsVal intDigits).getD 0, 0), rest)
  match mantissa? with
  | none => none
  | some (m, fracLen) =>
    match afterMantissa with
    | [] => some (mkRat (sign * m) (10 ^ fracLen))
    | e :: rest =>
      if e = 'e' ∨ e = 'E' then
        let (expNonneg, edigits) : Bool × List Char :=
          match rest with
          | '+' :: r => (true, r)
          | '-' :: r => (false, r)
          | r => (true, r)
        match digitsVal edigits with
        | some ev =>
          if expNonneg then some (mkRat (sign * m * 10 ^ ev) (10 ^ fracLen))
          else some (mkRat (sign * m) (10 ^ fracLen * 10 ^ ev))
        | none => none
      else none

/-- First-match lookup in an insertion-ordered dict, Python `obj[field]` on a
dict (up to the `KeyError` reported by the caller). -/
def dict_get : List (JKey × Json) → JKey → Option Json
  | [], _ => none
  | (k, v) :: rest, key => if k = key then some v else dict_get rest key

/-- Python `d[key] = value`: update in place if the key exists (keeping its
position), otherwise append. -/
def dict_set : List (JKey × Json) → JKey → Json → List (JKey × Json)
  | [], key, value => [(key, value)]
  | (k, v) :: rest, key, value =>
    if k = key then (k, value) :: rest else (k, v) :: dict_set rest key value

/-- Python list subscription `xs[i]` with an `int` index: negative indices
count from the end; out-of-range raises `IndexError`. -/
def python_list_get (xs : List Json) (i : Int) : Except EvalErr Json :=
  let j : Int := if i < 0 then i + xs.length else i
  if 0 ≤ j then
    match xs.get? j.toNat with
    | some v => .ok v
    | none => .error .indexError
  else .error .indexError

/-- Coercion of a path segment when indexing a list: `obj[int(field)]` in
`data.resolve`.  An integer segment is already an integer; a string segment
goes through Python `int()`, whose failure is an (unstructured)
`ValueError`. -/
def segment_int : String ⊕ Int → Except EvalErr Int
  | .inr i => .ok i
  | .inl s =>
    match python_int s with
    | some i => .ok i
    | none => .error (.valueError "invalid literal for int() with base 10")

/-- `data.resolve`: walk the path segments in order; a dict is subscripted by
the segment itself (`KeyError` if absent), a list by `int(segment)`
(Python index semantics), and any other value raises
`ValueError("Invalid field index")`. -/
def resolve : List (String ⊕ Int) → Json → Except EvalErr Json
  | [], obj => .ok obj
  | field :: rest, obj =>
    match obj with
    | .obj kvs =>
      let key : JKey := match field with | .inl s => .s s | .inr i => .i i
      match dict_get kvs key with
      | some v => resolve rest v
      | none => .error (.keyError key)
    | .arr xs =>
      match segment_int field with
      | .ok i =>
        match python_list_get xs i with
        | .ok v => resolve rest v
        | .error e => .error e
      | .error e => .error e
    | _ => .error (.valueError "Invalid field index")

/-! ## Tokens (`tokens.py`) -/

/-- The token symbol categories of `tokens.Symbol`. -/
inductive Symbol
  | end_of_statement
  | assignment
  | left_curly_brace
  | right_curly_brace
  | left_square_bracket
  | right_square_bracket
deriving DecidableEq

/-- The token variants of `tokens.py`: `SymbolToken`, `BareWord`,
`LiteralToken`, `InterpolationToken`, `ReferenceToken`,
`ListIndexReferenceToken`. -/
inductive Token
  | symbol (position : Nat) (sym : Symbol)
  | bare_word (position : Nat) (value : String)
  | literal (position : Nat) (text : String)
  | interpolation (position : Nat) (pattern : String)
  | reference (position : Nat) (path : List (String ⊕ Int)) (global_scope : Bool)
  | list_index_reference (position : Nat) (path : List (String ⊕ Int)) (global_scope : Bool)
deriving DecidableEq

/-- The source position carried by every token. -/
def Token.position : Token → Nat
  | .symbol p _ => p
  | .bare_word p _ => p
  | .literal p _ => p
  | .interpolation p _ => p
  | .reference p _ _ => p
  | .list_index_reference p _ _ => p

/-- `Token.is_symbol`. -/
def Token.is_symbol : Token → Symbol → Bool
  | .symbol _ s, sym => s = sym
  | _, _ => false

/-- Errors raised while compiling (tokenizing and parsing) a program.
`json_map_syntax_error` is the structured `JsonMapSyntaxError(position, msg)`
of `error.py`.  `invalid_escape_sequence` is modelled from the spec: the
class `InvalidEscapeSequence(offset, code)` is imported by `tokens.py` but
its definition is missing from the sources.  `stop_iteration`,
`value_error` and `unbound_local_error` are the unstructured Python
exceptions that can escape the tokenizer and parser; `fuel_exhausted` is the
fuel sentinel of this model. -/
inductive CompileErr
  | json_map_syntax_error (position : Nat) (message : String)
  | invalid_escape_sequence (position : Nat) (code : Char)
  | stop_iteration
  | value_error (message : String)
  | unbound_local_error
  | fuel_exhausted
deriving DecidableEq

/-- The source position carried by a compile-time error, when it has one:
`JsonMapSyntaxError` stores `position`, and (per the spec) so does
`InvalidEscapeSequence`; the unstructured exceptions carry none. -/
def CompileErr.position? : CompileErr → Option Nat
  | .json_map_syntax_error p _ => some p
  | .invalid_escape_sequence p _ => some p
  | _ => none

/-- `tokens.ESCAPED_CHARS`. -/
def ESCAPED_CHARS (c : Char) : Option Char :=
  if c = 'b' then some (Char.ofNat 8)
  else if c = 'f' then some (Char.ofNat 12)
  else if c = 'n' then some (Char.ofNat 10)
  else if c = 'r' then some (Char.ofNat 13)
  else if c = 't' then some (Char.ofNat 9)
  else if c = '"' then some '"'
  else if c = '\\' then some '\\'
  else none

/-- Hexadecimal digit value. -/
def hex_digit_val? (c : Char) : Option Nat :=
  if '0' ≤ c ∧ c ≤ '9' then some (c.toNat - 48)
  else if 'a' ≤ c ∧ c ≤ 'f' then some (c.toNat - 87)
  else if 'A' ≤ c ∧ c ≤ 'F' then some (c.toNat - 55)
  else none

/-- Python `int(s, 16)` on a plain digit string: non-empty, all hex digits.
(Sign, whitespace and underscores never reach this call through
`capture_string`'s success paths considered here.) -/
def int_base16 : List Char → Option Nat
  | [] => none
  | cs =>
    cs.foldl
      (fun acc c =>
        match acc with
        | none => none
        | some a =>
          match hex_digit_val? c with
          | some d => some (a * 16 + d)
          | none => none)
      (some 0)

/-- A tokenizer stream: the `enumerate(program)` pairs not yet consumed. -/
abbrev CharStream := List (Nat × Char)

/-- `tokens._capture_escaped_hex_value`: take up to `len` characters
(`itertools.islice`), interpret them with `int(_, 16)` (an unstructured
`ValueError` on failure), and produce the code point. -/
def capture_escaped_hex (stream : CharStream) (len : Nat) :
    Except CompileErr (Char × CharStream) :=
  let code := (stream.take len).map Prod.snd
  match int_base16 code with
  | some v => .ok (Char.ofNat v, stream.drop len)
  | none => .error (.value_error "invalid literal for int with base 16")

/-- `tokens.capture_string`: consume characters up to the next unescaped
delimiter, decoding escapes; an unrecognized escape raises
`InvalidEscapeSequence` at the backslash's position, and running off the end
of the stream raises a bare `StopIteration`. -/
def capture_string : Nat → CharStream → Char → Except CompileErr (List Char × CharStream)
  | 0, _, _ => .error .fuel_exhausted
  | _ + 1, [], _ => .error .stop_iteration
  | fuel + 1, (pos, char) :: rest, delimiter =>
    if char = delimiter then .ok ([], rest)
    else if char ≠ '\\' then
      match capture_string fuel rest delimiter with
      | .ok (token, r) => .ok (char :: token, r)
      | .error e => .error e
    else
      match rest with
      | [] => .error .stop_iteration
      | (_, escape_code) :: rest2 =>
        match ESCAPED_CHARS escape_code with
        | some escaped =>
          match capture_string fuel rest2 delimiter with
          | .ok (token, r) => .ok (escaped :: token, r)
          | .error e => .error e
        | none =>
          if escape_code = 'x' then
            match capture_escaped_hex rest2 2 with
            | .ok (hex_char, r2) =>
              match capture_string fuel r2 delimiter with
              | .ok (token, r) => .ok (hex_char :: token, r)
              | .error e => .error e
            | .error e => .error e
          else if escape_code = 'u' then
            match capture_escaped_hex rest2 4 with
            | .ok (hex_char, r2) =>
              match capture_string fuel r2 delimiter with
              | .ok (token, r) => .ok (hex_char :: token, r)
              | .error e => .error e
            | .error e => .error e
          else .error (.invalid_escape_sequence pos escape_code)

/-- `tokens.capture_bare_word` without the optional first character (call
sites prepend it): peek; stop before a delimiter (leaving it in the stream),
stop at whitespace (consuming it), otherwise take the character.  Peeking an
exhausted stream raises a bare `StopIteration`. -/
def capture_bare_word : Nat → CharStream → List Char → Except CompileErr (List Char × CharStream)
  | 0, _, _ => .error .fuel_exhausted
  | _ + 1, [], _ => .error .stop_iteration
  | fuel + 1, (pos, next_char) :: rest, delimiters =>
    if next_char ∈ delimiters then .ok ([], (pos, next_char) :: rest)
    else if next_char.isWhitespace then .ok ([], rest)
    else
      match capture_bare_word fuel rest delimiters with
      | .ok (token, r) => .ok (next_char :: token, r)
      | .error e => .error e

/-- The delimiters `parse_reference` passes to `capture_bare_word` (the
source lists `]` twice). -/
def reference_delimiters : List Char := ['.', ';', ',', '{', '}', '[', ']', ']', ' ']

/-- Build the reference token `parse_reference` returns. -/
def mk_reference (is_list_index : Bool) (position : Nat)
    (path : List (String ⊕ Int)) (global_scope : Bool) : Token :=
  if is_list_index then .list_index_reference position path global_scope
  else .reference position path global_scope

/-- `tokens.parse_reference`: accumulate path segments after a `&` until a
terminator or whitespace (left in place unless whitespace is consumed by an
inner bare-word capture).  The accumulator parameters mirror the local
variables `path`, `global_scope`, `position` (set once, on the first
iteration) and `is_list_index`. -/
def parse_reference : Nat → CharStream → Option Nat → Bool → Bool →
    List (String ⊕ Int) → Except CompileErr (Token × CharStream)
  | 0, _, _, _, _, _ => .error .fuel_exhausted
  | _ + 1, [], _, _, _, _ => .error .stop_iteration
  | fuel + 1, (current_position, next_char) :: rest, position?, global_scope,
      is_list_index, path =>
    let position := position?.getD current_position
    if next_char.isWhitespace then
      .ok (mk_reference is_list_index position path global_scope,
        (current_position, next_char) :: rest)
    else if next_char = '.' then
      parse_reference fuel rest (some position) global_scope is_list_index path
    else if next_char = '!' then
      if path.length > 0 then
        .error (.json_map_syntax_error current_position "Illegal element in path")
      else parse_reference fuel rest (some position) true is_list_index path
    else if next_char = '"' then
      match capture_string fuel rest '"' with
      | .ok (token, r) =>
        parse_reference fuel r (some position) global_scope is_list_index
          (path ++ [Sum.inl (String.mk token)])
      | .error e => .error e
    else if next_char = '?' then
      parse_reference fuel rest (some position) global_scope true path
    else if next_char = ';' ∨ next_char = ',' ∨ next_char = '{' ∨
        next_char = '[' ∨ next_char = '}' ∨ next_char = ']' then
      .ok (mk_reference is_list_index position path global_scope,
        (current_position, next_char) :: rest)
    else
      match capture_bare_word fuel ((current_position, next_char) :: rest)
          reference_delimiters with
      | .ok (bare_word, r) =>
        if is_list_index then
          match python_int (String.mk bare_word) with
          | some n =>
            parse_reference fuel r (some position) global_scope is_list_index
              (path ++ [Sum.inr n])
          | none => .error (.value_error "invalid literal for int() with base 10")
        else
          parse_reference fuel r (some position) global_scope is_list_index
            (path ++ [Sum.inl (String.mk bare_word)])
      | .error e => .error e

/-- The delimiters `tokenize` passes to `capture_bare_word`. -/
def bare_word_delimiters : List Char := [' ', ':', ']', ',', ';', '}']

/-- `tokens.tokenize`, main loop over the enumerated character stream. -/
def tokenize_chars : Nat → CharStream → Except CompileErr (List Token)
  | 0, _ => .error .fuel_exhausted
  | _ + 1, [] => .ok []
  | fuel + 1, (position, character) :: rest =>
    if character.isWhitespace then tokenize_chars fuel rest
    else if character = ';' ∨ character = ',' then
      match tokenize_chars fuel rest with
      | .ok tokens => .ok (.symbol position .end_of_statement :: tokens)
      | .error e => .error e
    else if character = '{' then
      match tokenize_chars fuel rest with
      | .ok tokens => .ok (.symbol position .left_curly_brace :: tokens)
      | .error e => .error e
    else if character = '}' then
      match tokenize_chars fuel rest with
      | .ok tokens => .ok (.symbol position .right_curly_brace :: tokens)
      | .error e => .error e
    else if character = '[' then
      match tokenize_chars fuel rest with
      | .ok tokens => .ok (.symbol position .left_square_bracket :: tokens)
      | .error e => .error e
    else if character = ']' then
      match tokenize_chars fuel rest with
      | .ok tokens => .ok (.symbol position .right_square_bracket :: tokens)
      | .error e => .error e
    else if character = '=' ∨ character = ':' then
      match tokenize_chars fuel rest with
      | .ok tokens => .ok (.symbol position .assignment :: tokens)
      | .error e => .error e
    else if character = '"' then
      match capture_string fuel rest '"' with
      | .ok (token, r) =>
        match tokenize_chars fuel r with
        | .ok tokens => .ok (.literal position (String.mk token) :: tokens)
        | .error e => .error e
      | .error e => .error e
    else if character = '`' then
      match capture_string fuel rest '`' with
      | .ok (token, r) =>
        match tokenize_chars fuel r with
        | .ok tokens => .ok (.interpolation position (String.mk token) :: tokens)
        | .error e => .error e
      | .error e => .error e
    else if character = '&' then
      match parse_reference fuel rest none false false [] with
      | .ok (ref, r) =>
        match tokenize_chars fuel r with
        | .ok tokens => .ok (ref :: tokens)
        | .error e => .error e
      | .error e => .error e
    else
      match capture_bare_word fuel rest bare_word_delimiters with
      | .ok (word, r) =>
        match tokenize_chars fuel r with
        | .ok tokens => .ok (.bare_word position (String.mk (character :: word)) :: tokens)
        | .error e => .error e
      | .error e => .error e

/-- `tokens.tokenize` on a source string. -/
def tokenize (program : String) : Except CompileErr (List Token) :=
  tokenize_chars (program.length + 1) program.toList.enum

/-! ## Abstract syntax tree (`ast.py`) -/

/-- Left-hand sides: `Lhs`, `NoOpLhs`, `AnonymousLhs` (the latter two are
subclasses carrying the same `value` field). -/
inductive Lhs
  | named (position : Nat) (value : String)
  | noOp (position : Nat) (value : String)
  | anonymous (position : Nat) (value : String)
deriving DecidableEq

/-- `Lhs.noop`. -/
def Lhs.noop : Lhs → Bool
  | .noOp _ _ => true
  | _ => false

/-- The position of a left-hand side. -/
def Lhs.position : Lhs → Nat
  | .named p _ => p
  | .noOp p _ => p
  | .anonymous p _ => p

mutual
/-- Right-hand sides: `NoOpRhs`, `ValueLiteral`, `NumericLiteral`,
`Reference`, `ListIndexReference`, `Scope`, `Array`, and the collection
operations `Bind`, `Map`, `Zip` (each a `Scope` with `contents` plus its own
argument field). -/
inductive Rhs
  | noOpRhs (position : Nat)
  | valueLiteral (position : Nat) (value : String)
  | numericLiteral (position : Nat) (value : ℚ)
  | reference (position : Nat) (path : List (String ⊕ Int)) (global_scope : Bool)
  | listIndexReference (position : Nat) (path : List (String ⊕ Int)) (global_scope : Bool)
  | scope (position : Nat) (contents : ScopeContents)
  | array (position : Nat) (values : List Rhs)
  | bind (position : Nat) (contents : ScopeContents) (ref : Rhs)
  | map (position : Nat) (contents : ScopeContents) (source : Rhs)
  | zip (position : Nat) (contents : ScopeContents) (sources : List Rhs)

/-- `Scope.contents`: either a statement list or a single (anonymous)
statement. -/
inductive ScopeContents
  | list (stmts : List Statement)
  | single (stmt : Statement)

/-- `ast.Statement`: a left-hand side bound to a right-hand side. -/
inductive Statement
  | mk (lhs : Lhs) (rhs : Rhs)
end

/-! ## Parser (`ast.py` parse methods) -/

/-- `Lhs.parse`: a bare word or literal names a binding, a stray
end-of-statement symbol is a no-op, anything else is a syntax error. -/
def lhs_parse : List Token → Except CompileErr (Lhs × List Token)
  | [] => .error .stop_iteration
  | token :: rest =>
    match token with
    | .bare_word pos value => .ok (.named pos value, rest)
    | .literal pos value => .ok (.named pos value, rest)
    | .symbol pos .end_of_statement => .ok (.noOp pos "", rest)
    | _ => .error (.json_map_syntax_error token.position "Invalid start to expression")

/-- `Rhs._assert_end_of_statement`: nothing to check for a collection
argument; a closing brace or bracket is left in place; otherwise the next
token must be an end-of-statement symbol (consumed). -/
def assert_end_of_statement (tokens : List Token) (collection_argument : Bool) :
    Except CompileErr (List Token) :=
  if collection_argument then .ok tokens
  else
    match tokens with
    | [] => .error .stop_iteration
    | token :: rest =>
      if token.is_symbol .right_curly_brace ∨ token.is_symbol .right_square_bracket then
        .ok (token :: rest)
      else if token.is_symbol .end_of_statement then .ok rest
      else .error (.json_map_syntax_error token.position
        "Expected end-of-statement symbol (semicolon or comma)")

/-- Result of `consume_statement`: either the end of the statement stream
(after `None` in the source) or one parsed statement. -/
inductive StmtStep
  | done (rest : List Token)
  | stmt (s : Statement) (rest : List Token)

mutual
/-- `Rhs.parse`: dispatch on the next token. -/
def rhs_parse : Nat → List Token → Bool → Except CompileErr (Rhs × List Token)
  | 0, _, _ => .error .fuel_exhausted
  | fuel + 1, tokens, collection_argument =>
    match tokens with
    | [] => .error .stop_iteration
    | token :: rest =>
      match token with
      | .literal pos text =>
        match assert_end_of_statement rest false with
        | .ok r => .ok (.valueLiteral pos text, r)
        | .error e => .error e
      | .list_index_reference pos path g =>
        match assert_end_of_statement rest collection_argument with
        | .ok r => .ok (.listIndexReference pos path g, r)
        | .error e => .error e
      | .reference pos path g =>
        match assert_end_of_statement rest collection_argument with
        | .ok r => .ok (.reference pos path g, r)
        | .error e => .error e
      | .symbol pos .left_curly_brace =>
        match assemble_stmts fuel rest true with
        | .ok (statements, r) => .ok (.scope pos (.list statements), r)
        | .error e => .error e
      | .bare_word pos value =>
        if value = "null" then
          match assert_end_of_statement rest false with
          | .ok r => .ok (.noOpRhs pos, r)
          | .error e => .error e
        else
          match python_float value with
          | some parsed => .ok (.numericLiteral pos parsed, rest)
          | none => collection_parse fuel rest pos value
      | .symbol _ .left_square_bracket =>
        match array_parse fuel rest with
        | .ok (pos, values, r) => .ok (.array pos values, r)
        | .error e => .error e
      | _ => .error (.json_map_syntax_error token.position "Invalid right-hand side")
termination_by structural f _ _ => f

/-- `Array.parse`: record the position of the next token, then gather
right-hand sides (skipping a single comma between elements) until the
closing bracket, which is consumed. -/
def array_parse : Nat → List Token →
    Except CompileErr (Nat × List Rhs × List Token)
  | 0, _ => .error .fuel_exhausted
  | fuel + 1, tokens =>
    match tokens with
    | [] => .error .stop_iteration
    | token :: _ =>
      match array_loop fuel tokens with
      | .ok (values, rest) => .ok (token.position, values, rest)
      | .error e => .error e
termination_by structural f _ => f

/-- The element loop of `Array.parse`. -/
def array_loop : Nat → List Token → Except CompileErr (List Rhs × List Token)
  | 0, _ => .error .fuel_exhausted
  | fuel + 1, tokens =>
    match tokens with
    | [] => .error .stop_iteration
    | token :: rest =>
      if token.is_symbol .right_square_bracket then .ok ([], rest)
      else
        match rhs_parse fuel tokens false with
        | .ok (value, r1) =>
          match r1 with
          | [] => .error .stop_iteration
          | t2 :: r2 =>
            let r3 := if t2.is_symbol .end_of_statement then r2 else t2 :: r2
            match array_loop fuel r3 with
            | .ok (values, rest2) => .ok (value :: values, rest2)
            | .error e => .error e
        | .error e => .error e
termination_by structural f _ => f

/-- `CollectionOperation.parse`: dispatch on the keyword. -/
def collection_parse : Nat → List Token → Nat → String →
    Except CompileErr (Rhs × List Token)
  | 0, _, _, _ => .error .fuel_exhausted
  | fuel + 1, tokens, position, keyword =>
    if keyword = "bind" then bind_parse fuel tokens position
    else if keyword = "map" then map_parse fuel tokens position
    else if keyword = "zip" then zip_parse fuel tokens position
    else .error (.json_map_syntax_error position "Unrecognized keyword")
termination_by structural f _ _ _ => f

/-- `Bind.parse`: a reference argument, then a braced inner scope. -/
def bind_parse : Nat → List Token → Nat → Except CompileErr (Rhs × List Token)
  | 0, _, _ => .error .fuel_exhausted
  | fuel + 1, tokens, position =>
    match rhs_parse fuel tokens true with
    | .ok (reference, r1) =>
      match reference with
      | .reference _ _ _ | .listIndexReference _ _ _ =>
        match r1 with
        | [] => .error .stop_iteration
        | token :: r2 =>
          if token.is_symbol .left_curly_brace then
            match r2 with
            | [] => .error .stop_iteration
            | _ :: _ =>
              match assemble_stmts fuel r2 true with
              | .ok (statements, r3) =>
                .ok (.bind position (.list statements) reference, r3)
              | .error e => .error e
          else .error (.json_map_syntax_error token.position
            "expected start of an inner scope")
      | _ => .error (.json_map_syntax_error position "Unsupported argument for bind")
    | .error e => .error e
termination_by structural f _ _ => f

/-- `Map.parse`: an array-or-reference source, then either a braced scope
body, or a bracketed anonymous body that must hold exactly one element
(otherwise a bare `ValueError`); any other following token leaves the
body variable unbound (`UnboundLocalError`). -/
def map_parse : Nat → List Token → Nat → Except CompileErr (Rhs × List Token)
  | 0, _, _ => .error .fuel_exhausted
  | fuel + 1, tokens, position =>
    match rhs_parse fuel tokens true with
    | .ok (source, r1) =>
      match source with
      | .array _ _ | .reference _ _ _ | .listIndexReference _ _ _ =>
        match r1 with
        | [] => .error .stop_iteration
        | token :: r2 =>
          match token with
          | .symbol _ .left_curly_brace =>
            match r2 with
            | [] => .error .stop_iteration
            | _ :: _ =>
              match assemble_stmts fuel r2 true with
              | .ok (statements, r3) =>
                .ok (.map position (.list statements) source, r3)
              | .error e => .error e
          | .symbol bracket_position .left_square_bracket =>
            match array_parse fuel r2 with
            | .ok (_, values, r3) =>
              match values with
              | [v] =>
                .ok (.map bracket_position
                  (.single (Statement.mk (.anonymous bracket_position "") v)) source, r3)
              | _ => .error (.value_error
                  "Only one entry is allowed in the anonymous map scope")
            | .error e => .error e
          | _ => .error .unbound_local_error
      | _ => .error (.json_map_syntax_error position "Unsupported argument for map")
    | .error e => .error e
termination_by structural f _ _ => f

/-- `Zip._parse_zip_args`: collect array-or-reference arguments until a left
brace is the next token. -/
def zip_args : Nat → List Token → Nat → Except CompileErr (List Rhs × List Token)
  | 0, _, _ => .error .fuel_exhausted
  | fuel + 1, tokens, position =>
    match tokens with
    | [] => .error .stop_iteration
    | token :: _ =>
      if token.is_symbol .left_curly_brace then .ok ([], tokens)
      else
        match rhs_parse fuel tokens true with
        | .ok (source, r1) =>
          match source with
          | .array _ _ | .reference _ _ _ | .listIndexReference _ _ _ =>
            match zip_args fuel r1 position with
            | .ok (sources, rest) => .ok (source :: sources, rest)
            | .error e => .error e
          | _ => .error (.json_map_syntax_error position "Invalid argument for zip")
        | .error e => .error e
termination_by structural f _ _ => f

/-- `Zip.parse`: the arguments, the consumed left brace, then the braced
body. -/
def zip_parse : Nat → List Token → Nat → Except CompileErr (Rhs × List Token)
  | 0, _, _ => .error .fuel_exhausted
  | fuel + 1, tokens, position =>
    match zip_args fuel tokens position with
    | .ok (sources, r1) =>
      match r1 with
      | [] => .error .stop_iteration
      | _ :: r2 =>
        match r2 with
        | [] => .error .stop_iteration
        | _ :: _ =>
          match assemble_stmts fuel r2 true with
          | .ok (statements, r3) => .ok (.zip position (.list statements) sources, r3)
          | .error e => .error e
    | .error e => .error e
termination_by structural f _ _ => f

/-- `ast._consume_statement`: handle a scope-closing brace, parse the
left-hand side, pass through no-ops, then require an assignment symbol and
parse the right-hand side. -/
def consume_statement_raw : Nat → List Token → Bool → Except CompileErr StmtStep
  | 0, _, _ => .error .fuel_exhausted
  | fuel + 1, tokens, inner_scope =>
    match tokens with
    | [] => .error .stop_iteration
    | token :: rest =>
      if token.is_symbol .right_curly_brace then
        if inner_scope then .ok (.done rest)
        else .error (.json_map_syntax_error token.position
          "Encountered unexpected end to scope")
      else
        match lhs_parse tokens with
        | .ok (lhs, r1) =>
          if lhs.noop then .ok (.stmt (Statement.mk lhs (.noOpRhs lhs.position)) r1)
          else
            match r1 with
            | [] => .error .stop_iteration
            | t2 :: r2 =>
              if t2.is_symbol .assignment then
                match rhs_parse fuel r2 false with
                | .ok (rhs, r3) => .ok (.stmt (Statement.mk lhs rhs) r3)
                | .error e => .error e
              else .error (.json_map_syntax_error t2.position
                "Expected assignment operator (either equals or colon)")
        | .error e => .error e
termination_by structural f _ _ => f

/-- `ast.consume_statement`: a `StopIteration` escaping the statement parse
is caught and ends the statement stream (the shared token stream is
exhausted at that point). -/
def consume_statement : Nat → List Token → Bool → Except CompileErr StmtStep
  | 0, _, _ => .error .fuel_exhausted
  | fuel + 1, tokens, inner_scope =>
    match consume_statement_raw fuel tokens inner_scope with
    | .error .stop_iteration => .ok (.done [])
    | other => other
termination_by structural f _ _ => f

/-- `ast.assemble`: collect statements until `consume_statement` signals the
end. -/
def assemble_stmts : Nat → List Token → Bool → Except CompileErr (List Statement × List Token)
  | 0, _, _ => .error .fuel_exhausted
  | fuel + 1, tokens, inner_scope =>
    match consume_statement fuel tokens inner_scope with
    | .ok (.done rest) => .ok ([], rest)
    | .ok (.stmt s rest) =>
      match assemble_stmts fuel rest inner_scope with
      | .ok (statements, rest2) => .ok (s :: statements, rest2)
      | .error e => .error e
    | .error e => .error e

termination_by structural f _ _ => f
end

/-- Fuel that is ample for the parser: nesting (and hence recursion depth)
grows by at most a few levels per consumed token. -/
def parser_fuel (tokens : List Token) : Nat := tokens.length * 8 + 8

/-- `ast.assemble` at the top level, as `JsonMapping.__init__` invokes it. -/
def assemble_program (tokens : List Token) : Except CompileErr (List Statement) :=
  match assemble_stmts (parser_fuel tokens) tokens false with
  | .ok (statements, _) => .ok statements
  | .error e => .error e

/-- Compilation: tokenize then assemble, as in `JsonMapping.__init__`. -/
def compile (program : String) : Except CompileErr (List Statement) :=
  match tokenize program with
  | .ok tokens => assemble_program tokens
  | .error e => .error e

/-! ## Evaluator (`ast.py` evaluate methods, `parser.py` apply) -/

/-- The value `ast.collate` returns: a Python list or dict (anything else
raises the "must be iterable" `ValueError`). -/
inductive Collated
  | list (items : List Json)
  | dict (kvs : List (JKey × Json))

/-- Python iteration over a collated value: a list yields its elements, a
dict yields its keys (string keys as strings, the integer keys inserted by
zip as numbers). -/
def Collated.iter : Collated → List Json
  | .list items => items
  | .dict kvs =>
    kvs.map (fun kv => match kv.1 with | .s s => .str s | .i i => .num (mkRat i 1))

/-- `all(isinstance(arg, dict) for arg in arg_list)` together with the
extraction of the dict entries: `some` exactly when every element is an
object. -/
def as_dicts? (items : List Json) : Option (List (List (JKey × Json))) :=
  items.mapM (fun j => match j with | .obj kvs => some kvs | _ => none)

/-- Normalization of one zip source (`Zip.evaluate`): a sequence of objects
is used unchanged, otherwise each element is wrapped as a singleton object
keyed by the integer index of the source. -/
def zip_normalize (index : Nat) (items : List Json) : List (List (JKey × Json)) :=
  match as_dicts? items with
  | some dicts => dicts
  | none => items.map (fun arg => [(JKey.i (index : Int), arg)])

/-- The `enumerate` loop of `Zip.evaluate` building `indexed`. -/
def zip_indexed : Nat → List (List Json) → List (List (List (JKey × Json)))
  | _, [] => []
  | index, items :: rest => zip_normalize index items :: zip_indexed (index + 1) rest

/-- Heads of every list, `none` if any list is empty. -/
def heads? (ls : List (List α)) : Option (List α) := ls.mapM List.head?

/-- Helper for `python_zip`, recursing on the first iterable. -/
def zip_from : List α → List (List α) → List (List α)
  | [], _ => []
  | a :: tl, rest =>
    match heads? rest with
    | none => []
    | some hs => (a :: hs) :: zip_from tl (rest.map List.tail)

/-- Python `zip(*iterables)`: pointwise tuples truncated at the shortest
iterable (empty when there are no iterables). -/
def python_zip : List (List α) → List (List α)
  | [] => []
  | l :: rest => zip_from l rest

/-- `acc |= d` (`operator.ior`) on dicts: insert every entry of `d` into
`acc` in order, so entries of `d` override existing keys in place. -/
def dict_update (acc : List (JKey × Json)) (d : List (JKey × Json)) : List (JKey × Json) :=
  d.foldl (fun a kv => dict_set a kv.1 kv.2) acc

/-- `reduce(operator.ior, scopes, ` with an empty dict as initial value `)`:
the left-to-right merge of one positional tuple of zip scopes, later dicts
overriding earlier ones on key collisions. -/
def merge_scopes (dicts : List (List (JKey × Json))) : Json :=
  .obj (dicts.foldl dict_update [])

mutual
/-- `Rhs.evaluate`, dispatching over every node kind exactly as the Python
subclasses do. -/
def rhs_evaluate : Nat → Rhs → Json → Json → Except EvalErr Json
  | 0, _, _, _ => .error .recursionError
  | fuel + 1, rhs, scope, univ =>
    match rhs with
    | .noOpRhs _ => .ok .null
    | .valueLiteral _ value => .ok (.str value)
    | .numericLiteral _ value => .ok (.num value)
    | .reference _ path global_scope =>
      if global_scope then resolve path univ else resolve path scope
    | .listIndexReference _ path global_scope =>
      if global_scope then resolve path univ else resolve path scope
    | .scope _ contents => scope_evaluate fuel contents scope univ
    | .array _ values =>
      match values.mapM (fun v => rhs_evaluate fuel v scope univ) with
      | .ok items => .ok (.arr items)
      | .error e => .error e
    | .bind _ contents ref =>
      match ref with
      | .reference _ path _ | .listIndexReference _ path _ =>
        match resolve path scope with
        | .ok (.obj kvs) => scope_evaluate fuel contents (.obj kvs) univ
        | .ok _ => .error (.valueError
            "The reference passed as an argument to bind must resolve to a JSON object")
        | .error e => .error e
      | _ => .error .attributeError
    | .map _ contents source =>
      match collate fuel source scope univ with
      | .ok to_map =>
        match to_map.iter.mapM (fun item => scope_evaluate fuel contents item univ) with
        | .ok items => .ok (.arr items)
        | .error e => .error e
      | .error e => .error e
    | .zip _ contents sources =>
      match sources.mapM (fun source => collate fuel source scope univ) with
      | .ok resolved =>
        let indexed := zip_indexed 0 (resolved.map Collated.iter)
        let merged := (python_zip indexed).map merge_scopes
        match merged.mapM (fun zipped_scope => scope_evaluate fuel contents zipped_scope univ) with
        | .ok items => .ok (.arr items)
        | .error e => .error e
      | .error e => .error e

/-- `Scope.evaluate`: a statement list builds a dict from the non-`None`
results; a single statement returns its value directly (a `None` result
raises the "Illegal statement evaluation" `ValueError`, a returned pair is
always truthy). -/
def scope_evaluate : Nat → ScopeContents → Json → Json → Except EvalErr Json
  | 0, _, _, _ => .error .recursionError
  | fuel + 1, contents, scope, univ =>
    match contents with
    | .list stmts =>
      match stmts.mapM (fun st => statement_evaluate fuel st scope univ) with
      | .ok results =>
        .ok (.obj (results.foldl
          (fun acc r =>
            match r with
            | some (k, v) => dict_set acc (.s k) v
            | none => acc)
          []))
      | .error e => .error e
    | .single stmt =>
      match statement_evaluate fuel stmt scope univ with
      | .ok (some (_, value)) => .ok value
      | .ok none => .error (.valueError "Illegal statement evaluation")
      | .error e => .error e

/-- `Statement.evaluate`: `None` for a no-op left-hand side, otherwise the
key (empty for an anonymous left-hand side) paired with the evaluated
right-hand side. -/
def statement_evaluate : Nat → Statement → Json → Json →
    Except EvalErr (Option (String × Json))
  | 0, _, _, _ => .error .recursionError
  | fuel + 1, .mk lhs rhs, scope, univ =>
    match lhs with
    | .noOp _ _ => .ok none
    | .anonymous _ _ =>
      match rhs_evaluate fuel rhs scope univ with
      | .ok value => .ok (some ("", value))
      | .error e => .error e
    | .named _ key =>
      match rhs_evaluate fuel rhs scope univ with
      | .ok value => .ok (some (key, value))
      | .error e => .error e

/-- `ast.collate`: evaluate an `Array` source in the current scope, resolve
a `Reference` source against the current scope (note: ignoring its
`global_scope` flag), then require a list-like value. -/
def collate : Nat → Rhs → Json → Json → Except EvalErr Collated
  | 0, _, _, _ => .error .recursionError
  | fuel + 1, source, scope, univ =>
    match source with
    | .array _ values =>
      match values.mapM (fun v => rhs_evaluate fuel v scope univ) with
      | .ok items => .ok (.list items)
      | .error e => .error e
    | .reference _ path _ | .listIndexReference _ path _ =>
      match resolve path scope with
      | .ok (.arr xs) => .ok (.list xs)
      | .ok (.obj kvs) => .ok (.dict kvs)
      | .ok _ => .error (.valueError "The argument to \"map\" must be iterable")
      | .error e => .error e
    | _ => .error .unboundLocalError
end

/-- The statement loop of `JsonMapping.apply`: evaluate each statement with
the input as both scope and univ and insert each truthy (non-`None`)
result into the output dict. -/
def apply_loop (fuel : Nat) : List Statement → Json → List (JKey × Json) →
    Except EvalErr (List (JKey × Json))
  | [], _, output => .ok output
  | st :: rest, data, output =>
    match statement_evaluate fuel st data data with
    | .ok (some (key, value)) => apply_loop fuel rest data (dict_set output (.s key) value)
    | .ok none => apply_loop fuel rest data output
    | .error e => .error e

/-- `JsonMapping.apply` on already-compiled statements. -/
def json_mapping_apply (fuel : Nat) (statements : List Statement) (data : Json) :
    Except EvalErr Json :=
  match apply_loop fuel statements data [] with
  | .ok output => .ok (.obj output)
  | .error e => .error e

/-- An error surfaced by the whole pipeline: either a compile-stage error or
an evaluation-stage error. -/
inductive ApplyErr
  | compileStage (e : CompileErr)
  | evalStage (e : EvalErr)
deriving DecidableEq

/-- Fuel ample for evaluating a compiled program: the AST nesting depth is
bounded by the token count, which is bounded by the program length. -/
def eval_fuel (program : String) : Nat := program.length * 4 + 16

/-- The full pipeline: compile the program text, then apply it to the input
document. -/
def apply_program (program : String) (data : Json) : Except ApplyErr Json :=
  match compile program with
  | .error e => .error (.compileStage e)
  | .ok statements =>
    match json_mapping_apply (eval_fuel program) statements data with
    | .ok out => .ok out
    | .error e => .error (.evalStage e)

/-- The check `case Array() | Reference()` used by `Map.parse`, `Zip`'s
argument loop and `collate` (a `ListIndexReference` is a `Reference`
subclass and matches). -/
def Rhs.is_collection_source : Rhs → Bool
  | .array _ _ => true
  | .reference _ _ _ => true
  | .listIndexReference _ _ _ => true
  | _ => false

/-- Replacement of every `;` in a program text by `,`. -/
def semi_to_comma (s : String) : String :=
  String.mk (s.toList.map (fun c => if c = ';' then ',' else c))

/-- Replacement of every `=` in a program text by `:`. -/
def eq_to_colon (s : String) : String :=
  String.mk (s.toList.map (fun c => if c = '=' then ':' else c))

/-- Shortest-length computation: the fold of `min` used to express the
truncation of `zip(*iterables)` to its shortest argument. -/
def fold_min (n : Nat) (ns : List Nat) : Nat := ns.foldl min n

/-- The list of merged per-position scopes built inside `Zip.evaluate` from
the iteration lists of the collated sources: normalize each source by its
index, zip pointwise, and merge each positional tuple. -/
def zip_merged_scopes (Ls : List (List Json)) : List Json :=
  (python_zip (zip_indexed 0 Ls)).map merge_scopes

/-- Whatever offset a compile error carries lies below `n`. -/
def err_pos_lt (n : Nat) (e : CompileErr) : Prop :=
  ∀ p, CompileErr.position? e = some p → p < n

/-- Every position in a tokenizer stream lies below `n`. -/
def stream_bound (n : Nat) (s : CharStream) : Prop := ∀ pc ∈ s, pc.1 < n

/-- Every token's recorded position lies below `n`. -/
def tokens_bound (n : Nat) (ts : List Token) : Prop :=
  ∀ t ∈ ts, Token.position t < n

/-- Compile results whose errors carry offsets below `n` and whose
successful values satisfy `f`. -/
def cres (n : Nat) (f : α → Prop) : Except CompileErr α → Prop
  | .error e => err_pos_lt n e
  | .ok a => f a

/-- Token texts in which the character `c` never occurs where the
interchangeability of `;`/`,` or `=`/`:` could be affected: string and
interpolation literals and quoted reference path segments (for `=` also
bare words, whose delimiters do not include `=`). -/
def token_char_free (c : Char) (check_bare : Bool) : Token → Bool
  | .literal _ text => !(text.toList.contains c)
  | .interpolation _ text => !(text.toList.contains c)
  | .reference _ path _ =>
    path.all (fun seg =>
      match seg with
      | .inl s => !(s.toList.contains c)
      | .inr _ => true)
  | .list_index_reference _ path _ =>
    path.all (fun seg =>
      match seg with
      | .inl s => !(s.toList.contains c)
      | .inr _ => true)
  | .bare_word _ w => if check_bare then !(w.toList.contains c) else true
  | .symbol _ _ => true

/-- No token of the list mentions `;` in a literal, quoted segment or bare
word (the bare-word condition always holds for tokenizer output, since `;`
is a bare-word delimiter). -/
def tokens_semi_free (ts : List Token) : Bool :=
  ts.all (token_char_free ';' true)

/-- No token of the list mentions `=` in a literal, quoted segment or bare
word. -/
def tokens_eq_free (ts : List Token) : Bool :=
  ts.all (token_char_free '=' true)

/-- The character image of a program-text swap, applied to an enumerated
stream: positions survive, characters are mapped. -/
def stream_swap (f : Char → Char) (s : CharStream) : CharStream :=
  s.map (fun pc => (pc.1, f pc.2))

/-- A single-character substitution on program text. -/
def char_swap (c0 c1 c : Char) : Char := if c = c0 then c1 else c

/-- The `;` to `,` character substitution. -/
def semi_swap (c : Char) : Char := if c = ';' then ',' else c

/-- The `=` to `:` character substitution. -/
def eq_swap (c : Char) : Char := if c = '=' then ':' else c

/-- The reference path stored in a reference token (empty for other
tokens). -/
def token_path : Token → List (String ⊕ Int)
  | .reference _ path _ => path
  | .list_index_reference _ path _ => path
  | _ => []

/-- A token none of whose stored text is moved by the character map `f`:
literal and interpolation texts, quoted path segments and bare words are
all fixed pointwise. -/
def token_fixed (f : Char → Char) : Token → Prop
  | .literal _ text => ∀ c ∈ text.toList, f c = c
  | .interpolation _ text => ∀ c ∈ text.toList, f c = c
  | .reference _ path _ => ∀ str, Sum.inl str ∈ path → ∀ c ∈ str.toList, f c = c
  | .list_index_reference _ path _ =>
    ∀ str, Sum.inl str ∈ path → ∀ c ∈ str.toList, f c = c
  | .bare_word _ w => ∀ c ∈ w.toList, f c = c
  | .symbol _ _ => True

/-! ## Claim theorems -/

/-- C1: the list-index zip program of the spec, applied to the empty object,
produces exactly the claimed document; each scalar element of the i-th zip
source is wrapped as a singleton object keyed by the integer i, and the
list-index reference path `?.i` resolves to that element in the per-position
merged scope. -/
theorem c1_list_index_zip :
    apply_program
        "numbers = zip [1,2,3] [\"one\",\"two\",\"three\"] \x7b \"value\": &?.0, \"name\": &?.1, \x7d"
        (.obj []) =
      .ok (.obj [(.s "numbers", .arr
        [.obj [(.s "value", .num 1), (.s "name", .str "one")],
         .obj [(.s "value", .num 2), (.s "name", .str "two")],
         .obj [(.s "value", .num 3), (.s "name", .str "three")]])]) ∧
    zip_normalize 0 [.num 1, .num 2, .num 3] =
      [[(JKey.i 0, .num 1)], [(JKey.i 0, .num 2)], [(JKey.i 0, .num 3)]] ∧
    zip_normalize 1 [.str "one", .str "two", .str "three"] =
      [[(JKey.i 1, .str "one")], [(JKey.i 1, .str "two")], [(JKey.i 1, .str "three")]] ∧
    resolve [Sum.inr 0] (merge_scopes [[(JKey.i 0, .num 1)], [(JKey.i 1, .str "one")]]) =
      .ok (.num 1) ∧
    resolve [Sum.inr 1] (merge_scopes [[(JKey.i 0, .num 1)], [(JKey.i 1, .str "one")]]) =
      .ok (.str "one") := by
  refine ⟨rfl, rfl, rfl, rfl, rfl⟩

/-- C3: the bind program of the spec narrows the local scope to the object
the reference resolves to, the body's unqualified references resolve against
that narrowed scope, and a `&!` reference resolves against the unchanged
universe (it fails against the narrowed scope, succeeds against the
original input). -/
theorem c3_bind_scope_and_universe :
    apply_program
        "foo = bind &bar \x7b \"first\": &first, \"second\": &second.third, fourth: &!fourth \x7d"
        (.obj [(.s "fourth", .num 4),
               (.s "bar", .obj [(.s "first", .num 1),
                                (.s "second", .obj [(.s "third", .num 3)])])]) =
      .ok (.obj [(.s "foo",
        .obj [(.s "first", .num 1), (.s "second", .num 3), (.s "fourth", .num 4)])]) ∧
    rhs_evaluate 5 (.reference 0 [Sum.inl "fourth"] true)
        (.obj [(.s "first", .num 1), (.s "second", .obj [(.s "third", .num 3)])])
        (.obj [(.s "fourth", .num 4)]) =
      .ok (.num 4) ∧
    rhs_evaluate 5 (.reference 0 [Sum.inl "fourth"] false)
        (.obj [(.s "first", .num 1), (.s "second", .obj [(.s "third", .num 3)])])
        (.obj [(.s "fourth", .num 4)]) =
      .error (.keyError (.s "fourth")) := by
  refine ⟨rfl, rfl, rfl⟩

/-- C4 counterexample: the path segment `-1` applied to a two-element array
selects the last element (Python from-the-end indexing) instead of raising
an error, contrary to the claim that every negative index yields an
error. -/
theorem c4_counterexample_negative_index :
    resolve [Sum.inl "-1"] (Json.arr [.str "a", .str "b"]) = .ok (.str "b") := rfl

/-- Characterization of Python list subscription as modelled by
`python_list_get`: an in-range non-negative index selects directly, a
negative index with `-len ≤ i` selects from the end, and everything else is
an `IndexError`. -/
theorem python_list_get_spec (xs : List Json) (i : Int) :
    (∀ v, python_list_get xs i = .ok v ↔
      (0 ≤ i ∧ xs.get? i.toNat = some v) ∨
      (i < 0 ∧ 0 ≤ i + xs.length ∧ xs.get? (i + xs.length).toNat = some v)) ∧
    (python_list_get xs i = .error .indexError ↔
      ((xs.length : Int) ≤ i ∨ i + xs.length < 0)) := by
  unfold python_list_get
  by_cases hneg : i < 0
  · simp only [if_pos hneg]
    by_cases hge : 0 ≤ i + (xs.length : Int)
    · simp only [if_pos hge]
      cases hg : xs.get? (i + (xs.length : Int)).toNat with
      | some w =>
        have hlt : (i + (xs.length : Int)).toNat < xs.length := (List.get?_eq_some.mp hg).1
        constructor
        · intro v
          constructor
          · intro h
            injection h with h
            exact Or.inr ⟨hneg, hge, congrArg some h⟩
          · rintro (⟨h0, _⟩ | ⟨_, _, hgv⟩)
            · omega
            · injection hgv with hv
              rw [hv]
        · constructor
          · intro h; exact absurd h (by simp)
          · intro hcase; exfalso; omega
      | none =>
        have hlen : xs.length ≤ (i + (xs.length : Int)).toNat := List.get?_eq_none.mp hg
        exfalso
        omega
    · simp only [if_neg hge]
      constructor
      · intro v
        constructor
        · intro h; exact absurd h (by simp)
        · rintro (⟨h0, _⟩ | ⟨_, h1, _⟩) <;> omega
      · constructor
        · intro _; exact Or.inr (by omega)
        · intro _; trivial
  · simp only [if_neg hneg]
    have h0 : 0 ≤ i := by omega
    simp only [if_pos h0]
    cases hg : xs.get? i.toNat with
    | some w =>
      have hlt : i.toNat < xs.length := (List.get?_eq_some.mp hg).1
      constructor
      · intro v
        constructor
        · intro h
          injection h with h
          exact Or.inl ⟨h0, congrArg some h⟩
        · rintro (⟨_, hgv⟩ | ⟨hlt2, _, _⟩)
          · injection hgv with hv
            rw [hv]
          · omega
      · constructor
        · intro h; exact absurd h (by simp)
        · intro hcase; exfalso; omega
    | none =>
      have hlen : xs.length ≤ i.toNat := List.get?_eq_none.mp hg
      constructor
      · intro v
        constructor
        · intro h; exact absurd h (by simp)
        · rintro (⟨_, hgv⟩ | ⟨hlt2, _, _⟩)
          · exact Option.noConfusion hgv
          · omega
      · constructor
        · intro _; exact Or.inl (by omega)
        · intro _; trivial

/-- C4 amended: a path segment applied to an array is parsed as a signed
integer and then follows Python list indexing: a negative index `i` with
`-len ≤ i` selects the element counted from the end, and only indices
outside `[-len, len)` raise an error (`IndexError`, not a structured
evaluation error). -/
theorem c4_amended_python_indexing (xs : List Json) (seg : String ⊕ Int) (i : Int)
    (h : segment_int seg = .ok i) :
    resolve [seg] (Json.arr xs) = python_list_get xs i ∧
    (∀ v, resolve [seg] (Json.arr xs) = .ok v ↔
      (0 ≤ i ∧ xs.get? i.toNat = some v) ∨
      (i < 0 ∧ 0 ≤ i + xs.length ∧ xs.get? (i + xs.length).toNat = some v)) ∧
    (resolve [seg] (Json.arr xs) = .error .indexError ↔
      ((xs.length : Int) ≤ i ∨ i + xs.length < 0)) := by
  have hres : resolve [seg] (Json.arr xs) = python_list_get xs i := by
    simp only [resolve, h]
    cases python_list_get xs i with
    | ok v => rfl
    | error e => rfl
  refine ⟨hres, ?_, ?_⟩
  · intro v; rw [hres]; exact (python_list_get_spec xs i).1 v
  · rw [hres]; exact (python_list_get_spec xs i).2

/-- C4 witness: instantiating the amended theorem at segment `-1` on a
two-element array. -/
theorem c4_amended_python_indexing_witness :
    resolve [Sum.inl "-1"] (Json.arr [.str "a", .str "b"]) =
      python_list_get [.str "a", .str "b"] (-1) :=
  (c4_amended_python_indexing [.str "a", .str "b"] (Sum.inl "-1") (-1) rfl).1

/-- C7: a backslash followed by any character that is not one of the
recognized escapes (`b f n r t " \\ x u`) makes `capture_string` fail with
`InvalidEscapeSequence` carrying the backslash's offset and the offending
code, and hence makes tokenizing a string literal built around that escape
fail the same way. -/
theorem c7_invalid_escape_sequence (p q fuel : Nat) (c : Char) (rest : CharStream)
    (h1 : ESCAPED_CHARS c = none) (h2 : c ≠ 'x') (h3 : c ≠ 'u') :
    capture_string (fuel + 1) ((p, '\\') :: (q, c) :: rest) '"' =
      .error (.invalid_escape_sequence p c) ∧
    CompileErr.position? (.invalid_escape_sequence p c) = some p ∧
    tokenize (String.mk ['"', '\\', c, '"']) = .error (.invalid_escape_sequence 1 c) := by
  have hcap : ∀ (fuel p q : Nat) (rest : CharStream),
      capture_string (fuel + 1) ((p, '\\') :: (q, c) :: rest) '"' =
        .error (.invalid_escape_sequence p c) := by
    intro fuel p q rest
    simp [capture_string, h1, h2, h3]
  refine ⟨hcap fuel p q rest, rfl, ?_⟩
  show tokenize_chars 5 [(0, '"'), (1, '\\'), (2, c), (3, '"')] =
    .error (.invalid_escape_sequence 1 c)
  have : capture_string 4 [(1, '\\'), (2, c), (3, '"')] '"' =
      .error (.invalid_escape_sequence 1 c) := hcap 3 1 2 [(3, '"')]
  simp [tokenize_chars, this]

/-- C7 witness: the unrecognized escape `\\q` at offset 1. -/
theorem c7_invalid_escape_sequence_witness :
    tokenize (String.mk ['"', '\\', 'q', '"']) = .error (.invalid_escape_sequence 1 'q') :=
  (c7_invalid_escape_sequence 0 0 0 'q' [] rfl (by decide) (by decide)).2.2

/-- C8 counterexample: the program `foo = map &xs [&a, &b]` makes
compilation fail with a bare `ValueError` that carries no source offset,
not with a structured syntax error. -/
theorem c8_counterexample_unstructured_error :
    compile "foo = map &xs [&a, &b]" =
      .error (.value_error "Only one entry is allowed in the anonymous map scope") ∧
    CompileErr.position? (.value_error "Only one entry is allowed in the anonymous map scope") =
      none :=
  ⟨rfl, rfl⟩

/-- C8 amended: whenever the bracket-form anonymous body of a map parses as
an array literal with any number of elements other than exactly one,
`Map.parse` raises the bare `ValueError` "Only one entry is allowed in the
anonymous map scope", which carries no source offset. -/
theorem c8_amended_anonymous_map_body (fuel position bp ap : Nat)
    (tokens r2 r3 : List Token) (source : Rhs) (values : List Rhs)
    (hsrc : rhs_parse fuel tokens true =
      .ok (source, Token.symbol bp Symbol.left_square_bracket :: r2))
    (hshape : source.is_collection_source = true)
    (harr : array_parse fuel r2 = .ok (ap, values, r3))
    (hlen : values.length ≠ 1) :
    map_parse (fuel + 1) tokens position =
      .error (.value_error "Only one entry is allowed in the anonymous map scope") ∧
    CompileErr.position? (.value_error "Only one entry is allowed in the anonymous map scope") =
      none := by
  refine ⟨?_, rfl⟩
  cases values with
  | nil =>
    cases source with
    | array p2 vals => simp only [map_parse, hsrc, harr]
    | reference p2 path g => simp only [map_parse, hsrc, harr]
    | listIndexReference p2 path g => simp only [map_parse, hsrc, harr]
    | noOpRhs p2 => exact Bool.noConfusion hshape
    | valueLiteral p2 v2 => exact Bool.noConfusion hshape
    | numericLiteral p2 v2 => exact Bool.noConfusion hshape
    | scope p2 c2 => exact Bool.noConfusion hshape
    | bind p2 c2 rx => exact Bool.noConfusion hshape
    | map p2 c2 s2 => exact Bool.noConfusion hshape
    | zip p2 c2 s2 => exact Bool.noConfusion hshape
  | cons v vs =>
    cases vs with
    | nil => exact absurd rfl hlen
    | cons v2 vs2 =>
      cases source with
      | array p2 vals => simp only [map_parse, hsrc, harr]
      | reference p2 path g => simp only [map_parse, hsrc, harr]
      | listIndexReference p2 path g => simp only [map_parse, hsrc, harr]
      | noOpRhs p2 => exact Bool.noConfusion hshape
      | valueLiteral p2 v2x => exact Bool.noConfusion hshape
      | numericLiteral p2 v2x => exact Bool.noConfusion hshape
      | scope p2 c2 => exact Bool.noConfusion hshape
      | bind p2 c2 rx => exact Bool.noConfusion hshape
      | map p2 c2 s2 => exact Bool.noConfusion hshape
      | zip p2 c2 s2 => exact Bool.noConfusion hshape

/-- C10: a named statement whose right-hand side is the bare word `null`
(parsed as `NoOpRhs`) inserts its name with JSON null into the output — the
key/value pair returned by `Statement.evaluate` is truthy — while a
statement whose left-hand side is a no-op contributes nothing, whatever its
right-hand side. -/
theorem c10_null_statement_inserted :
    apply_program "foo: null," (.obj []) = .ok (.obj [(.s "foo", .null)]) ∧
    (∀ (fuel p p2 : Nat) (name : String) (rest : List Statement) (data : Json)
        (output : List (JKey × Json)),
      apply_loop (fuel + 2) (Statement.mk (.named p name) (.noOpRhs p2) :: rest) data output =
        apply_loop (fuel + 2) rest data (dict_set output (.s name) .null)) ∧
    (∀ (fuel p : Nat) (v : String) (rhs : Rhs) (rest : List Statement) (data : Json)
        (output : List (JKey × Json)),
      apply_loop (fuel + 1) (Statement.mk (.noOp p v) rhs :: rest) data output =
        apply_loop (fuel + 1) rest data output) := by
  refine ⟨rfl, fun _ _ _ _ _ _ _ => rfl, fun _ _ _ _ _ _ _ => rfl⟩

/-- C5 counterexample: applying `foo = &bar;` to an empty object raises a
bare `KeyError` with no source offset, and even compilation can fail without
an offset (an unterminated string literal escapes as a bare
`StopIteration`) — so not every error carries a source offset. -/
theorem c5_counterexample_offsetless_errors :
    apply_program "foo = &bar;" (.obj []) = .error (.evalStage (.keyError (.s "bar"))) ∧
    EvalErr.position? (.keyError (.s "bar")) = none ∧
    tokenize "\"ab" = .error .stop_iteration ∧
    CompileErr.position? .stop_iteration = none :=
  ⟨rfl, rfl, rfl, rfl⟩

/-- C6 counterexample: replacing every `;` by `,` (resp. every `=` by `:`)
changes the contents of string literals, so the replaced program compiles
but produces a different output: the claimed interchangeability fails on
programs whose string literals contain the replaced character. -/
theorem c6_counterexample_replacement_in_literal :
    semi_to_comma "foo = \";\";" = "foo = \",\"," ∧
    apply_program "foo = \";\";" (.obj []) = .ok (.obj [(.s "foo", .str ";")]) ∧
    apply_program "foo = \",\"," (.obj []) = .ok (.obj [(.s "foo", .str ",")]) ∧
    Json.str ";" ≠ Json.str "," ∧
    eq_to_colon "foo = \"=\";" = "foo : \":\";" ∧
    apply_program "foo = \"=\";" (.obj []) = .ok (.obj [(.s "foo", .str "=")]) ∧
    apply_program "foo : \":\";" (.obj []) = .ok (.obj [(.s "foo", .str ":")]) ∧
    Json.str "=" ≠ Json.str ":" := by
  refine ⟨rfl, rfl, rfl, ?_, rfl, rfl, rfl, ?_⟩
  · intro h
    injection h with h2
    exact absurd h2 (by decide)
  · intro h
    injection h with h2
    exact absurd h2 (by decide)

/-- A successful `Except` traversal preserves length. -/
theorem except_mapM_ok_length {α β ε : Type} (f : α → Except ε β) :
    ∀ (xs : List α) (ys : List β), xs.mapM f = .ok ys → ys.length = xs.length := by
  intro xs
  induction xs with
  | nil =>
    intro ys h
    rw [List.mapM_nil] at h
    injection h with h
    subst h
    rfl
  | cons a as ih =>
    intro ys h
    rw [List.mapM_cons] at h
    cases hfa : f a with
    | error e =>
      rw [hfa] at h
      exact absurd h (by simp [Bind.bind, Except.bind])
    | ok b =>
      rw [hfa] at h
      simp only [Bind.bind, Except.bind] at h
      cases hrest : as.mapM f with
      | error e =>
        rw [hrest] at h
        exact absurd h (by simp [Except.bind])
      | ok bs =>
        rw [hrest] at h
        injection h with h
        subst h
        rw [List.length_cons, List.length_cons, ih bs hrest]

/-- A successful `Option` traversal preserves length. -/
theorem option_mapM_some_length {α β : Type} (f : α → Option β) :
    ∀ (xs : List α) (ys : List β), xs.mapM f = some ys → ys.length = xs.length := by
  intro xs
  induction xs with
  | nil =>
    intro ys h
    rw [List.mapM_nil] at h
    injection h with h
    subst h
    rfl
  | cons a as ih =>
    intro ys h
    rw [List.mapM_cons] at h
    cases hfa : f a with
    | none =>
      rw [hfa] at h
      exact absurd h (by simp [Bind.bind, Option.bind])
    | some b =>
      rw [hfa] at h
      simp only [Bind.bind, Option.bind] at h
      cases hrest : as.mapM f with
      | none =>
        rw [hrest] at h
        exact absurd h (by simp)
      | some bs =>
        rw [hrest] at h
        injection h with h
        subst h
        rw [List.length_cons, List.length_cons, ih bs hrest]

/-- An `Option` traversal fails whenever some element fails. -/
theorem option_mapM_none_of_mem {α β : Type} (f : α → Option β) :
    ∀ (xs : List α) (x : α), x ∈ xs → f x = none → xs.mapM f = none := by
  intro xs
  induction xs with
  | nil => intro x hx; cases hx
  | cons a as ih =>
    intro x hx hfx
    rw [List.mapM_cons]
    rcases List.mem_cons.mp hx with h | h
    · rw [← h, hfx]
      simp [Bind.bind, Option.bind]
    · cases hfa : f a with
      | none => simp [Bind.bind, Option.bind]
      | some b =>
        rw [ih x h hfx]
        simp [Bind.bind, Option.bind]

/-- An `Option` traversal only depends on the function's values on the
list. -/
theorem option_mapM_congr {α β : Type} (f g : α → Option β) :
    ∀ (xs : List α), (∀ x ∈ xs, f x = g x) → xs.mapM f = xs.mapM g := by
  intro xs
  induction xs with
  | nil => intro _; rfl
  | cons a as ih =>
    intro h
    rw [List.mapM_cons, List.mapM_cons, h a (List.mem_cons_self a as),
      ih (fun x hx => h x (List.mem_cons_of_mem a hx))]

/-- An `Option` traversal of a mapped list. -/
theorem option_mapM_map {α β γ : Type} (g : α → β) (f : β → Option γ) :
    ∀ (xs : List α), (xs.map g).mapM f = xs.mapM (fun x => f (g x)) := by
  intro xs
  induction xs with
  | nil => rfl
  | cons a as ih => rw [List.map_cons, List.mapM_cons, List.mapM_cons, ih]

/-- When `heads?` succeeds, every iterable is non-empty. -/
theorem heads?_some_nonempty {α : Type} :
    ∀ (ls : List (List α)) (hs : List α), heads? ls = some hs → ∀ xs ∈ ls, xs ≠ [] := by
  intro ls
  induction ls with
  | nil => intro hs _ xs hx; cases hx
  | cons l rest ih =>
    intro hs h xs hx
    rw [heads?, List.mapM_cons] at h
    cases hl : l.head? with
    | none =>
      rw [hl] at h
      exact absurd h (by simp [Bind.bind, Option.bind])
    | some a =>
      rw [hl] at h
      simp only [Bind.bind, Option.bind] at h
      cases hrest : rest.mapM List.head? with
      | none => rw [hrest] at h; exact absurd h (by simp)
      | some hs2 =>
        rcases List.mem_cons.mp hx with hxl | hxr
        · rw [hxl]
          intro he
          rw [he] at hl
          cases hl
        · exact ih hs2 hrest xs hxr

/-- When `heads?` fails, some iterable is empty. -/
theorem heads?_none_empty {α : Type} :
    ∀ (ls : List (List α)), heads? ls = none → ∃ xs ∈ ls, xs = [] := by
  intro ls
  induction ls with
  | nil => intro h; cases h
  | cons l rest ih =>
    intro h
    rw [heads?, List.mapM_cons] at h
    cases hl : l.head? with
    | none =>
      refine ⟨l, List.mem_cons_self l rest, ?_⟩
      cases l with
      | nil => rfl
      | cons a as => cases hl
    | some a =>
      rw [hl] at h
      simp only [Bind.bind, Option.bind] at h
      cases hrest : rest.mapM List.head? with
      | none =>
        obtain ⟨xs, hmem, hxe⟩ := ih hrest
        exact ⟨xs, List.mem_cons_of_mem l hmem, hxe⟩
      | some hs2 => rw [hrest] at h; exact absurd h (by simp)

/-- `fold_min` starting from zero is zero. -/
theorem fold_min_zero : ∀ (ns : List Nat), fold_min 0 ns = 0 := by
  intro ns
  induction ns with
  | nil => rfl
  | cons m ns ih => rw [fold_min, List.foldl_cons, Nat.zero_min]; exact ih

/-- `fold_min` is bounded by its initial value. -/
theorem fold_min_le_init : ∀ (ns : List Nat) (n : Nat), fold_min n ns ≤ n := by
  intro ns
  induction ns with
  | nil => intro n; exact Nat.le_refl n
  | cons m ns ih =>
    intro n
    rw [fold_min, List.foldl_cons]
    exact Nat.le_trans (ih (min n m)) (Nat.min_le_left n m)

/-- `fold_min` is bounded by every member. -/
theorem fold_min_le_mem : ∀ (ns : List Nat) (n m : Nat), m ∈ ns → fold_min n ns ≤ m := by
  intro ns
  induction ns with
  | nil => intro n m hm; cases hm
  | cons m0 ns ih =>
    intro n m hm
    rw [fold_min, List.foldl_cons]
    rcases List.mem_cons.mp hm with h | h
    · subst h
      exact Nat.le_trans (fold_min_le_init ns (min n m)) (Nat.min_le_right n m)
    · exact ih (min n m0) m h

/-- `fold_min` is attained: it equals the initial value or some member. -/
theorem fold_min_attained : ∀ (ns : List Nat) (n : Nat),
    fold_min n ns = n ∨ ∃ m ∈ ns, fold_min n ns = m := by
  intro ns
  induction ns with
  | nil => intro n; exact Or.inl rfl
  | cons m0 ns ih =>
    intro n
    rw [fold_min, List.foldl_cons]
    rcases ih (min n m0) with h | ⟨m, hm, he⟩
    · rcases Nat.le_total n m0 with hle | hle
      · rw [Nat.min_eq_left hle] at h ⊢
        exact Or.inl h
      · rw [Nat.min_eq_right hle] at h ⊢
        exact Or.inr ⟨m0, List.mem_cons_self m0 ns, h⟩
    · exact Or.inr ⟨m, List.mem_cons_of_mem m0 hm, he⟩

/-- One step of `fold_min` under everywhere-positive members. -/
theorem fold_min_succ_pred : ∀ (ns : List Nat) (n : Nat), (∀ m ∈ ns, m ≠ 0) →
    fold_min (n + 1) ns = fold_min n (ns.map Nat.pred) + 1 := by
  intro ns
  induction ns with
  | nil => intro n _; rfl
  | cons m0 ns ih =>
    intro n hpos
    have hm0 : m0 ≠ 0 := hpos m0 (List.mem_cons_self m0 ns)
    obtain ⟨m0p, rfl⟩ := Nat.exists_eq_succ_of_ne_zero hm0
    rw [fold_min, List.foldl_cons, List.map_cons]
    have : min (n + 1) (m0p + 1) = min n m0p + 1 := Nat.succ_min_succ n m0p
    rw [this]
    have hrest : ∀ m ∈ ns, m ≠ 0 := fun m hm => hpos m (List.mem_cons_of_mem m0p.succ hm)
    have := ih (min n m0p) hrest
    rw [fold_min] at this
    rw [this]
    rfl

/-- The length of `zip_from`: the minimum of all the iterables' lengths. -/
theorem zip_from_length {α : Type} :
    ∀ (l : List α) (rest : List (List α)),
      (zip_from l rest).length = fold_min l.length (rest.map List.length) := by
  intro l
  induction l with
  | nil =>
    intro rest
    simp [zip_from, fold_min_zero]
  | cons a tl ih =>
    intro rest
    rw [zip_from]
    cases hh : heads? rest with
    | none =>
      obtain ⟨xs, hmem, hxe⟩ := heads?_none_empty rest hh
      have h0 : (0 : Nat) ∈ rest.map List.length := by
        rw [← List.length_nil (α := α), ← hxe]
        exact List.mem_map_of_mem List.length hmem
      have hle := fold_min_le_mem (rest.map List.length) (tl.length + 1) 0 h0
      simp only [List.length_nil, List.length_cons]
      omega
    | some hs =>
      have hne : ∀ xs ∈ rest, xs ≠ [] := heads?_some_nonempty rest hs hh
      rw [List.length_cons, ih (rest.map List.tail), List.length_cons]
      have hmap : (rest.map List.tail).map List.length = (rest.map List.length).map Nat.pred := by
        rw [List.map_map, List.map_map]
        exact List.map_congr_left (fun xs _ => by
          simp only [Function.comp_apply, List.length_tail]
          rfl)
      rw [hmap, ← fold_min_succ_pred]
      intro m hm
      obtain ⟨xs, hmem, hlen⟩ := List.mem_map.mp hm
      have := hne xs hmem
      intro h0
      rw [h0] at hlen
      exact this (List.eq_nil_of_length_eq_zero hlen)

/-- Positional access into `zip_from`: the pointwise heads of all the
iterables at that index. -/
theorem zip_from_get? {α : Type} :
    ∀ (l : List α) (rest : List (List α)) (k : Nat),
      (zip_from l rest).get? k =
        (l.get? k).bind (fun a =>
          (rest.mapM (fun xs : List α => xs.get? k)).map (fun hs => a :: hs)) := by
  intro l
  induction l with
  | nil => intro rest k; rw [zip_from]; rfl
  | cons a tl ih =>
    intro rest k
    rw [zip_from]
    cases hh : heads? rest with
    | none =>
      obtain ⟨xs, hmem, hxe⟩ := heads?_none_empty rest hh
      have hnone : rest.mapM (fun xs : List α => xs.get? k) = none := by
        refine option_mapM_none_of_mem _ rest xs hmem ?_
        rw [hxe]
        rfl
      rw [hnone]
      cases (a :: tl).get? k <;> rfl
    | some hs =>
      have hne : ∀ xs ∈ rest, xs ≠ [] := heads?_some_nonempty rest hs hh
      cases k with
      | zero =>
        have hmapm : rest.mapM (fun xs : List α => xs.get? 0) = some hs := by
          rw [option_mapM_congr (fun xs : List α => xs.get? 0) List.head? rest
            (fun xs _ => by cases xs <;> rfl)]
          exact hh
        rw [hmapm]
        rfl
      | succ k =>
        have hstep : rest.mapM (fun xs : List α => xs.get? (k + 1)) =
            (rest.map List.tail).mapM (fun xs : List α => xs.get? k) := by
          rw [option_mapM_map]
          exact option_mapM_congr _ _ rest (fun xs _ => by cases xs <;> rfl)
        rw [List.get?_cons_succ, ih (rest.map List.tail) k, hstep]
        rfl

/-- `zip_normalize` preserves the number of elements. -/
theorem zip_normalize_length (index : Nat) (items : List Json) :
    (zip_normalize index items).length = items.length := by
  rw [zip_normalize]
  cases hd : as_dicts? items with
  | some dicts => exact option_mapM_some_length _ items dicts hd
  | none => exact List.length_map items _

/-- `zip_indexed` preserves the lengths of all its sources. -/
theorem zip_indexed_map_length :
    ∀ (Ls : List (List Json)) (i : Nat),
      (zip_indexed i Ls).map List.length = Ls.map List.length := by
  intro Ls
  induction Ls with
  | nil => intro i; rfl
  | cons l rest ih =>
    intro i
    rw [zip_indexed, List.map_cons, List.map_cons, zip_normalize_length, ih]

/-- A key bound by `dict_set` is found with its new value. -/
theorem dict_set_get_self :
    ∀ (acc : List (JKey × Json)) (k : JKey) (v : Json),
      dict_get (dict_set acc k v) k = some v := by
  intro acc
  induction acc with
  | nil => intro k v; simp [dict_set, dict_get]
  | cons kv rest ih =>
    intro k v
    rw [dict_set]
    by_cases h : kv.1 = k
    · simp only [if_pos h]
      rw [dict_get, if_pos h]
    · simp only [if_neg h]
      rw [dict_get, if_neg h]
      exact ih k v

/-- `dict_set` leaves other keys unchanged. -/
theorem dict_set_get_other :
    ∀ (acc : List (JKey × Json)) (k k2 : JKey) (v : Json), k2 ≠ k →
      dict_get (dict_set acc k v) k2 = dict_get acc k2 := by
  intro acc
  induction acc with
  | nil =>
    intro k k2 v hne
    rw [dict_set, dict_get, dict_get, if_neg (fun h => hne h.symm)]
    rfl
  | cons kv rest ih =>
    intro k k2 v hne
    rw [dict_set]
    by_cases h : kv.1 = k
    · simp only [if_pos h]
      rw [dict_get, dict_get]
      by_cases h2 : kv.1 = k2
      · rw [h] at h2
        exact absurd h2.symm hne
      · rw [if_neg h2, if_neg h2]
    · simp only [if_neg h]
      rw [dict_get, dict_get]
      by_cases h2 : kv.1 = k2
      · rw [if_pos h2, if_pos h2]
      · rw [if_neg h2, if_neg h2]
        exact ih k k2 v hne

/-- A key absent from a dict is not found. -/
theorem dict_get_eq_none_of_not_mem :
    ∀ (d : List (JKey × Json)) (k : JKey), k ∉ d.map Prod.fst → dict_get d k = none := by
  intro d
  induction d with
  | nil => intro k _; rfl
  | cons kv rest ih =>
    intro k hk
    rw [dict_get]
    rw [List.map_cons, List.mem_cons] at hk
    push_neg at hk
    rw [if_neg (fun h => hk.1 h.symm)]
    exact ih k hk.2

/-- C2's override fact: merging a dict `d` with no duplicate keys into an
accumulator (`acc |= d`) makes `d`'s bindings win on key collisions and
keeps the accumulator's bindings elsewhere. -/
theorem dict_update_get (d : List (JKey × Json)) :
    ∀ (acc : List (JKey × Json)) (k : JKey), (d.map Prod.fst).Nodup →
      dict_get (dict_update acc d) k =
        match dict_get d k with
        | some v => some v
        | none => dict_get acc k := by
  induction d with
  | nil => intro acc k _; rfl
  | cons kv rest ih =>
    intro acc k hnd
    rw [List.map_cons, List.nodup_cons] at hnd
    have hupd : dict_update acc (kv :: rest) = dict_update (dict_set acc kv.1 kv.2) rest := rfl
    rw [hupd, ih (dict_set acc kv.1 kv.2) k hnd.2, dict_get]
    by_cases hk : kv.1 = k
    · rw [if_pos hk]
      have hnone : dict_get rest k = none := by
        refine dict_get_eq_none_of_not_mem rest k ?_
        rw [← hk]
        exact hnd.1
      rw [hnone, ← hk]
      exact dict_set_get_self acc kv.1 kv.2
    · rw [if_neg hk]
      cases dict_get rest k with
      | some v => rfl
      | none => exact dict_set_get_other acc kv.1 k kv.2 (fun h => hk h.symm)

/-- Erasing the `Collated.list` wrappers recovers the underlying sequences. -/
theorem map_list_iter : ∀ (Ls : List (List Json)),
    (Ls.map Collated.list).map Collated.iter = Ls := by
  intro Ls
  induction Ls with
  | nil => rfl
  | cons l rest ih =>
    rw [List.map_cons, List.map_cons, ih]
    rfl

/-- C2: for a zip expression whose sources all collate to sequences, the
evaluator maps the body over `zip_merged_scopes`; that list of scopes (and
hence the output array) is truncated to the shortest source, its length
being the minimum of the source lengths, attained by some source and at
most every source; the scope at position `k` is the merge of the
per-source dicts at position `k`; and merging lets a later dict override
the accumulated earlier ones on key collisions. -/
theorem c2_zip_truncates_and_merges (fuel p : Nat) (contents : ScopeContents)
    (sources : List Rhs) (scope univ : Json)
    (L0 : List Json) (Lrest : List (List Json))
    (hcol : sources.mapM (fun source => collate fuel source scope univ) =
      .ok ((L0 :: Lrest).map Collated.list)) :
    rhs_evaluate (fuel + 1) (.zip p contents sources) scope univ =
      (match (zip_merged_scopes (L0 :: Lrest)).mapM
          (fun zipped_scope => scope_evaluate fuel contents zipped_scope univ) with
        | .ok items => .ok (.arr items)
        | .error e => .error e) ∧
    (zip_merged_scopes (L0 :: Lrest)).length =
      fold_min L0.length (Lrest.map List.length) ∧
    (∀ L ∈ L0 :: Lrest, (zip_merged_scopes (L0 :: Lrest)).length ≤ L.length) ∧
    (∃ L ∈ L0 :: Lrest, (zip_merged_scopes (L0 :: Lrest)).length = L.length) ∧
    (∀ items, (zip_merged_scopes (L0 :: Lrest)).mapM
        (fun zipped_scope => scope_evaluate fuel contents zipped_scope univ) =
          .ok items →
      items.length = fold_min L0.length (Lrest.map List.length)) ∧
    (∀ k, (zip_merged_scopes (L0 :: Lrest)).get? k =
      ((zip_indexed 0 (L0 :: Lrest)).mapM
        (fun d : List (List (JKey × Json)) => d.get? k)).map merge_scopes) ∧
    (∀ (ds : List (List (JKey × Json))) (d : List (JKey × Json))
        (key : JKey) (v : Json),
      (d.map Prod.fst).Nodup → dict_get d key = some v →
        merge_scopes (ds ++ [d]) =
          .obj (dict_update (ds.foldl dict_update []) d) ∧
        dict_get (dict_update (ds.foldl dict_update []) d) key = some v) := by
  have hlen : (zip_merged_scopes (L0 :: Lrest)).length =
      fold_min L0.length (Lrest.map List.length) := by
    rw [zip_merged_scopes, List.length_map, zip_indexed, python_zip,
      zip_from_length, zip_normalize_length, zip_indexed_map_length]
  refine ⟨?_, hlen, ?_, ?_, ?_, ?_, ?_⟩
  · simp only [rhs_evaluate, hcol, map_list_iter, zip_merged_scopes]
  · intro L hL
    rw [hlen]
    rcases List.mem_cons.mp hL with h | h
    · rw [h]
      exact fold_min_le_init (Lrest.map List.length) L0.length
    · exact fold_min_le_mem (Lrest.map List.length) L0.length L.length
        (List.mem_map_of_mem List.length h)
  · rcases fold_min_attained (Lrest.map List.length) L0.length with h | ⟨m, hm, he⟩
    · exact ⟨L0, List.mem_cons_self L0 Lrest, hlen.trans h⟩
    · obtain ⟨L, hL, hLlen⟩ := List.mem_map.mp hm
      exact ⟨L, List.mem_cons_of_mem L0 hL, hlen.trans (hLlen ▸ he)⟩
  · intro items hitems
    have h := except_mapM_ok_length _ _ _ hitems
    rw [h, hlen]
  · intro k
    rw [zip_merged_scopes, List.get?_map, zip_indexed, python_zip,
      zip_from_get?, List.mapM_cons]
    cases (zip_normalize 0 L0).get? k with
    | none => rfl
    | some d0 =>
      cases (zip_indexed 1 Lrest).mapM
          (fun d : List (List (JKey × Json)) => d.get? k) with
      | none => rfl
      | some ds => rfl
  · intro ds d key v hnd hv
    constructor
    · rw [merge_scopes, List.foldl_append]
      rfl
    · rw [dict_update_get d (ds.foldl dict_update []) key hnd, hv]

/-- Witness for C2 at a concrete two-source zip of lengths 2 and 3. -/
theorem c2_zip_truncates_and_merges_witness :
    (zip_merged_scopes ([Json.num (mkRat 1 1), Json.num (mkRat 2 1)] ::
        [[Json.str "a", Json.str "b", Json.str "c"]])).length =
      fold_min [Json.num (mkRat 1 1), Json.num (mkRat 2 1)].length
        ([[Json.str "a", Json.str "b", Json.str "c"]].map List.length) :=
  (c2_zip_truncates_and_merges 1 0 (ScopeContents.list [])
    [Rhs.reference 0 [Sum.inl "xs"] false, Rhs.reference 1 [Sum.inl "ys"] false]
    (Json.obj [(JKey.s "xs", Json.arr [Json.num (mkRat 1 1), Json.num (mkRat 2 1)]),
      (JKey.s "ys", Json.arr [Json.str "a", Json.str "b", Json.str "c"])])
    (Json.obj [])
    [Json.num (mkRat 1 1), Json.num (mkRat 2 1)]
    [[Json.str "a", Json.str "b", Json.str "c"]] (by rfl)).2.1

/-- Witness for the amended C8 claim at the tokens of the map expression
in "foo = map &xs [&a, &b]". -/
theorem c8_amended_anonymous_map_body_witness :
    map_parse 21
      [Token.reference 10 [Sum.inl "xs"] false,
       Token.symbol 14 Symbol.left_square_bracket,
       Token.reference 15 [Sum.inl "a"] false,
       Token.symbol 17 Symbol.end_of_statement,
       Token.reference 19 [Sum.inl "b"] false,
       Token.symbol 21 Symbol.right_square_bracket] 6 =
      .error (.value_error "Only one entry is allowed in the anonymous map scope") ∧
    CompileErr.position?
      (.value_error "Only one entry is allowed in the anonymous map scope") = none :=
  c8_amended_anonymous_map_body 20 6 14 15
    [Token.reference 10 [Sum.inl "xs"] false,
     Token.symbol 14 Symbol.left_square_bracket,
     Token.reference 15 [Sum.inl "a"] false,
     Token.symbol 17 Symbol.end_of_statement,
     Token.reference 19 [Sum.inl "b"] false,
     Token.symbol 21 Symbol.right_square_bracket]
    [Token.reference 15 [Sum.inl "a"] false,
     Token.symbol 17 Symbol.end_of_statement,
     Token.reference 19 [Sum.inl "b"] false,
     Token.symbol 21 Symbol.right_square_bracket]
    []
    (Rhs.reference 10 [Sum.inl "xs"] false)
    [Rhs.reference 15 [Sum.inl "a"] false, Rhs.reference 19 [Sum.inl "b"] false]
    (by rfl) (by rfl) (by rfl) (by decide)

/-! Offset bounds for the tokenizer -/

/-- An error without an offset trivially has its offsets in range. -/
theorem err_pos_lt_none (n : Nat) (e : CompileErr)
    (h : CompileErr.position? e = none) : err_pos_lt n e := by
  intro p hp
  rw [h] at hp
  exact Option.noConfusion hp

/-- A syntax error has its offset in range when the offset is. -/
theorem err_pos_lt_syntax (n pos : Nat) (msg : String) (h : pos < n) :
    err_pos_lt n (.json_map_syntax_error pos msg) := by
  intro p hp
  injection hp with hp
  omega

/-- An escape error has its offset in range when the offset is. -/
theorem err_pos_lt_escape (n pos : Nat) (c : Char) (h : pos < n) :
    err_pos_lt n (.invalid_escape_sequence pos c) := by
  intro p hp
  injection hp with hp
  omega

/-- A bounded stream stays bounded after dropping its head. -/
theorem stream_bound_tail (n : Nat) (pc : Nat × Char) (s : CharStream)
    (h : stream_bound n (pc :: s)) : stream_bound n s :=
  fun x hx => h x (List.mem_cons_of_mem pc hx)

/-- The head position of a bounded stream is in range. -/
theorem stream_bound_head (n : Nat) (pc : Nat × Char) (s : CharStream)
    (h : stream_bound n (pc :: s)) : pc.1 < n :=
  h pc (List.mem_cons_self pc s)

/-- A bounded stream stays bounded after dropping a prefix. -/
theorem stream_bound_drop (n k : Nat) (s : CharStream)
    (h : stream_bound n s) : stream_bound n (s.drop k) :=
  fun x hx => h x (List.mem_of_mem_drop hx)

/-- Bounded token lists are closed under dropping the head. -/
theorem tokens_bound_tail (n : Nat) (t : Token) (ts : List Token)
    (h : tokens_bound n (t :: ts)) : tokens_bound n ts :=
  fun x hx => h x (List.mem_cons_of_mem t hx)

/-- The head of a bounded token list has its position in range. -/
theorem tokens_bound_head (n : Nat) (t : Token) (ts : List Token)
    (h : tokens_bound n (t :: ts)) : Token.position t < n :=
  h t (List.mem_cons_self t ts)

/-- `capture_escaped_hex` keeps the remaining stream bounded and raises
only offsetless errors. -/
theorem capture_escaped_hex_bound (n : Nat) (s : CharStream) (len : Nat)
    (h : stream_bound n s) :
    cres n (fun cr => stream_bound n cr.2) (capture_escaped_hex s len) := by
  rw [capture_escaped_hex]
  cases int_base16 ((s.take len).map Prod.snd) with
  | some v => exact stream_bound_drop n len s h
  | none => exact err_pos_lt_none n _ rfl

/-- `capture_string` keeps the remaining stream bounded and raises only
errors whose offsets come from the bounded stream. -/
theorem capture_string_bound (n : Nat) :
    ∀ (fuel : Nat) (s : CharStream) (d : Char), stream_bound n s →
      cres n (fun tr => stream_bound n tr.2) (capture_string fuel s d) := by
  intro fuel
  induction fuel with
  | zero =>
    intro s d h
    exact err_pos_lt_none n _ rfl
  | succ fuel ih =>
    intro s d h
    cases s with
    | nil => exact err_pos_lt_none n _ rfl
    | cons pc rest =>
      obtain ⟨pos, char⟩ := pc
      simp only [capture_string]
      by_cases hc : char = d
      · rw [if_pos hc]
        exact stream_bound_tail n _ rest h
      · rw [if_neg hc]
        by_cases hb : char = '\\'
        · rw [if_neg (not_not_intro hb)]
          cases rest with
          | nil => exact err_pos_lt_none n _ rfl
          | cons pc2 rest2 =>
            obtain ⟨p2, ec⟩ := pc2
            have h2 : stream_bound n rest2 :=
              stream_bound_tail n _ rest2 (stream_bound_tail n _ _ h)
            cases he : ESCAPED_CHARS ec with
            | some esc =>
              simp only [he]
              have IH := ih rest2 d h2
              cases hr : capture_string fuel rest2 d with
              | ok tr =>
                obtain ⟨token, r⟩ := tr
                rw [hr] at IH
                exact IH
              | error e =>
                rw [hr] at IH
                exact IH
            | none =>
              simp only [he]
              by_cases hx : ec = 'x'
              · rw [if_pos hx]
                have HB := capture_escaped_hex_bound n rest2 2 h2
                cases hh : capture_escaped_hex rest2 2 with
                | ok cr =>
                  obtain ⟨hex_char, r2⟩ := cr
                  rw [hh] at HB
                  have IH := ih r2 d HB
                  show cres n (fun tr => stream_bound n tr.2)
                    (match capture_string fuel r2 d with
                      | .ok (token, r) => .ok (hex_char :: token, r)
                      | .error e => .error e)
                  cases hr : capture_string fuel r2 d with
                  | ok tr =>
                    obtain ⟨token, r⟩ := tr
                    rw [hr] at IH
                    exact IH
                  | error e =>
                    rw [hr] at IH
                    exact IH
                | error e =>
                  rw [hh] at HB
                  exact HB
              · rw [if_neg hx]
                by_cases hu : ec = 'u'
                · rw [if_pos hu]
                  have HB := capture_escaped_hex_bound n rest2 4 h2
                  cases hh : capture_escaped_hex rest2 4 with
                  | ok cr =>
                    obtain ⟨hex_char, r2⟩ := cr
                    rw [hh] at HB
                    have IH := ih r2 d HB
                    show cres n (fun tr => stream_bound n tr.2)
                      (match capture_string fuel r2 d with
                        | .ok (token, r) => .ok (hex_char :: token, r)
                        | .error e => .error e)
                    cases hr : capture_string fuel r2 d with
                    | ok tr =>
                      obtain ⟨token, r⟩ := tr
                      rw [hr] at IH
                      exact IH
                    | error e =>
                      rw [hr] at IH
                      exact IH
                  | error e =>
                    rw [hh] at HB
                    exact HB
                · rw [if_neg hu]
                  exact err_pos_lt_escape n pos ec (stream_bound_head n _ _ h)
        · rw [if_pos hb]
          have IH := ih rest d (stream_bound_tail n _ rest h)
          cases hr : capture_string fuel rest d with
          | ok tr =>
            obtain ⟨token, r⟩ := tr
            rw [hr] at IH
            exact IH
          | error e =>
            rw [hr] at IH
            exact IH

/-- `capture_bare_word` keeps the remaining stream bounded and raises only
offsetless errors. -/
theorem capture_bare_word_bound (n : Nat) :
    ∀ (fuel : Nat) (s : CharStream) (delims : List Char), stream_bound n s →
      cres n (fun tr => stream_bound n tr.2) (capture_bare_word fuel s delims) := by
  intro fuel
  induction fuel with
  | zero =>
    intro s delims h
    exact err_pos_lt_none n _ rfl
  | succ fuel ih =>
    intro s delims h
    cases s with
    | nil => exact err_pos_lt_none n _ rfl
    | cons pc rest =>
      obtain ⟨pos, next_char⟩ := pc
      simp only [capture_bare_word]
      by_cases hd : next_char ∈ delims
      · rw [if_pos hd]
        exact h
      · rw [if_neg hd]
        by_cases hw : next_char.isWhitespace
        · rw [if_pos hw]
          exact stream_bound_tail n _ rest h
        · rw [if_neg hw]
          have IH := ih rest delims (stream_bound_tail n _ rest h)
          cases hr : capture_bare_word fuel rest delims with
          | ok tr =>
            obtain ⟨token, r⟩ := tr
            rw [hr] at IH
            exact IH
          | error e =>
            rw [hr] at IH
            exact IH

/-- The reference token built by `parse_reference` carries the position it
is given. -/
theorem mk_reference_position (b : Bool) (pos : Nat)
    (path : List (String ⊕ Int)) (g : Bool) :
    Token.position (mk_reference b pos path g) = pos := by
  cases b <;> rfl

/-- `parse_reference` yields a token whose position is in range, keeps the
remaining stream bounded, and raises only errors whose offsets come from
the bounded stream. -/
theorem parse_reference_bound (n : Nat) :
    ∀ (fuel : Nat) (s : CharStream) (position? : Option Nat) (g ili : Bool)
      (path : List (String ⊕ Int)), stream_bound n s →
      (∀ p, position? = some p → p < n) →
      cres n (fun tr => Token.position tr.1 < n ∧ stream_bound n tr.2)
        (parse_reference fuel s position? g ili path) := by
  intro fuel
  induction fuel with
  | zero =>
    intro s position? g ili path h hp
    exact err_pos_lt_none n _ rfl
  | succ fuel ih =>
    intro s position? g ili path h hp
    cases s with
    | nil => exact err_pos_lt_none n _ rfl
    | cons pc rest =>
      obtain ⟨cur, next_char⟩ := pc
      have hcur : cur < n := stream_bound_head n _ _ h
      have hpos : position?.getD cur < n := by
        cases position? with
        | none => exact hcur
        | some p => exact hp p rfl
      have hp2 : ∀ p, some (position?.getD cur) = some p → p < n := by
        intro p hq
        injection hq with hq
        omega
      have htail : stream_bound n rest := stream_bound_tail n _ rest h
      simp only [parse_reference]
      by_cases hw : next_char.isWhitespace
      · rw [if_pos hw]
        refine ⟨?_, h⟩
        rw [mk_reference_position]
        exact hpos
      · rw [if_neg hw]
        by_cases hdot : next_char = '.'
        · rw [if_pos hdot]
          exact ih rest (some (position?.getD cur)) g ili path htail hp2
        · rw [if_neg hdot]
          by_cases hbang : next_char = '!'
          · rw [if_pos hbang]
            by_cases hlen : path.length > 0
            · rw [if_pos hlen]
              exact err_pos_lt_syntax n cur _ hcur
            · rw [if_neg hlen]
              exact ih rest (some (position?.getD cur)) true ili path htail hp2
          · rw [if_neg hbang]
            by_cases hq : next_char = '"'
            · rw [if_pos hq]
              have HS := capture_string_bound n fuel rest '"' htail
              cases hs : capture_string fuel rest '"' with
              | ok tr =>
                obtain ⟨token, r⟩ := tr
                rw [hs] at HS
                exact ih r (some (position?.getD cur)) g ili
                  (path ++ [Sum.inl (String.mk token)]) HS hp2
              | error e =>
                rw [hs] at HS
                exact HS
            · rw [if_neg hq]
              by_cases hmark : next_char = '?'
              · rw [if_pos hmark]
                exact ih rest (some (position?.getD cur)) g true path htail hp2
              · rw [if_neg hmark]
                by_cases hterm : next_char = ';' ∨ next_char = ',' ∨
                    next_char = '{' ∨ next_char = '[' ∨ next_char = '}' ∨
                    next_char = ']'
                · rw [if_pos hterm]
                  refine ⟨?_, h⟩
                  rw [mk_reference_position]
                  exact hpos
                · rw [if_neg hterm]
                  have HW := capture_bare_word_bound n fuel
                    ((cur, next_char) :: rest) reference_delimiters h
                  cases hb : capture_bare_word fuel ((cur, next_char) :: rest)
                      reference_delimiters with
                  | ok tr =>
                    obtain ⟨bare_word, r⟩ := tr
                    rw [hb] at HW
                    cases ili with
                    | true =>
                      show cres n
                        (fun tr => Token.position tr.1 < n ∧ stream_bound n tr.2)
                        (match python_int (String.mk bare_word) with
                          | some m => parse_reference fuel r
                              (some (position?.getD cur)) g true
                              (path ++ [Sum.inr m])
                          | none => .error
                              (.value_error "invalid literal for int() with base 10"))
                      cases hi : python_int (String.mk bare_word) with
                      | some m =>
                        exact ih r (some (position?.getD cur)) g true
                          (path ++ [Sum.inr m]) HW hp2
                      | none => exact err_pos_lt_none n _ rfl
                    | false =>
                      exact ih r (some (position?.getD cur)) g false
                        (path ++ [Sum.inl (String.mk bare_word)]) HW hp2
                  | error e =>
                    rw [hb] at HW
                    exact HW

/-- Extending a bounded token list with a token whose position is in
range. -/
theorem tokens_bound_cons (n : Nat) (t : Token) (ts : List Token)
    (h1 : Token.position t < n) (h2 : tokens_bound n ts) :
    tokens_bound n (t :: ts) := by
  intro x hx
  rcases List.mem_cons.mp hx with h | h
  · rw [h]
    exact h1
  · exact h2 x h

/-- The tokenizer loop produces tokens whose positions are in range and
raises only errors whose offsets come from the bounded stream. -/
theorem tokenize_chars_bound (n : Nat) :
    ∀ (fuel : Nat) (s : CharStream), stream_bound n s →
      cres n (tokens_bound n) (tokenize_chars fuel s) := by
  intro fuel
  induction fuel with
  | zero =>
    intro s h
    exact err_pos_lt_none n _ rfl
  | succ fuel ih =>
    intro s h
    cases s with
    | nil =>
      intro t ht
      exact absurd ht (List.not_mem_nil t)
    | cons pc rest =>
      obtain ⟨position, character⟩ := pc
      have hcur : position < n := stream_bound_head n _ _ h
      have htail : stream_bound n rest := stream_bound_tail n _ rest h
      have IH := ih rest htail
      simp only [tokenize_chars]
      by_cases hws : character.isWhitespace
      · rw [if_pos hws]
        exact IH
      · rw [if_neg hws]
        by_cases heos : character = ';' ∨ character = ','
        · rw [if_pos heos]
          cases hr : tokenize_chars fuel rest with
          | ok tokens =>
            rw [hr] at IH
            exact tokens_bound_cons n _ tokens hcur IH
          | error e =>
            rw [hr] at IH
            exact IH
        · rw [if_neg heos]
          by_cases hlcb : character = '{'
          · rw [if_pos hlcb]
            cases hr : tokenize_chars fuel rest with
            | ok tokens =>
              rw [hr] at IH
              exact tokens_bound_cons n _ tokens hcur IH
            | error e =>
              rw [hr] at IH
              exact IH
          · rw [if_neg hlcb]
            by_cases hrcb : character = '}'
            · rw [if_pos hrcb]
              cases hr : tokenize_chars fuel rest with
              | ok tokens =>
                rw [hr] at IH
                exact tokens_bound_cons n _ tokens hcur IH
              | error e =>
                rw [hr] at IH
                exact IH
            · rw [if_neg hrcb]
              by_cases hlsb : character = '['
              · rw [if_pos hlsb]
                cases hr : tokenize_chars fuel rest with
                | ok tokens =>
                  rw [hr] at IH
                  exact tokens_bound_cons n _ tokens hcur IH
                | error e =>
                  rw [hr] at IH
                  exact IH
              · rw [if_neg hlsb]
                by_cases hrsb : character = ']'
                · rw [if_pos hrsb]
                  cases hr : tokenize_chars fuel rest with
                  | ok tokens =>
                    rw [hr] at IH
                    exact tokens_bound_cons n _ tokens hcur IH
                  | error e =>
                    rw [hr] at IH
                    exact IH
                · rw [if_neg hrsb]
                  by_cases hass : character = '=' ∨ character = ':'
                  · rw [if_pos hass]
                    cases hr : tokenize_chars fuel rest with
                    | ok tokens =>
                      rw [hr] at IH
                      exact tokens_bound_cons n _ tokens hcur IH
                    | error e =>
                      rw [hr] at IH
                      exact IH
                  · rw [if_neg hass]
                    by_cases hq : character = '"'
                    · rw [if_pos hq]
                      have HS := capture_string_bound n fuel rest '"' htail
                      cases hs : capture_string fuel rest '"' with
                      | ok tr =>
                        obtain ⟨token, r⟩ := tr
                        rw [hs] at HS
                        have IHr := ih r HS
                        show cres n (tokens_bound n)
                          (match tokenize_chars fuel r with
                            | .ok tokens =>
                              .ok (.literal position (String.mk token) :: tokens)
                            | .error e => .error e)
                        cases hr : tokenize_chars fuel r with
                        | ok tokens =>
                          rw [hr] at IHr
                          exact tokens_bound_cons n _ tokens hcur IHr
                        | error e =>
                          rw [hr] at IHr
                          exact IHr
                      | error e =>
                        rw [hs] at HS
                        exact HS
                    · rw [if_neg hq]
                      by_cases hbt : character = '`'
                      · rw [if_pos hbt]
                        have HS := capture_string_bound n fuel rest '`' htail
                        cases hs : capture_string fuel rest '`' with
                        | ok tr =>
                          obtain ⟨token, r⟩ := tr
                          rw [hs] at HS
                          have IHr := ih r HS
                          show cres n (tokens_bound n)
                            (match tokenize_chars fuel r with
                              | .ok tokens =>
                                .ok (.interpolation position (String.mk token) :: tokens)
                              | .error e => .error e)
                          cases hr : tokenize_chars fuel r with
                          | ok tokens =>
                            rw [hr] at IHr
                            exact tokens_bound_cons n _ tokens hcur IHr
                          | error e =>
                            rw [hr] at IHr
                            exact IHr
                        | error e =>
                          rw [hs] at HS
                          exact HS
                      · rw [if_neg hbt]
                        by_cases hamp : character = '&'
                        · rw [if_pos hamp]
                          have HR := parse_reference_bound n fuel rest none
                            false false [] htail
                            (fun p hq2 => Option.noConfusion hq2)
                          cases hs : parse_reference fuel rest none false
                              false [] with
                          | ok tr =>
                            obtain ⟨ref, r⟩ := tr
                            rw [hs] at HR
                            have IHr := ih r HR.2
                            show cres n (tokens_bound n)
                              (match tokenize_chars fuel r with
                                | .ok tokens => .ok (ref :: tokens)
                                | .error e => .error e)
                            cases hr : tokenize_chars fuel r with
                            | ok tokens =>
                              rw [hr] at IHr
                              exact tokens_bound_cons n _ tokens HR.1 IHr
                            | error e =>
                              rw [hr] at IHr
                              exact IHr
                          | error e =>
                            rw [hs] at HR
                            exact HR
                        · rw [if_neg hamp]
                          have HW := capture_bare_word_bound n fuel rest
                            bare_word_delimiters htail
                          cases hs : capture_bare_word fuel rest
                              bare_word_delimiters with
                          | ok tr =>
                            obtain ⟨word, r⟩ := tr
                            rw [hs] at HW
                            have IHr := ih r HW
                            show cres n (tokens_bound n)
                              (match tokenize_chars fuel r with
                                | .ok tokens =>
                                  .ok (.bare_word position
                                    (String.mk (character :: word)) :: tokens)
                                | .error e => .error e)
                            cases hr : tokenize_chars fuel r with
                            | ok tokens =>
                              rw [hr] at IHr
                              exact tokens_bound_cons n _ tokens hcur IHr
                            | error e =>
                              rw [hr] at IHr
                              exact IHr
                          | error e =>
                            rw [hs] at HW
                            exact HW

/-- Positions in an enumerated list are below the starting index plus the
length. -/
theorem enumFrom_fst_lt {α : Type} :
    ∀ (l : List α) (i : Nat), ∀ pc ∈ l.enumFrom i, pc.1 < i + l.length := by
  intro l
  induction l with
  | nil =>
    intro i pc hm
    exact absurd hm (List.not_mem_nil pc)
  | cons a tl ih =>
    intro i pc hm
    rw [List.enumFrom] at hm
    rcases List.mem_cons.mp hm with h | h
    · subst h
      show i < i + (tl.length + 1)
      omega
    · have := ih (i + 1) pc h
      rw [List.length_cons]
      omega

/-- The enumerated characters of a program all carry in-range offsets. -/
theorem stream_bound_enum (P : String) : stream_bound P.length P.toList.enum := by
  intro pc hm
  have h := enumFrom_fst_lt P.toList 0 pc hm
  have hlen : P.toList.length = P.length := rfl
  omega

/-- `tokenize` produces in-range token positions and errors with in-range
offsets. -/
theorem tokenize_bound (P : String) :
    cres P.length (tokens_bound P.length) (tokenize P) := by
  rw [tokenize]
  exact tokenize_chars_bound P.length (P.length + 1) P.toList.enum
    (stream_bound_enum P)

/-! Offset bounds for the parser -/

/-- `Lhs.parse` keeps the remaining tokens bounded and raises only errors
whose offsets come from the bounded tokens. -/
theorem lhs_parse_bound (n : Nat) (ts : List Token) (h : tokens_bound n ts) :
    cres n (fun lr => tokens_bound n lr.2) (lhs_parse ts) := by
  cases ts with
  | nil => exact err_pos_lt_none n _ rfl
  | cons token rest =>
    have htail : tokens_bound n rest := tokens_bound_tail n _ rest h
    cases token with
    | bare_word pos value => exact htail
    | literal pos value => exact htail
    | symbol pos sym =>
      cases sym with
      | end_of_statement => exact htail
      | assignment => exact err_pos_lt_syntax n pos _ (tokens_bound_head n _ _ h)
      | left_curly_brace => exact err_pos_lt_syntax n pos _ (tokens_bound_head n _ _ h)
      | right_curly_brace => exact err_pos_lt_syntax n pos _ (tokens_bound_head n _ _ h)
      | left_square_bracket => exact err_pos_lt_syntax n pos _ (tokens_bound_head n _ _ h)
      | right_square_bracket => exact err_pos_lt_syntax n pos _ (tokens_bound_head n _ _ h)
    | interpolation pos pat =>
      exact err_pos_lt_syntax n pos _ (tokens_bound_head n _ _ h)
    | reference pos path g =>
      exact err_pos_lt_syntax n pos _ (tokens_bound_head n _ _ h)
    | list_index_reference pos path g =>
      exact err_pos_lt_syntax n pos _ (tokens_bound_head n _ _ h)

/-- `Rhs._assert_end_of_statement` keeps the remaining tokens bounded and
raises only errors whose offsets come from the bounded tokens. -/
theorem assert_end_of_statement_bound (n : Nat) (ts : List Token) (ca : Bool)
    (h : tokens_bound n ts) :
    cres n (tokens_bound n) (assert_end_of_statement ts ca) := by
  unfold assert_end_of_statement
  by_cases hca : ca = true
  · rw [if_pos hca]
    exact h
  · rw [if_neg hca]
    cases ts with
    | nil => exact err_pos_lt_none n _ rfl
    | cons token rest =>
      show cres n (tokens_bound n)
        (if Token.is_symbol token .right_curly_brace = true ∨
            Token.is_symbol token .right_square_bracket = true then
          .ok (token :: rest)
        else if Token.is_symbol token .end_of_statement = true then .ok rest
        else .error (.json_map_syntax_error (Token.position token)
          "Expected end-of-statement symbol (semicolon or comma)"))
      by_cases h1 : Token.is_symbol token .right_curly_brace = true ∨
          Token.is_symbol token .right_square_bracket = true
      · rw [if_pos h1]
        exact h
      · rw [if_neg h1]
        by_cases h2 : Token.is_symbol token .end_of_statement = true
        · rw [if_pos h2]
          exact tokens_bound_tail n _ rest h
        · rw [if_neg h2]
          exact err_pos_lt_syntax n _ _ (tokens_bound_head n _ _ h)

/-- One fuel step of the offset bound for `Rhs.parse`, assuming the bound
for the callees at the smaller fuel. -/
theorem rhs_parse_step (n fuel : Nat)
    (ihAS : ∀ ts isc, tokens_bound n ts →
      cres n (fun vr => tokens_bound n vr.2) (assemble_stmts fuel ts isc))
    (ihC : ∀ ts pos kw, tokens_bound n ts → pos < n →
      cres n (fun vr => tokens_bound n vr.2) (collection_parse fuel ts pos kw))
    (ihA : ∀ ts, tokens_bound n ts →
      cres n (fun vr => tokens_bound n vr.2.2) (array_parse fuel ts)) :
    ∀ ts ca, tokens_bound n ts →
      cres n (fun vr => tokens_bound n vr.2) (rhs_parse (fuel + 1) ts ca) := by
  intro ts ca h
  cases ts with
  | nil => exact err_pos_lt_none n _ rfl
  | cons token rest =>
    have htail : tokens_bound n rest := tokens_bound_tail n _ rest h
    have hhead := tokens_bound_head n _ _ h
    simp only [rhs_parse]
    cases token with
    | literal pos text =>
      show cres n (fun vr => tokens_bound n vr.2)
        (match assert_end_of_statement rest false with
          | .ok r => .ok (.valueLiteral pos text, r)
          | .error e => .error e)
      have HA := assert_end_of_statement_bound n rest false htail
      cases ha : assert_end_of_statement rest false with
      | ok r =>
        rw [ha] at HA
        exact HA
      | error e =>
        rw [ha] at HA
        exact HA
    | list_index_reference pos path g =>
      show cres n (fun vr => tokens_bound n vr.2)
        (match assert_end_of_statement rest ca with
          | .ok r => .ok (.listIndexReference pos path g, r)
          | .error e => .error e)
      have HA := assert_end_of_statement_bound n rest ca htail
      cases ha : assert_end_of_statement rest ca with
      | ok r =>
        rw [ha] at HA
        exact HA
      | error e =>
        rw [ha] at HA
        exact HA
    | reference pos path g =>
      show cres n (fun vr => tokens_bound n vr.2)
        (match assert_end_of_statement rest ca with
          | .ok r => .ok (.reference pos path g, r)
          | .error e => .error e)
      have HA := assert_end_of_statement_bound n rest ca htail
      cases ha : assert_end_of_statement rest ca with
      | ok r =>
        rw [ha] at HA
        exact HA
      | error e =>
        rw [ha] at HA
        exact HA
    | interpolation pos pat => exact err_pos_lt_syntax n pos _ hhead
    | symbol pos sym =>
      cases sym with
      | left_curly_brace =>
        show cres n (fun vr => tokens_bound n vr.2)
          (match assemble_stmts fuel rest true with
            | .ok (statements, r) => .ok (.scope pos (.list statements), r)
            | .error e => .error e)
        have HS := ihAS rest true htail
        cases hs : assemble_stmts fuel rest true with
        | ok vr =>
          obtain ⟨statements, r⟩ := vr
          rw [hs] at HS
          exact HS
        | error e =>
          rw [hs] at HS
          exact HS
      | left_square_bracket =>
        show cres n (fun vr => tokens_bound n vr.2)
          (match array_parse fuel rest with
            | .ok (pos2, values, r) => .ok (.array pos2 values, r)
            | .error e => .error e)
        have HS := ihA rest htail
        cases hs : array_parse fuel rest with
        | ok vr =>
          obtain ⟨pos2, values, r⟩ := vr
          rw [hs] at HS
          exact HS
        | error e =>
          rw [hs] at HS
          exact HS
      | end_of_statement => exact err_pos_lt_syntax n pos _ hhead
      | assignment => exact err_pos_lt_syntax n pos _ hhead
      | right_curly_brace => exact err_pos_lt_syntax n pos _ hhead
      | right_square_bracket => exact err_pos_lt_syntax n pos _ hhead
    | bare_word pos value =>
      show cres n (fun vr => tokens_bound n vr.2)
        (if value = "null" then
          (match assert_end_of_statement rest false with
            | .ok r => .ok (.noOpRhs pos, r)
            | .error e => .error e)
        else
          (match python_float value with
            | some parsed => .ok (.numericLiteral pos parsed, rest)
            | none => collection_parse fuel rest pos value))
      by_cases hv : value = "null"
      · rw [if_pos hv]
        have HA := assert_end_of_statement_bound n rest false htail
        show cres n (fun vr => tokens_bound n vr.2)
          (match assert_end_of_statement rest false with
            | .ok r => .ok (.noOpRhs pos, r)
            | .error e => .error e)
        cases ha : assert_end_of_statement rest false with
        | ok r =>
          rw [ha] at HA
          exact HA
        | error e =>
          rw [ha] at HA
          exact HA
      · rw [if_neg hv]
        show cres n (fun vr => tokens_bound n vr.2)
          (match python_float value with
            | some parsed => .ok (.numericLiteral pos parsed, rest)
            | none => collection_parse fuel rest pos value)
        cases hf : python_float value with
        | some parsed => exact htail
        | none => exact ihC rest pos value htail hhead

/-- One fuel step of the offset bound for `Array.parse`. -/
theorem array_parse_step (n fuel : Nat)
    (ihAL : ∀ ts, tokens_bound n ts →
      cres n (fun vr => tokens_bound n vr.2) (array_loop fuel ts)) :
    ∀ ts, tokens_bound n ts →
      cres n (fun vr => tokens_bound n vr.2.2) (array_parse (fuel + 1) ts) := by
  intro ts h
  cases ts with
  | nil => exact err_pos_lt_none n _ rfl
  | cons token rest =>
    simp only [array_parse]
    show cres n (fun vr => tokens_bound n vr.2.2)
      (match array_loop fuel (token :: rest) with
        | .ok (values, r) => .ok (Token.position token, values, r)
        | .error e => .error e)
    have HL := ihAL (token :: rest) h
    cases hl : array_loop fuel (token :: rest) with
    | ok vr =>
      obtain ⟨values, r⟩ := vr
      rw [hl] at HL
      exact HL
    | error e =>
      rw [hl] at HL
      exact HL

/-- One fuel step of the offset bound for the array element loop. -/
theorem array_loop_step (n fuel : Nat)
    (ihR : ∀ ts ca, tokens_bound n ts →
      cres n (fun vr => tokens_bound n vr.2) (rhs_parse fuel ts ca))
    (ihAL : ∀ ts, tokens_bound n ts →
      cres n (fun vr => tokens_bound n vr.2) (array_loop fuel ts)) :
    ∀ ts, tokens_bound n ts →
      cres n (fun vr => tokens_bound n vr.2) (array_loop (fuel + 1) ts) := by
  intro ts h
  cases ts with
  | nil => exact err_pos_lt_none n _ rfl
  | cons token rest =>
    have htail : tokens_bound n rest := tokens_bound_tail n _ rest h
    simp only [array_loop]
    by_cases hrb : Token.is_symbol token .right_square_bracket = true
    · rw [if_pos hrb]
      exact htail
    · rw [if_neg hrb]
      have HR := ihR (token :: rest) false h
      cases hr : rhs_parse fuel (token :: rest) false with
      | ok vr =>
        obtain ⟨value, r1⟩ := vr
        rw [hr] at HR
        cases r1 with
        | nil => exact err_pos_lt_none n _ rfl
        | cons t2 r2 =>
          show cres n (fun vr => tokens_bound n vr.2)
            (match array_loop fuel
                (if Token.is_symbol t2 .end_of_statement = true then r2
                  else t2 :: r2) with
              | .ok (values, rest2) => .ok (value :: values, rest2)
              | .error e => .error e)
          have hr3 : tokens_bound n
              (if Token.is_symbol t2 .end_of_statement = true then r2
                else t2 :: r2) := by
            by_cases hc : Token.is_symbol t2 .end_of_statement = true
            · rw [if_pos hc]
              exact tokens_bound_tail n _ r2 HR
            · rw [if_neg hc]
              exact HR
          have HL := ihAL _ hr3
          cases hl : array_loop fuel
              (if Token.is_symbol t2 .end_of_statement = true then r2
                else t2 :: r2) with
          | ok vr2 =>
            obtain ⟨values, rest2⟩ := vr2
            rw [hl] at HL
            exact HL
          | error e =>
            rw [hl] at HL
            exact HL
      | error e =>
        rw [hr] at HR
        exact HR

/-- One fuel step of the offset bound for `CollectionOperation.parse`. -/
theorem collection_parse_step (n fuel : Nat)
    (ihB : ∀ ts pos, tokens_bound n ts → pos < n →
      cres n (fun vr => tokens_bound n vr.2) (bind_parse fuel ts pos))
    (ihM : ∀ ts pos, tokens_bound n ts → pos < n →
      cres n (fun vr => tokens_bound n vr.2) (map_parse fuel ts pos))
    (ihZ : ∀ ts pos, tokens_bound n ts → pos < n →
      cres n (fun vr => tokens_bound n vr.2) (zip_parse fuel ts pos)) :
    ∀ ts pos kw, tokens_bound n ts → pos < n →
      cres n (fun vr => tokens_bound n vr.2)
        (collection_parse (fuel + 1) ts pos kw) := by
  intro ts pos kw h hpos
  simp only [collection_parse]
  by_cases hb : kw = "bind"
  · rw [if_pos hb]
    exact ihB ts pos h hpos
  · rw [if_neg hb]
    by_cases hm : kw = "map"
    · rw [if_pos hm]
      exact ihM ts pos h hpos
    · rw [if_neg hm]
      by_cases hz : kw = "zip"
      · rw [if_pos hz]
        exact ihZ ts pos h hpos
      · rw [if_neg hz]
        exact err_pos_lt_syntax n pos _ hpos

/-- One fuel step of the offset bound for `Bind.parse`. -/
theorem bind_parse_step (n fuel : Nat)
    (ihR : ∀ ts ca, tokens_bound n ts →
      cres n (fun vr => tokens_bound n vr.2) (rhs_parse fuel ts ca))
    (ihAS : ∀ ts isc, tokens_bound n ts →
      cres n (fun vr => tokens_bound n vr.2) (assemble_stmts fuel ts isc)) :
    ∀ ts pos, tokens_bound n ts → pos < n →
      cres n (fun vr => tokens_bound n vr.2) (bind_parse (fuel + 1) ts pos) := by
  intro ts pos h hpos
  simp only [bind_parse]
  have HR := ihR ts true h
  cases hr : rhs_parse fuel ts true with
  | ok vr =>
    obtain ⟨reference, r1⟩ := vr
    rw [hr] at HR
    cases reference with
    | reference p2 path g =>
      cases r1 with
      | nil => exact err_pos_lt_none n _ rfl
      | cons token r2 =>
        show cres n (fun vr => tokens_bound n vr.2)
          (if Token.is_symbol token .left_curly_brace = true then
            (match r2 with
              | [] => .error .stop_iteration
              | _ :: _ =>
                match assemble_stmts fuel r2 true with
                | .ok (statements, r3) =>
                  .ok (.bind pos (.list statements) (.reference p2 path g), r3)
                | .error e => .error e)
          else .error (.json_map_syntax_error (Token.position token)
            "expected start of an inner scope"))
        by_cases hlc : Token.is_symbol token .left_curly_brace = true
        · rw [if_pos hlc]
          cases r2 with
          | nil => exact err_pos_lt_none n _ rfl
          | cons a r2tl =>
            show cres n (fun vr => tokens_bound n vr.2)
              (match assemble_stmts fuel (a :: r2tl) true with
                | .ok (statements, r3) =>
                  .ok (.bind pos (.list statements) (.reference p2 path g), r3)
                | .error e => .error e)
            have HS := ihAS (a :: r2tl) true (tokens_bound_tail n _ _ HR)
            cases hs : assemble_stmts fuel (a :: r2tl) true with
            | ok vr2 =>
              obtain ⟨statements, r3⟩ := vr2
              rw [hs] at HS
              exact HS
            | error e =>
              rw [hs] at HS
              exact HS
        · rw [if_neg hlc]
          exact err_pos_lt_syntax n _ _ (tokens_bound_head n _ _ HR)
    | listIndexReference p2 path g =>
      cases r1 with
      | nil => exact err_pos_lt_none n _ rfl
      | cons token r2 =>
        show cres n (fun vr => tokens_bound n vr.2)
          (if Token.is_symbol token .left_curly_brace = true then
            (match r2 with
              | [] => .error .stop_iteration
              | _ :: _ =>
                match assemble_stmts fuel r2 true with
                | .ok (statements, r3) =>
                  .ok (.bind pos (.list statements)
                    (.listIndexReference p2 path g), r3)
                | .error e => .error e)
          else .error (.json_map_syntax_error (Token.position token)
            "expected start of an inner scope"))
        by_cases hlc : Token.is_symbol token .left_curly_brace = true
        · rw [if_pos hlc]
          cases r2 with
          | nil => exact err_pos_lt_none n _ rfl
          | cons a r2tl =>
            show cres n (fun vr => tokens_bound n vr.2)
              (match assemble_stmts fuel (a :: r2tl) true with
                | .ok (statements, r3) =>
                  .ok (.bind pos (.list statements)
                    (.listIndexReference p2 path g), r3)
                | .error e => .error e)
            have HS := ihAS (a :: r2tl) true (tokens_bound_tail n _ _ HR)
            cases hs : assemble_stmts fuel (a :: r2tl) true with
            | ok vr2 =>
              obtain ⟨statements, r3⟩ := vr2
              rw [hs] at HS
              exact HS
            | error e =>
              rw [hs] at HS
              exact HS
        · rw [if_neg hlc]
          exact err_pos_lt_syntax n _ _ (tokens_bound_head n _ _ HR)
    | noOpRhs p2 => exact err_pos_lt_syntax n pos _ hpos
    | valueLiteral p2 v2 => exact err_pos_lt_syntax n pos _ hpos
    | numericLiteral p2 v2 => exact err_pos_lt_syntax n pos _ hpos
    | scope p2 c2 => exact err_pos_lt_syntax n pos _ hpos
    | array p2 vs => exact err_pos_lt_syntax n pos _ hpos
    | bind p2 c2 rx => exact err_pos_lt_syntax n pos _ hpos
    | map p2 c2 s2 => exact err_pos_lt_syntax n pos _ hpos
    | zip p2 c2 s2 => exact err_pos_lt_syntax n pos _ hpos
  | error e =>
    rw [hr] at HR
    exact HR

/-- One fuel step of the offset bound for `Map.parse`. -/
theorem map_parse_step (n fuel : Nat)
    (ihR : ∀ ts ca, tokens_bound n ts →
      cres n (fun vr => tokens_bound n vr.2) (rhs_parse fuel ts ca))
    (ihAS : ∀ ts isc, tokens_bound n ts →
      cres n (fun vr => tokens_bound n vr.2) (assemble_stmts fuel ts isc))
    (ihA : ∀ ts, tokens_bound n ts →
      cres n (fun vr => tokens_bound n vr.2.2) (array_parse fuel ts)) :
    ∀ ts pos, tokens_bound n ts → pos < n →
      cres n (fun vr => tokens_bound n vr.2) (map_parse (fuel + 1) ts pos) := by
  intro ts pos h hpos
  simp only [map_parse]
  have HR := ihR ts true h
  cases hr : rhs_parse fuel ts true with
  | ok vr =>
    obtain ⟨source, r1⟩ := vr
    rw [hr] at HR
    cases source with
    | array p2 vals =>
      cases r1 with
      | nil => exact err_pos_lt_none n _ rfl
      | cons token r2 =>
        cases token with
        | symbol pos2 sym =>
          cases sym with
          | left_curly_brace =>
            cases r2 with
            | nil => exact err_pos_lt_none n _ rfl
            | cons a r2tl =>
              show cres n (fun vr => tokens_bound n vr.2)
                (match assemble_stmts fuel (a :: r2tl) true with
                  | .ok (statements, r3) =>
                    .ok (.map pos (.list statements) (Rhs.array p2 vals), r3)
                  | .error e => .error e)
              have HS := ihAS (a :: r2tl) true (tokens_bound_tail n _ _ HR)
              cases hs : assemble_stmts fuel (a :: r2tl) true with
              | ok vr2 =>
                obtain ⟨statements, r3⟩ := vr2
                rw [hs] at HS
                exact HS
              | error e =>
                rw [hs] at HS
                exact HS
          | left_square_bracket =>
            show cres n (fun vr => tokens_bound n vr.2)
              (match array_parse fuel r2 with
                | .ok (_, values, r3) =>
                  (match values with
                    | [v] => .ok (.map pos2
                        (.single (Statement.mk (.anonymous pos2 "") v)) (Rhs.array p2 vals), r3)
                    | _ => .error (.value_error
                        "Only one entry is allowed in the anonymous map scope"))
                | .error e => .error e)
            have HA := ihA r2 (tokens_bound_tail n _ _ HR)
            cases ha : array_parse fuel r2 with
            | ok vr2 =>
              obtain ⟨ap, values, r3⟩ := vr2
              rw [ha] at HA
              cases values with
              | nil => exact err_pos_lt_none n _ rfl
              | cons v vs =>
                cases vs with
                | nil => exact HA
                | cons v2 vs2 => exact err_pos_lt_none n _ rfl
            | error e =>
              rw [ha] at HA
              exact HA
          | end_of_statement => exact err_pos_lt_none n _ rfl
          | assignment => exact err_pos_lt_none n _ rfl
          | right_curly_brace => exact err_pos_lt_none n _ rfl
          | right_square_bracket => exact err_pos_lt_none n _ rfl
        | bare_word pos2 v2 => exact err_pos_lt_none n _ rfl
        | literal pos2 v2 => exact err_pos_lt_none n _ rfl
        | interpolation pos2 v2 => exact err_pos_lt_none n _ rfl
        | reference pos2 path2 g2 => exact err_pos_lt_none n _ rfl
        | list_index_reference pos2 path2 g2 => exact err_pos_lt_none n _ rfl
    | reference p2 path g =>
      cases r1 with
      | nil => exact err_pos_lt_none n _ rfl
      | cons token r2 =>
        cases token with
        | symbol pos2 sym =>
          cases sym with
          | left_curly_brace =>
            cases r2 with
            | nil => exact err_pos_lt_none n _ rfl
            | cons a r2tl =>
              show cres n (fun vr => tokens_bound n vr.2)
                (match assemble_stmts fuel (a :: r2tl) true with
                  | .ok (statements, r3) =>
                    .ok (.map pos (.list statements) (Rhs.reference p2 path g), r3)
                  | .error e => .error e)
              have HS := ihAS (a :: r2tl) true (tokens_bound_tail n _ _ HR)
              cases hs : assemble_stmts fuel (a :: r2tl) true with
              | ok vr2 =>
                obtain ⟨statements, r3⟩ := vr2
                rw [hs] at HS
                exact HS
              | error e =>
                rw [hs] at HS
                exact HS
          | left_square_bracket =>
            show cres n (fun vr => tokens_bound n vr.2)
              (match array_parse fuel r2 with
                | .ok (_, values, r3) =>
                  (match values with
                    | [v] => .ok (.map pos2
                        (.single (Statement.mk (.anonymous pos2 "") v)) (Rhs.reference p2 path g), r3)
                    | _ => .error (.value_error
                        "Only one entry is allowed in the anonymous map scope"))
                | .error e => .error e)
            have HA := ihA r2 (tokens_bound_tail n _ _ HR)
            cases ha : array_parse fuel r2 with
            | ok vr2 =>
              obtain ⟨ap, values, r3⟩ := vr2
              rw [ha] at HA
              cases values with
              | nil => exact err_pos_lt_none n _ rfl
              | cons v vs =>
                cases vs with
                | nil => exact HA
                | cons v2 vs2 => exact err_pos_lt_none n _ rfl
            | error e =>
              rw [ha] at HA
              exact HA
          | end_of_statement => exact err_pos_lt_none n _ rfl
          | assignment => exact err_pos_lt_none n _ rfl
          | right_curly_brace => exact err_pos_lt_none n _ rfl
          | right_square_bracket => exact err_pos_lt_none n _ rfl
        | bare_word pos2 v2 => exact err_pos_lt_none n _ rfl
        | literal pos2 v2 => exact err_pos_lt_none n _ rfl
        | interpolation pos2 v2 => exact err_pos_lt_none n _ rfl
        | reference pos2 path2 g2 => exact err_pos_lt_none n _ rfl
        | list_index_reference pos2 path2 g2 => exact err_pos_lt_none n _ rfl
    | listIndexReference p2 path g =>
      cases r1 with
      | nil => exact err_pos_lt_none n _ rfl
      | cons token r2 =>
        cases token with
        | symbol pos2 sym =>
          cases sym with
          | left_curly_brace =>
            cases r2 with
            | nil => exact err_pos_lt_none n _ rfl
            | cons a r2tl =>
              show cres n (fun vr => tokens_bound n vr.2)
                (match assemble_stmts fuel (a :: r2tl) true with
                  | .ok (statements, r3) =>
                    .ok (.map pos (.list statements) (Rhs.listIndexReference p2 path g), r3)
                  | .error e => .error e)
              have HS := ihAS (a :: r2tl) true (tokens_bound_tail n _ _ HR)
              cases hs : assemble_stmts fuel (a :: r2tl) true with
              | ok vr2 =>
                obtain ⟨statements, r3⟩ := vr2
                rw [hs] at HS
                exact HS
              | error e =>
                rw [hs] at HS
                exact HS
          | left_square_bracket =>
            show cres n (fun vr => tokens_bound n vr.2)
              (match array_parse fuel r2 with
                | .ok (_, values, r3) =>
                  (match values with
                    | [v] => .ok (.map pos2
                        (.single (Statement.mk (.anonymous pos2 "") v)) (Rhs.listIndexReference p2 path g), r3)
                    | _ => .error (.value_error
                        "Only one entry is allowed in the anonymous map scope"))
                | .error e => .error e)
            have HA := ihA r2 (tokens_bound_tail n _ _ HR)
            cases ha : array_parse fuel r2 with
            | ok vr2 =>
              obtain ⟨ap, values, r3⟩ := vr2
              rw [ha] at HA
              cases values with
              | nil => exact err_pos_lt_none n _ rfl
              | cons v vs =>
                cases vs with
                | nil => exact HA
                | cons v2 vs2 => exact err_pos_lt_none n _ rfl
            | error e =>
              rw [ha] at HA
              exact HA
          | end_of_statement => exact err_pos_lt_none n _ rfl
          | assignment => exact err_pos_lt_none n _ rfl
          | right_curly_brace => exact err_pos_lt_none n _ rfl
          | right_square_bracket => exact err_pos_lt_none n _ rfl
        | bare_word pos2 v2 => exact err_pos_lt_none n _ rfl
        | literal pos2 v2 => exact err_pos_lt_none n _ rfl
        | interpolation pos2 v2 => exact err_pos_lt_none n _ rfl
        | reference pos2 path2 g2 => exact err_pos_lt_none n _ rfl
        | list_index_reference pos2 path2 g2 => exact err_pos_lt_none n _ rfl
    | noOpRhs p2 => exact err_pos_lt_syntax n pos _ hpos
    | valueLiteral p2 v2 => exact err_pos_lt_syntax n pos _ hpos
    | numericLiteral p2 v2 => exact err_pos_lt_syntax n pos _ hpos
    | scope p2 c2 => exact err_pos_lt_syntax n pos _ hpos
    | bind p2 c2 rx => exact err_pos_lt_syntax n pos _ hpos
    | map p2 c2 s2 => exact err_pos_lt_syntax n pos _ hpos
    | zip p2 c2 s2 => exact err_pos_lt_syntax n pos _ hpos
  | error e =>
    rw [hr] at HR
    exact HR

/-- One fuel step of the offset bound for the zip argument loop. -/
theorem zip_args_step (n fuel : Nat)
    (ihR : ∀ ts ca, tokens_bound n ts →
      cres n (fun vr => tokens_bound n vr.2) (rhs_parse fuel ts ca))
    (ihZA : ∀ ts pos, tokens_bound n ts → pos < n →
      cres n (fun vr => tokens_bound n vr.2) (zip_args fuel ts pos)) :
    ∀ ts pos, tokens_bound n ts → pos < n →
      cres n (fun vr => tokens_bound n vr.2) (zip_args (fuel + 1) ts pos) := by
  intro ts pos h hpos
  cases ts with
  | nil => exact err_pos_lt_none n _ rfl
  | cons token rest =>
    simp only [zip_args]
    by_cases hlc : Token.is_symbol token .left_curly_brace = true
    · rw [if_pos hlc]
      exact h
    · rw [if_neg hlc]
      have HR := ihR (token :: rest) true h
      cases hr : rhs_parse fuel (token :: rest) true with
      | ok vr =>
        obtain ⟨source, r1⟩ := vr
        rw [hr] at HR
        cases source with
        | array p2 vals =>
          show cres n (fun vr => tokens_bound n vr.2)
            (match zip_args fuel r1 pos with
              | .ok (sources, rest2) => .ok (Rhs.array p2 vals :: sources, rest2)
              | .error e => .error e)
          have HZ := ihZA r1 pos HR hpos
          cases hz : zip_args fuel r1 pos with
          | ok vr2 =>
            obtain ⟨sources, rest2⟩ := vr2
            rw [hz] at HZ
            exact HZ
          | error e =>
            rw [hz] at HZ
            exact HZ
        | reference p2 path g =>
          show cres n (fun vr => tokens_bound n vr.2)
            (match zip_args fuel r1 pos with
              | .ok (sources, rest2) =>
                .ok (Rhs.reference p2 path g :: sources, rest2)
              | .error e => .error e)
          have HZ := ihZA r1 pos HR hpos
          cases hz : zip_args fuel r1 pos with
          | ok vr2 =>
            obtain ⟨sources, rest2⟩ := vr2
            rw [hz] at HZ
            exact HZ
          | error e =>
            rw [hz] at HZ
            exact HZ
        | listIndexReference p2 path g =>
          show cres n (fun vr => tokens_bound n vr.2)
            (match zip_args fuel r1 pos with
              | .ok (sources, rest2) =>
                .ok (Rhs.listIndexReference p2 path g :: sources, rest2)
              | .error e => .error e)
          have HZ := ihZA r1 pos HR hpos
          cases hz : zip_args fuel r1 pos with
          | ok vr2 =>
            obtain ⟨sources, rest2⟩ := vr2
            rw [hz] at HZ
            exact HZ
          | error e =>
            rw [hz] at HZ
            exact HZ
        | noOpRhs p2 => exact err_pos_lt_syntax n pos _ hpos
        | valueLiteral p2 v2 => exact err_pos_lt_syntax n pos _ hpos
        | numericLiteral p2 v2 => exact err_pos_lt_syntax n pos _ hpos
        | scope p2 c2 => exact err_pos_lt_syntax n pos _ hpos
        | bind p2 c2 rx => exact err_pos_lt_syntax n pos _ hpos
        | map p2 c2 s2 => exact err_pos_lt_syntax n pos _ hpos
        | zip p2 c2 s2 => exact err_pos_lt_syntax n pos _ hpos
      | error e =>
        rw [hr] at HR
        exact HR

/-- One fuel step of the offset bound for `Zip.parse`. -/
theorem zip_parse_step (n fuel : Nat)
    (ihZA : ∀ ts pos, tokens_bound n ts → pos < n →
      cres n (fun vr => tokens_bound n vr.2) (zip_args fuel ts pos))
    (ihAS : ∀ ts isc, tokens_bound n ts →
      cres n (fun vr => tokens_bound n vr.2) (assemble_stmts fuel ts isc)) :
    ∀ ts pos, tokens_bound n ts → pos < n →
      cres n (fun vr => tokens_bound n vr.2) (zip_parse (fuel + 1) ts pos) := by
  intro ts pos h hpos
  simp only [zip_parse]
  have HZ := ihZA ts pos h hpos
  cases hz : zip_args fuel ts pos with
  | ok vr =>
    obtain ⟨sources, r1⟩ := vr
    rw [hz] at HZ
    cases r1 with
    | nil => exact err_pos_lt_none n _ rfl
    | cons t1 r2 =>
      cases r2 with
      | nil => exact err_pos_lt_none n _ rfl
      | cons a r2tl =>
        show cres n (fun vr => tokens_bound n vr.2)
          (match assemble_stmts fuel (a :: r2tl) true with
            | .ok (statements, r3) =>
              .ok (.zip pos (.list statements) sources, r3)
            | .error e => .error e)
        have HZ2 : tokens_bound n (t1 :: a :: r2tl) := HZ
        have HS := ihAS (a :: r2tl) true (tokens_bound_tail n _ _ HZ2)
        cases hs : assemble_stmts fuel (a :: r2tl) true with
        | ok vr2 =>
          obtain ⟨statements, r3⟩ := vr2
          rw [hs] at HS
          exact HS
        | error e =>
          rw [hs] at HS
          exact HS
  | error e =>
    rw [hz] at HZ
    exact HZ

/-- One fuel step of the offset bound for `ast._consume_statement`. -/
theorem consume_statement_raw_step (n fuel : Nat)
    (ihR : ∀ ts ca, tokens_bound n ts →
      cres n (fun vr => tokens_bound n vr.2) (rhs_parse fuel ts ca)) :
    ∀ ts isc, tokens_bound n ts →
      cres n (fun st => match st with
        | StmtStep.done r => tokens_bound n r
        | StmtStep.stmt _ r => tokens_bound n r)
        (consume_statement_raw (fuel + 1) ts isc) := by
  intro ts isc h
  cases ts with
  | nil => exact err_pos_lt_none n _ rfl
  | cons token rest =>
    have htail : tokens_bound n rest := tokens_bound_tail n _ rest h
    simp only [consume_statement_raw]
    by_cases hrc : Token.is_symbol token .right_curly_brace = true
    · rw [if_pos hrc]
      by_cases hin : isc = true
      · rw [if_pos hin]
        exact htail
      · rw [if_neg hin]
        exact err_pos_lt_syntax n _ _ (tokens_bound_head n _ _ h)
    · rw [if_neg hrc]
      have HL := lhs_parse_bound n (token :: rest) h
      cases hl : lhs_parse (token :: rest) with
      | ok vr =>
        obtain ⟨lhs, r1⟩ := vr
        rw [hl] at HL
        show cres n (fun st => match st with
            | StmtStep.done r => tokens_bound n r
            | StmtStep.stmt _ r => tokens_bound n r)
          (if Lhs.noop lhs = true then
            .ok (.stmt (Statement.mk lhs (.noOpRhs (Lhs.position lhs))) r1)
          else
            match r1 with
            | [] => .error .stop_iteration
            | t2 :: r2 =>
              if Token.is_symbol t2 .assignment = true then
                match rhs_parse fuel r2 false with
                | .ok (rhs, r3) => .ok (.stmt (Statement.mk lhs rhs) r3)
                | .error e => .error e
              else .error (.json_map_syntax_error (Token.position t2)
                "Expected assignment operator (either equals or colon)"))
        by_cases hno : Lhs.noop lhs = true
        · rw [if_pos hno]
          exact HL
        · rw [if_neg hno]
          cases r1 with
          | nil => exact err_pos_lt_none n _ rfl
          | cons t2 r2 =>
            show cres n (fun st => match st with
                | StmtStep.done r => tokens_bound n r
                | StmtStep.stmt _ r => tokens_bound n r)
              (if Token.is_symbol t2 .assignment = true then
                (match rhs_parse fuel r2 false with
                  | .ok (rhs, r3) => .ok (.stmt (Statement.mk lhs rhs) r3)
                  | .error e => .error e)
              else .error (.json_map_syntax_error (Token.position t2)
                "Expected assignment operator (either equals or colon)"))
            by_cases hass : Token.is_symbol t2 .assignment = true
            · rw [if_pos hass]
              have HR := ihR r2 false (tokens_bound_tail n _ _ HL)
              cases hr : rhs_parse fuel r2 false with
              | ok vr2 =>
                obtain ⟨rhs, r3⟩ := vr2
                rw [hr] at HR
                exact HR
              | error e =>
                rw [hr] at HR
                exact HR
            · rw [if_neg hass]
              exact err_pos_lt_syntax n _ _ (tokens_bound_head n _ _ HL)
      | error e =>
        rw [hl] at HL
        exact HL

/-- One fuel step of the offset bound for `ast.consume_statement`. -/
theorem consume_statement_step (n fuel : Nat)
    (ihCSR : ∀ ts isc, tokens_bound n ts →
      cres n (fun st => match st with
        | StmtStep.done r => tokens_bound n r
        | StmtStep.stmt _ r => tokens_bound n r)
        (consume_statement_raw fuel ts isc)) :
    ∀ ts isc, tokens_bound n ts →
      cres n (fun st => match st with
        | StmtStep.done r => tokens_bound n r
        | StmtStep.stmt _ r => tokens_bound n r)
        (consume_statement (fuel + 1) ts isc) := by
  intro ts isc h
  simp only [consume_statement]
  have HC := ihCSR ts isc h
  cases hc : consume_statement_raw fuel ts isc with
  | ok st =>
    rw [hc] at HC
    cases st with
    | done r => exact HC
    | stmt s r => exact HC
  | error e =>
    rw [hc] at HC
    cases e with
    | stop_iteration =>
      intro t ht
      exact absurd ht (List.not_mem_nil t)
    | json_map_syntax_error p m => exact HC
    | invalid_escape_sequence p c => exact HC
    | value_error m => exact HC
    | unbound_local_error => exact HC
    | fuel_exhausted => exact HC

/-- One fuel step of the offset bound for `ast.assemble`. -/
theorem assemble_stmts_step (n fuel : Nat)
    (ihCS : ∀ ts isc, tokens_bound n ts →
      cres n (fun st => match st with
        | StmtStep.done r => tokens_bound n r
        | StmtStep.stmt _ r => tokens_bound n r)
        (consume_statement fuel ts isc))
    (ihAS : ∀ ts isc, tokens_bound n ts →
      cres n (fun vr => tokens_bound n vr.2) (assemble_stmts fuel ts isc)) :
    ∀ ts isc, tokens_bound n ts →
      cres n (fun vr => tokens_bound n vr.2)
        (assemble_stmts (fuel + 1) ts isc) := by
  intro ts isc h
  simp only [assemble_stmts]
  have HC := ihCS ts isc h
  cases hc : consume_statement fuel ts isc with
  | ok st =>
    rw [hc] at HC
    cases st with
    | done rest => exact HC
    | stmt s rest =>
      show cres n (fun vr => tokens_bound n vr.2)
        (match assemble_stmts fuel rest isc with
          | .ok (statements, rest2) => .ok (s :: statements, rest2)
          | .error e => .error e)
      have HA := ihAS rest isc HC
      cases ha : assemble_stmts fuel rest isc with
      | ok vr =>
        obtain ⟨statements, rest2⟩ := vr
        rw [ha] at HA
        exact HA
      | error e =>
        rw [ha] at HA
        exact HA
  | error e =>
    rw [hc] at HC
    exact HC

/-- The offset bound for every function of the mutual parser block, by
induction on the fuel. -/
theorem parser_bound (n : Nat) : ∀ fuel : Nat,
    (∀ ts ca, tokens_bound n ts →
      cres n (fun vr => tokens_bound n vr.2) (rhs_parse fuel ts ca)) ∧
    (∀ ts, tokens_bound n ts →
      cres n (fun vr => tokens_bound n vr.2.2) (array_parse fuel ts)) ∧
    (∀ ts, tokens_bound n ts →
      cres n (fun vr => tokens_bound n vr.2) (array_loop fuel ts)) ∧
    (∀ ts pos kw, tokens_bound n ts → pos < n →
      cres n (fun vr => tokens_bound n vr.2) (collection_parse fuel ts pos kw)) ∧
    (∀ ts pos, tokens_bound n ts → pos < n →
      cres n (fun vr => tokens_bound n vr.2) (bind_parse fuel ts pos)) ∧
    (∀ ts pos, tokens_bound n ts → pos < n →
      cres n (fun vr => tokens_bound n vr.2) (map_parse fuel ts pos)) ∧
    (∀ ts pos, tokens_bound n ts → pos < n →
      cres n (fun vr => tokens_bound n vr.2) (zip_args fuel ts pos)) ∧
    (∀ ts pos, tokens_bound n ts → pos < n →
      cres n (fun vr => tokens_bound n vr.2) (zip_parse fuel ts pos)) ∧
    (∀ ts isc, tokens_bound n ts →
      cres n (fun st => match st with
        | StmtStep.done r => tokens_bound n r
        | StmtStep.stmt _ r => tokens_bound n r)
        (consume_statement_raw fuel ts isc)) ∧
    (∀ ts isc, tokens_bound n ts →
      cres n (fun st => match st with
        | StmtStep.done r => tokens_bound n r
        | StmtStep.stmt _ r => tokens_bound n r)
        (consume_statement fuel ts isc)) ∧
    (∀ ts isc, tokens_bound n ts →
      cres n (fun vr => tokens_bound n vr.2) (assemble_stmts fuel ts isc)) := by
  intro fuel
  induction fuel with
  | zero =>
    refine ⟨?_, ?_, ?_, ?_, ?_, ?_, ?_, ?_, ?_, ?_, ?_⟩
    · intro ts ca h
      exact err_pos_lt_none n _ rfl
    · intro ts h
      exact err_pos_lt_none n _ rfl
    · intro ts h
      exact err_pos_lt_none n _ rfl
    · intro ts pos kw h hp
      exact err_pos_lt_none n _ rfl
    · intro ts pos h hp
      exact err_pos_lt_none n _ rfl
    · intro ts pos h hp
      exact err_pos_lt_none n _ rfl
    · intro ts pos h hp
      exact err_pos_lt_none n _ rfl
    · intro ts pos h hp
      exact err_pos_lt_none n _ rfl
    · intro ts isc h
      exact err_pos_lt_none n _ rfl
    · intro ts isc h
      exact err_pos_lt_none n _ rfl
    · intro ts isc h
      exact err_pos_lt_none n _ rfl
  | succ fuel ih =>
    obtain ⟨ihR, ihA, ihAL, ihC, ihB, ihM, ihZA, ihZ, ihCSR, ihCS, ihAS⟩ := ih
    refine ⟨rhs_parse_step n fuel ihAS ihC ihA,
      array_parse_step n fuel ihAL,
      array_loop_step n fuel ihR ihAL,
      collection_parse_step n fuel ihB ihM ihZ,
      bind_parse_step n fuel ihR ihAS,
      map_parse_step n fuel ihR ihAS ihA,
      zip_args_step n fuel ihR ihZA,
      zip_parse_step n fuel ihZA ihAS,
      consume_statement_raw_step n fuel ihR,
      consume_statement_step n fuel ihCSR,
      assemble_stmts_step n fuel ihCS ihAS⟩

/-- `compile` raises only errors whose offsets (when present) are in-range
byte offsets into the program text. -/
theorem compile_bound (P : String) (e : CompileErr)
    (h : compile P = .error e) : err_pos_lt P.length e := by
  have HT := tokenize_bound P
  rw [compile] at h
  cases ht : tokenize P with
  | error e2 =>
    rw [ht] at h HT
    injection h with h
    rw [← h]
    exact HT
  | ok tokens =>
    rw [ht] at h HT
    have HP := (parser_bound P.length (parser_fuel tokens)).2.2.2.2.2.2.2.2.2.2
      tokens false HT
    unfold assemble_program at h
    have h2 : (match assemble_stmts (parser_fuel tokens) tokens false with
        | Except.ok (statements, _) => Except.ok statements
        | Except.error e3 => Except.error e3) = Except.error e := h
    cases ha : assemble_stmts (parser_fuel tokens) tokens false with
    | ok vr =>
      obtain ⟨statements, r⟩ := vr
      rw [ha] at h2
      exact absurd h2 (by simp)
    | error e2 =>
      rw [ha] at h2 HP
      injection h2 with h2
      rw [← h2]
      exact HP

/-- C5 (amended): every compile-stage error that carries a source offset
carries one inside the program text, while evaluation errors are bare
Python exceptions that carry no offset at all. -/
theorem c5_amended_error_offsets :
    (∀ P e pos, compile P = .error e →
      CompileErr.position? e = some pos → pos < P.length) ∧
    (∀ fuel stmts data e, json_mapping_apply fuel stmts data = .error e →
      EvalErr.position? e = none) := by
  constructor
  · intro P e pos h hp
    exact compile_bound P e h pos hp
  · intro fuel stmts data e h
    rfl

/-- Witness for the amended C5 claim: the unexpected scope-end error of the
program consisting of a single closing brace sits at offset 0, inside the
one-character text. -/
theorem c5_amended_error_offsets_witness : (0 : Nat) < String.length "\x7d" :=
  c5_amended_error_offsets.1 "\x7d"
    (.json_map_syntax_error 0 "Encountered unexpected end to scope") 0
    (by rfl) (by rfl)

/-! Character-swap simulation for the tokenizer -/

/-- A swap fixes every character other than the one it moves. -/
theorem char_swap_fix (c0 c1 c : Char) (h : c ≠ c0) : char_swap c0 c1 c = c :=
  if_neg h

/-- A predicate that does not separate the two swapped characters is
invariant under the swap. -/
theorem char_swap_pred_iff (c0 c1 : Char) (C : Char → Prop)
    (h : C c0 ↔ C c1) : ∀ c, C (char_swap c0 c1 c) ↔ C c := by
  intro c
  unfold char_swap
  by_cases hc : c = c0
  · rw [if_pos hc, hc]
    exact h.symm
  · rw [if_neg hc]

/-- The swap moves whitespace nowhere when neither of its characters is
whitespace. -/
theorem char_swap_ws (c0 c1 : Char) (h0 : ¬ c0.isWhitespace)
    (h1 : ¬ c1.isWhitespace) :
    ∀ c, (char_swap c0 c1 c).isWhitespace = c.isWhitespace := by
  intro c
  unfold char_swap
  by_cases hc : c = c0
  · rw [if_pos hc, hc]
    rw [Bool.eq_iff_iff]
    constructor
    · intro h
      exact absurd h h1
    · intro h
      exact absurd h h0
  · rw [if_neg hc]

/-- The image of an equality test with a character different from both
swapped characters. -/
theorem char_swap_eq_iff (c0 c1 γ : Char) (h0 : c0 ≠ γ) (h1 : c1 ≠ γ) :
    ∀ c, char_swap c0 c1 c = γ ↔ c = γ :=
  char_swap_pred_iff c0 c1 (fun c => c = γ) (iff_of_false h0 h1)

/-- `digitsVal` never recovers from a `none` accumulator. -/
theorem digits_foldl_none : ∀ (cs : List Char),
    cs.foldl
      (fun acc c =>
        match acc with
        | none => none
        | some a => if c.isDigit then some (a * 10 + (c.toNat - 48)) else none)
      none = none := by
  intro cs
  induction cs with
  | nil => rfl
  | cons c cs ih =>
    rw [List.foldl_cons]
    exact ih

/-- A successful `digitsVal` fold sees only digits. -/
theorem digits_foldl_digits : ∀ (cs : List Char) (a v : Nat),
    cs.foldl
      (fun acc c =>
        match acc with
        | none => none
        | some a => if c.isDigit then some (a * 10 + (c.toNat - 48)) else none)
      (some a) = some v → ∀ c ∈ cs, c.isDigit := by
  intro cs
  induction cs with
  | nil =>
    intro a v h c hc
    exact absurd hc (List.not_mem_nil c)
  | cons c cs ih =>
    intro a v h x hx
    rw [List.foldl_cons] at h
    have h2 : cs.foldl
        (fun acc c =>
          match acc with
          | none => none
          | some a => if c.isDigit then some (a * 10 + (c.toNat - 48)) else none)
        (if c.isDigit then some (a * 10 + (c.toNat - 48)) else none) =
        some v := h
    by_cases hd : c.isDigit
    · rw [if_pos hd] at h2
      rcases List.mem_cons.mp hx with hh | hh
      · rw [hh]
        exact hd
      · exact ih _ v h2 x hh
    · rw [if_neg hd] at h2
      rw [digits_foldl_none cs] at h2
      exact Option.noConfusion h2

/-- A successful `digitsVal` sees only digits. -/
theorem digitsVal_digits (cs : List Char) (v : Nat)
    (h : digitsVal cs = some v) : ∀ c ∈ cs, c.isDigit := by
  cases cs with
  | nil => exact Option.noConfusion h
  | cons c rest =>
    have h2 : (c :: rest).foldl
        (fun acc c =>
          match acc with
          | none => none
          | some a => if c.isDigit then some (a * 10 + (c.toNat - 48)) else none)
        (some 0) = some v := h
    exact digits_foldl_digits (c :: rest) 0 v h2

/-- Every character of a string accepted by `python_int` is whitespace, a
sign, or a digit. -/
theorem python_int_chars (s : String) (m : Int)
    (h : python_int s = some m) :
    ∀ c ∈ s.toList, c.isWhitespace ∨ c = '+' ∨ c = '-' ∨ c.isDigit := by
  intro c hc
  rw [python_int] at h
  have hsplit1 : s.toList =
      s.toList.takeWhile Char.isWhitespace ++
        s.toList.dropWhile Char.isWhitespace :=
    (List.takeWhile_append_dropWhile Char.isWhitespace s.toList).symm
  set t1 := s.toList.dropWhile Char.isWhitespace with ht1
  have hsplit2 : t1 = (t1.reverse.dropWhile Char.isWhitespace).reverse ++
      (t1.reverse.takeWhile Char.isWhitespace).reverse := by
    have hd := (List.takeWhile_append_dropWhile Char.isWhitespace t1.reverse).symm
    calc t1 = t1.reverse.reverse := (List.reverse_reverse t1).symm
      _ = (t1.reverse.takeWhile Char.isWhitespace ++
          t1.reverse.dropWhile Char.isWhitespace).reverse := by rw [← hd]
      _ = (t1.reverse.dropWhile Char.isWhitespace).reverse ++
          (t1.reverse.takeWhile Char.isWhitespace).reverse := by
        rw [List.reverse_append]
  obtain ⟨cs, hcs⟩ : ∃ l, l = (t1.reverse.dropWhile Char.isWhitespace).reverse :=
    ⟨_, rfl⟩
  rw [← hcs] at h hsplit2
  rw [hsplit1] at hc
  rcases List.mem_append.mp hc with hm | hm
  · exact Or.inl (List.mem_takeWhile_imp hm)
  · rw [hsplit2] at hm
    rcases List.mem_append.mp hm with hm2 | hm2
    · have hmcs : c ∈ cs := hm2
      split at h
      · rename_i rest2
        cases hdv : digitsVal rest2 with
        | none =>
          rw [hdv] at h
          exact absurd h (by simp)
        | some v =>
          rcases List.mem_cons.mp hmcs with hh | hh
          · exact Or.inr (Or.inl hh)
          · exact Or.inr (Or.inr (Or.inr (digitsVal_digits rest2 v hdv c hh)))
      · rename_i rest2
        cases hdv : digitsVal rest2 with
        | none =>
          rw [hdv] at h
          exact absurd h (by simp)
        | some v =>
          rcases List.mem_cons.mp hmcs with hh | hh
          · exact Or.inr (Or.inr (Or.inl hh))
          · exact Or.inr (Or.inr (Or.inr (digitsVal_digits rest2 v hdv c hh)))
      · rename_i hne1 hne2
        cases hdv : digitsVal cs with
        | none =>
          rw [hdv] at h
          exact absurd h (by simp)
        | some v =>
          exact Or.inr (Or.inr (Or.inr (digitsVal_digits cs v hdv c hmcs)))
    · exact Or.inl (List.mem_takeWhile_imp (List.mem_reverse.mp hm2))

/-- The `int(_, 16)` fold never recovers from a `none` accumulator. -/
theorem int16_foldl_none : ∀ (cs : List Char),
    cs.foldl
      (fun acc c =>
        match acc with
        | none => none
        | some a =>
          match hex_digit_val? c with
          | some d => some (a * 16 + d)
          | none => none)
      none = none := by
  intro cs
  induction cs with
  | nil => rfl
  | cons c cs ih =>
    rw [List.foldl_cons]
    exact ih

/-- A successful `int(_, 16)` fold sees only hexadecimal digits. -/
theorem int16_foldl_hex : ∀ (cs : List Char) (a v : Nat),
    cs.foldl
      (fun acc c =>
        match acc with
        | none => none
        | some a =>
          match hex_digit_val? c with
          | some d => some (a * 16 + d)
          | none => none)
      (some a) = some v → ∀ c ∈ cs, ∃ d, hex_digit_val? c = some d := by
  intro cs
  induction cs with
  | nil =>
    intro a v h c hc
    exact absurd hc (List.not_mem_nil c)
  | cons c cs ih =>
    intro a v h x hx
    rw [List.foldl_cons] at h
    cases hd : hex_digit_val? c with
    | some d =>
      have h2 : cs.foldl
          (fun acc c =>
            match acc with
            | none => none
            | some a =>
              match hex_digit_val? c with
              | some d => some (a * 16 + d)
              | none => none)
          (match hex_digit_val? c with
            | some d => some (a * 16 + d)
            | none => none) = some v := h
      rw [hd] at h2
      rcases List.mem_cons.mp hx with hh | hh
      · exact ⟨d, hh ▸ hd⟩
      · exact ih _ v h2 x hh
    | none =>
      have h2 : cs.foldl
          (fun acc c =>
            match acc with
            | none => none
            | some a =>
              match hex_digit_val? c with
              | some d => some (a * 16 + d)
              | none => none)
          (match hex_digit_val? c with
            | some d => some (a * 16 + d)
            | none => none) = some v := h
      rw [hd, int16_foldl_none cs] at h2
      exact Option.noConfusion h2

/-- A successful `int(_, 16)` sees only hexadecimal digits. -/
theorem int_base16_hex (cs : List Char) (v : Nat)
    (h : int_base16 cs = some v) : ∀ c ∈ cs, ∃ d, hex_digit_val? c = some d := by
  cases cs with
  | nil => exact Option.noConfusion h
  | cons c rest =>
    have h2 : (c :: rest).foldl
        (fun acc c =>
          match acc with
          | none => none
          | some a =>
            match hex_digit_val? c with
            | some d => some (a * 16 + d)
            | none => none)
        (some 0) = some v := h
    exact int16_foldl_hex (c :: rest) 0 v h2

/-- `stream_swap` and `List.take` commute. -/
theorem stream_swap_take (f : Char → Char) (s : CharStream) (k : Nat) :
    stream_swap f (s.take k) = (stream_swap f s).take k := by
  unfold stream_swap
  exact List.map_take _ _ _

/-- `stream_swap` and `List.drop` commute. -/
theorem stream_swap_drop (f : Char → Char) (s : CharStream) (k : Nat) :
    stream_swap f (s.drop k) = (stream_swap f s).drop k := by
  unfold stream_swap
  exact List.map_drop _ _ _

/-- The characters of a swapped stream are the swapped characters. -/
theorem stream_swap_snd (f : Char → Char) (s : CharStream) :
    (stream_swap f s).map Prod.snd = (s.map Prod.snd).map f := by
  unfold stream_swap
  rw [List.map_map, List.map_map]
  rfl

/-- `capture_escaped_hex` is unaffected by a swap that fixes all
hexadecimal digits. -/
theorem capture_escaped_hex_swap (f : Char → Char)
    (hhexfix : ∀ c d, hex_digit_val? c = some d → f c = c)
    (s : CharStream) (len : Nat) (ch : Char) (r : CharStream)
    (h : capture_escaped_hex s len = .ok (ch, r)) :
    capture_escaped_hex (stream_swap f s) len = .ok (ch, stream_swap f r) := by
  rw [capture_escaped_hex] at h ⊢
  cases hv : int_base16 ((s.take len).map Prod.snd) with
  | none =>
    rw [hv] at h
    have h2 : (Except.error (CompileErr.value_error
        "invalid literal for int with base 16") :
        Except CompileErr (Char × CharStream)) = .ok (ch, r) := h
    exact Except.noConfusion h2
  | some v =>
    rw [hv] at h
    have h2 : (Except.ok (Char.ofNat v, s.drop len) :
        Except CompileErr (Char × CharStream)) = .ok (ch, r) := h
    injection h2 with h2
    injection h2 with h1 h2
    have hcode : (((stream_swap f s).take len).map Prod.snd) =
        ((s.take len).map Prod.snd) := by
      rw [← stream_swap_take, stream_swap_snd]
      have hfixed : ∀ c ∈ (s.take len).map Prod.snd, f c = c := by
        intro c hc
        obtain ⟨d, hd⟩ := int_base16_hex _ v hv c hc
        exact hhexfix c d hd
      calc ((s.take len).map Prod.snd).map f
          = ((s.take len).map Prod.snd).map id :=
            List.map_congr_left (fun c hc => hfixed c hc)
        _ = (s.take len).map Prod.snd := List.map_id _
    rw [hcode, hv]
    rw [← h1, ← h2, stream_swap_drop]

/-- `capture_string` is unaffected by a character swap that fixes the
delimiter, all escape codes and hex digits, and every character of the
decoded token. -/
theorem capture_string_swap (f : Char → Char) (d : Char)
    (hfd : f d = d) (hdbs : d ≠ '\\')
    (hescfix : ∀ c e, ESCAPED_CHARS c = some e → f c = c)
    (hxfix : f 'x' = 'x') (hufix : f 'u' = 'u')
    (hhexfix : ∀ c e, hex_digit_val? c = some e → f c = c) :
    ∀ (fuel : Nat) (s : CharStream) (tok : List Char) (r : CharStream),
      capture_string fuel s d = .ok (tok, r) → (∀ c ∈ tok, f c = c) →
      capture_string fuel (stream_swap f s) d = .ok (tok, stream_swap f r) := by
  intro fuel
  induction fuel with
  | zero =>
    intro s tok r h htok
    have h2 : (Except.error CompileErr.fuel_exhausted :
        Except CompileErr (List Char × CharStream)) = .ok (tok, r) := h
    exact Except.noConfusion h2
  | succ fuel ih =>
    intro s tok r h htok
    cases s with
    | nil =>
      have h2 : (Except.error CompileErr.stop_iteration :
          Except CompileErr (List Char × CharStream)) = .ok (tok, r) := h
      exact Except.noConfusion h2
    | cons pc rest =>
      obtain ⟨pos, c⟩ := pc
      show capture_string (fuel + 1) ((pos, f c) :: stream_swap f rest) d =
        .ok (tok, stream_swap f r)
      simp only [capture_string] at h ⊢
      by_cases hc : c = d
      · rw [if_pos hc] at h
        injection h with h
        injection h with h1 h2
        subst hc
        rw [if_pos hfd, ← h1, ← h2]
      · rw [if_neg hc] at h
        by_cases hb : c = '\\'
        · rw [if_neg (not_not_intro hb)] at h
          subst hb
          have hbs : f '\\' = '\\' := hescfix '\\' '\\' rfl
          rw [hbs]
          rw [if_neg (fun hh => hdbs (Eq.symm hh)),
            if_neg (not_not_intro rfl)]
          cases rest with
          | nil =>
            have h2 : (Except.error CompileErr.stop_iteration :
                Except CompileErr (List Char × CharStream)) = .ok (tok, r) := h
            exact Except.noConfusion h2
          | cons pc2 rest2 =>
            obtain ⟨p2, ec⟩ := pc2
            have h2 : (match ESCAPED_CHARS ec with
                | some escaped =>
                  (match capture_string fuel rest2 d with
                    | .ok (token, rr) => .ok (escaped :: token, rr)
                    | .error e => .error e)
                | none =>
                  if ec = 'x' then
                    match capture_escaped_hex rest2 2 with
                    | .ok (hex_char, r2) =>
                      (match capture_string fuel r2 d with
                        | .ok (token, rr) => .ok (hex_char :: token, rr)
                        | .error e => .error e)
                    | .error e => .error e
                  else if ec = 'u' then
                    match capture_escaped_hex rest2 4 with
                    | .ok (hex_char, r2) =>
                      (match capture_string fuel r2 d with
                        | .ok (token, rr) => .ok (hex_char :: token, rr)
                        | .error e => .error e)
                    | .error e => .error e
                  else .error (.invalid_escape_sequence pos ec) :
                  Except CompileErr (List Char × CharStream)) =
                Except.ok (tok, r) := h
            show (match ESCAPED_CHARS (f ec) with
                | some escaped =>
                  (match capture_string fuel (stream_swap f rest2) d with
                    | .ok (token, rr) => .ok (escaped :: token, rr)
                    | .error e => .error e)
                | none =>
                  if f ec = 'x' then
                    match capture_escaped_hex (stream_swap f rest2) 2 with
                    | .ok (hex_char, r2) =>
                      (match capture_string fuel r2 d with
                        | .ok (token, rr) => .ok (hex_char :: token, rr)
                        | .error e => .error e)
                    | .error e => .error e
                  else if f ec = 'u' then
                    match capture_escaped_hex (stream_swap f rest2) 4 with
                    | .ok (hex_char, r2) =>
                      (match capture_string fuel r2 d with
                        | .ok (token, rr) => .ok (hex_char :: token, rr)
                        | .error e => .error e)
                    | .error e => .error e
                  else .error (.invalid_escape_sequence pos (f ec)) :
                  Except CompileErr (List Char × CharStream)) =
              .ok (tok, stream_swap f r)
            cases he : ESCAPED_CHARS ec with
            | some esc =>
              rw [he] at h2
              have hfe : f ec = ec := hescfix ec esc he
              rw [hfe, he]
              cases hr : capture_string fuel rest2 d with
              | ok tr =>
                obtain ⟨tok1, r1⟩ := tr
                rw [hr] at h2
                injection h2 with h2
                injection h2 with h1 h4
                show (match capture_string fuel (stream_swap f rest2) d with
                    | .ok (token, rr) => .ok (esc :: token, rr)
                    | .error e => .error e :
                    Except CompileErr (List Char × CharStream)) =
                  .ok (tok, stream_swap f r)
                have htok1 : ∀ x ∈ tok1, f x = x :=
                  fun x hx => htok x (h1 ▸ List.mem_cons_of_mem esc hx)
                rw [ih rest2 tok1 r1 hr htok1]
                show (Except.ok (esc :: tok1, stream_swap f r1) :
                    Except CompileErr (List Char × CharStream)) =
                  .ok (tok, stream_swap f r)
                rw [← h1, ← h4]
              | error e =>
                rw [hr] at h2
                have h3 : (Except.error e :
                    Except CompileErr (List Char × CharStream)) =
                  .ok (tok, r) := h2
                exact Except.noConfusion h3
            | none =>
              rw [he] at h2
              by_cases hx2 : ec = 'x'
              · subst hx2
                rw [if_pos rfl] at h2
                cases hh : capture_escaped_hex rest2 2 with
                | ok cr =>
                  obtain ⟨hexch, r2⟩ := cr
                  rw [hh] at h2
                  have h3 : (match capture_string fuel r2 d with
                      | .ok (token, rr) => .ok (hexch :: token, rr)
                      | .error e => .error e :
                      Except CompileErr (List Char × CharStream)) =
                    Except.ok (tok, r) := h2
                  cases hr : capture_string fuel r2 d with
                  | ok tr =>
                    obtain ⟨tok1, r1⟩ := tr
                    rw [hr] at h3
                    injection h3 with h3
                    injection h3 with h1 h4
                    rw [hxfix]
                    rw [show ESCAPED_CHARS 'x' = none from rfl]
                    rw [if_pos rfl]
                    rw [capture_escaped_hex_swap f hhexfix rest2 2 hexch r2 hh]
                    show (match capture_string fuel (stream_swap f r2) d with
                        | .ok (token, rr) => .ok (hexch :: token, rr)
                        | .error e => .error e :
                        Except CompileErr (List Char × CharStream)) =
                      .ok (tok, stream_swap f r)
                    have htok1 : ∀ x ∈ tok1, f x = x :=
                      fun x hx => htok x (h1 ▸ List.mem_cons_of_mem hexch hx)
                    rw [ih r2 tok1 r1 hr htok1]
                    show (Except.ok (hexch :: tok1, stream_swap f r1) :
                        Except CompileErr (List Char × CharStream)) =
                      .ok (tok, stream_swap f r)
                    rw [← h1, ← h4]
                  | error e =>
                    rw [hr] at h3
                    have h4 : (Except.error e :
                        Except CompileErr (List Char × CharStream)) =
                      .ok (tok, r) := h3
                    exact Except.noConfusion h4
                | error e =>
                  rw [hh] at h2
                  have h3 : (Except.error e :
                      Except CompileErr (List Char × CharStream)) =
                    .ok (tok, r) := h2
                  exact Except.noConfusion h3
              · rw [if_neg hx2] at h2
                by_cases hu2 : ec = 'u'
                · subst hu2
                  rw [if_pos rfl] at h2
                  cases hh : capture_escaped_hex rest2 4 with
                  | ok cr =>
                    obtain ⟨hexch, r2⟩ := cr
                    rw [hh] at h2
                    have h3 : (match capture_string fuel r2 d with
                        | .ok (token, rr) => .ok (hexch :: token, rr)
                        | .error e => .error e :
                        Except CompileErr (List Char × CharStream)) =
                      Except.ok (tok, r) := h2
                    cases hr : capture_string fuel r2 d with
                    | ok tr =>
                      obtain ⟨tok1, r1⟩ := tr
                      rw [hr] at h3
                      injection h3 with h3
                      injection h3 with h1 h4
                      rw [hufix]
                      rw [show ESCAPED_CHARS 'u' = none from rfl]
                      rw [if_pos rfl]
                      rw [capture_escaped_hex_swap f hhexfix rest2 4 hexch r2 hh]
                      show (match capture_string fuel (stream_swap f r2) d with
                          | .ok (token, rr) => .ok (hexch :: token, rr)
                          | .error e => .error e :
                          Except CompileErr (List Char × CharStream)) =
                        .ok (tok, stream_swap f r)
                      have htok1 : ∀ x ∈ tok1, f x = x :=
                        fun x hx => htok x (h1 ▸ List.mem_cons_of_mem hexch hx)
                      rw [ih r2 tok1 r1 hr htok1]
                      show (Except.ok (hexch :: tok1, stream_swap f r1) :
                          Except CompileErr (List Char × CharStream)) =
                        .ok (tok, stream_swap f r)
                      rw [← h1, ← h4]
                    | error e =>
                      rw [hr] at h3
                      have h4 : (Except.error e :
                          Except CompileErr (List Char × CharStream)) =
                        .ok (tok, r) := h3
                      exact Except.noConfusion h4
                  | error e =>
                    rw [hh] at h2
                    have h3 : (Except.error e :
                        Except CompileErr (List Char × CharStream)) =
                      .ok (tok, r) := h2
                    exact Except.noConfusion h3
                · rw [if_neg hu2] at h2
                  have h3 : (Except.error (CompileErr.invalid_escape_sequence
                      pos ec) :
                      Except CompileErr (List Char × CharStream)) =
                    .ok (tok, r) := h2
                  exact Except.noConfusion h3
        · rw [if_pos hb] at h
          cases hr : capture_string fuel rest d with
          | ok tr =>
            obtain ⟨tok1, r1⟩ := tr
            rw [hr] at h
            injection h with h
            injection h with h1 h4
            have hfc : f c = c := htok c (h1 ▸ List.mem_cons_self c tok1)
            rw [hfc, if_neg hc, if_pos hb]
            have htok1 : ∀ x ∈ tok1, f x = x :=
              fun x hx => htok x (h1 ▸ List.mem_cons_of_mem c hx)
            rw [ih rest tok1 r1 hr htok1]
            show (Except.ok (c :: tok1, stream_swap f r1) :
                Except CompileErr (List Char × CharStream)) =
              .ok (tok, stream_swap f r)
            rw [← h1, ← h4]
          | error e =>
            rw [hr] at h
            have h3 : (Except.error e :
                Except CompileErr (List Char × CharStream)) =
              .ok (tok, r) := h
            exact Except.noConfusion h3

/-- The characters of a captured bare word are never delimiters or
whitespace. -/
theorem capture_bare_word_chars :
    ∀ (fuel : Nat) (s : CharStream) (delims : List Char) (w : List Char)
      (r : CharStream), capture_bare_word fuel s delims = .ok (w, r) →
      ∀ c ∈ w, ¬ c ∈ delims ∧ ¬ c.isWhitespace := by
  intro fuel
  induction fuel with
  | zero =>
    intro s delims w r h
    have h2 : (Except.error CompileErr.fuel_exhausted :
        Except CompileErr (List Char × CharStream)) = .ok (w, r) := h
    exact Except.noConfusion h2
  | succ fuel ih =>
    intro s delims w r h
    cases s with
    | nil =>
      have h2 : (Except.error CompileErr.stop_iteration :
          Except CompileErr (List Char × CharStream)) = .ok (w, r) := h
      exact Except.noConfusion h2
    | cons pc rest =>
      obtain ⟨pos, c⟩ := pc
      simp only [capture_bare_word] at h
      by_cases hd : c ∈ delims
      · rw [if_pos hd] at h
        injection h with h
        injection h with h1 h2
        intro x hx
        rw [← h1] at hx
        exact absurd hx (List.not_mem_nil x)
      · rw [if_neg hd] at h
        by_cases hw : c.isWhitespace
        · rw [if_pos hw] at h
          injection h with h
          injection h with h1 h2
          intro x hx
          rw [← h1] at hx
          exact absurd hx (List.not_mem_nil x)
        · rw [if_neg hw] at h
          cases hr : capture_bare_word fuel rest delims with
          | ok tr =>
            obtain ⟨w1, r1⟩ := tr
            rw [hr] at h
            injection h with h
            injection h with h1 h2
            intro x hx
            rw [← h1] at hx
            rcases List.mem_cons.mp hx with hh | hh
            · rw [hh]
              exact ⟨hd, hw⟩
            · exact ih rest delims w1 r1 hr x hh
          | error e =>
            rw [hr] at h
            have h3 : (Except.error e :
                Except CompileErr (List Char × CharStream)) = .ok (w, r) := h
            exact Except.noConfusion h3

/-- `capture_bare_word` is unaffected by a swap that maps delimiters to
delimiters, fixes whitespace, and fixes every character of the captured
word. -/
theorem capture_bare_word_swap (f : Char → Char) (delims : List Char)
    (hdel : ∀ c, c ∈ delims → f c ∈ delims)
    (hwsfix : ∀ c, c.isWhitespace → f c = c) :
    ∀ (fuel : Nat) (s : CharStream) (w : List Char) (r : CharStream),
      capture_bare_word fuel s delims = .ok (w, r) → (∀ c ∈ w, f c = c) →
      capture_bare_word fuel (stream_swap f s) delims =
        .ok (w, stream_swap f r) := by
  intro fuel
  induction fuel with
  | zero =>
    intro s w r h hw
    have h2 : (Except.error CompileErr.fuel_exhausted :
        Except CompileErr (List Char × CharStream)) = .ok (w, r) := h
    exact Except.noConfusion h2
  | succ fuel ih =>
    intro s w r h hwfix
    cases s with
    | nil =>
      have h2 : (Except.error CompileErr.stop_iteration :
          Except CompileErr (List Char × CharStream)) = .ok (w, r) := h
      exact Except.noConfusion h2
    | cons pc rest =>
      obtain ⟨pos, c⟩ := pc
      show capture_bare_word (fuel + 1) ((pos, f c) :: stream_swap f rest)
        delims = .ok (w, stream_swap f r)
      simp only [capture_bare_word] at h ⊢
      by_cases hd : c ∈ delims
      · rw [if_pos hd] at h
        injection h with h
        injection h with h1 h2
        rw [if_pos (hdel c hd), ← h1, ← h2]
        rfl
      · rw [if_neg hd] at h
        by_cases hw : c.isWhitespace
        · rw [if_pos hw] at h
          injection h with h
          injection h with h1 h2
          rw [hwsfix c hw, if_neg hd, if_pos hw, ← h1, ← h2]
        · rw [if_neg hw] at h
          cases hr : capture_bare_word fuel rest delims with
          | ok tr =>
            obtain ⟨w1, r1⟩ := tr
            rw [hr] at h
            injection h with h
            injection h with h1 h2
            have hfc : f c = c :=
              hwfix c (h1 ▸ List.mem_cons_self c w1)
            rw [hfc, if_neg hd, if_neg hw]
            have hw1 : ∀ x ∈ w1, f x = x :=
              fun x hx => hwfix x (h1 ▸ List.mem_cons_of_mem c hx)
            rw [ih rest w1 r1 hr hw1]
            show (Except.ok (c :: w1, stream_swap f r1) :
                Except CompileErr (List Char × CharStream)) =
              .ok (w, stream_swap f r)
            rw [← h1, ← h2]
          | error e =>
            rw [hr] at h
            have h3 : (Except.error e :
                Except CompileErr (List Char × CharStream)) = .ok (w, r) := h
            exact Except.noConfusion h3

/-- The path stored in the token built by `parse_reference`. -/
theorem mk_reference_path (b : Bool) (pos : Nat)
    (path : List (String ⊕ Int)) (g : Bool) :
    token_path (mk_reference b pos path g) = path := by
  cases b <;> rfl

/-- `parse_reference` only appends to its path accumulator: every
accumulated segment appears in the returned token's path. -/
theorem parse_reference_path_mono :
    ∀ (fuel : Nat) (s : CharStream) (position? : Option Nat) (g ili : Bool)
      (path : List (String ⊕ Int)) (tok : Token) (r : CharStream),
      parse_reference fuel s position? g ili path = .ok (tok, r) →
      ∀ x ∈ path, x ∈ token_path tok := by
  intro fuel
  induction fuel with
  | zero =>
    intro s p? g ili path tok r h
    have h2 : (Except.error CompileErr.fuel_exhausted :
        Except CompileErr (Token × CharStream)) = .ok (tok, r) := h
    exact Except.noConfusion h2
  | succ fuel ih =>
    intro s p? g ili path tok r h
    cases s with
    | nil =>
      have h2 : (Except.error CompileErr.stop_iteration :
          Except CompileErr (Token × CharStream)) = .ok (tok, r) := h
      exact Except.noConfusion h2
    | cons pc rest =>
      obtain ⟨cur, c⟩ := pc
      simp only [parse_reference] at h
      by_cases hw : c.isWhitespace
      · rw [if_pos hw] at h
        injection h with h
        injection h with h1 h2
        intro x hx
        rw [← h1, mk_reference_path]
        exact hx
      · rw [if_neg hw] at h
        by_cases hdot : c = '.'
        · rw [if_pos hdot] at h
          exact ih rest _ g ili path tok r h
        · rw [if_neg hdot] at h
          by_cases hbang : c = '!'
          · rw [if_pos hbang] at h
            by_cases hlen : path.length > 0
            · rw [if_pos hlen] at h
              have h2 : (Except.error (CompileErr.json_map_syntax_error cur
                  "Illegal element in path") :
                  Except CompileErr (Token × CharStream)) = .ok (tok, r) := h
              exact Except.noConfusion h2
            · rw [if_neg hlen] at h
              exact ih rest _ true ili path tok r h
          · rw [if_neg hbang] at h
            by_cases hq : c = '"'
            · rw [if_pos hq] at h
              cases hs : capture_string fuel rest '"' with
              | ok tr =>
                obtain ⟨tkn, r2⟩ := tr
                rw [hs] at h
                intro x hx
                exact ih r2 _ g ili _ tok r h x
                  (List.mem_append_left _ hx)
              | error e =>
                rw [hs] at h
                have h2 : (Except.error e :
                    Except CompileErr (Token × CharStream)) = .ok (tok, r) := h
                exact Except.noConfusion h2
            · rw [if_neg hq] at h
              by_cases hqm : c = '?'
              · rw [if_pos hqm] at h
                exact ih rest _ g true path tok r h
              · rw [if_neg hqm] at h
                by_cases hterm : c = ';' ∨ c = ',' ∨ c = '{' ∨ c = '[' ∨
                    c = '}' ∨ c = ']'
                · rw [if_pos hterm] at h
                  injection h with h
                  injection h with h1 h2
                  intro x hx
                  rw [← h1, mk_reference_path]
                  exact hx
                · rw [if_neg hterm] at h
                  cases hb : capture_bare_word fuel ((cur, c) :: rest)
                      reference_delimiters with
                  | ok tr =>
                    obtain ⟨bw, r2⟩ := tr
                    rw [hb] at h
                    cases ili with
                    | true =>
                      have h2 : (match python_int (String.mk bw) with
                          | some m => parse_reference fuel r2 (some (p?.getD cur))
                              g true (path ++ [Sum.inr m])
                          | none => .error (.value_error
                              "invalid literal for int() with base 10") :
                          Except CompileErr (Token × CharStream)) =
                        .ok (tok, r) := h
                      cases hi : python_int (String.mk bw) with
                      | some m =>
                        rw [hi] at h2
                        intro x hx
                        exact ih r2 _ g true _ tok r h2 x
                          (List.mem_append_left _ hx)
                      | none =>
                        rw [hi] at h2
                        have h3 : (Except.error (CompileErr.value_error
                            "invalid literal for int() with base 10") :
                            Except CompileErr (Token × CharStream)) =
                          .ok (tok, r) := h2
                        exact Except.noConfusion h3
                    | false =>
                      have h2 : parse_reference fuel r2 (some (p?.getD cur))
                          g false (path ++ [Sum.inl (String.mk bw)]) =
                          .ok (tok, r) := h
                      intro x hx
                      exact ih r2 _ g false _ tok r h2 x
                        (List.mem_append_left _ hx)
                  | error e =>
                    rw [hb] at h
                    have h2 : (Except.error e :
                        Except CompileErr (Token × CharStream)) = .ok (tok, r) := h
                    exact Except.noConfusion h2

/-- `parse_reference` is unaffected by a character swap that respects
whitespace, the dispatch characters, the reference delimiters, escape
codes, integer syntax, and every stored path segment. -/
theorem parse_reference_swap (f : Char → Char)
    (hwsfix : ∀ c, c.isWhitespace → f c = c)
    (hwsrefl : ∀ c, (f c).isWhitespace = c.isWhitespace)
    (hdotP : ∀ c, (f c = '.') = (c = '.'))
    (hbangP : ∀ c, (f c = '!') = (c = '!'))
    (hquotP : ∀ c, (f c = '"') = (c = '"'))
    (hqmP : ∀ c, (f c = '?') = (c = '?'))
    (htermP : ∀ c, (f c = ';' ∨ f c = ',' ∨ f c = '{' ∨ f c = '[' ∨
      f c = '}' ∨ f c = ']') = (c = ';' ∨ c = ',' ∨ c = '{' ∨ c = '[' ∨
      c = '}' ∨ c = ']'))
    (hdel : ∀ c, c ∈ reference_delimiters → f c ∈ reference_delimiters)
    (hescfix : ∀ c e, ESCAPED_CHARS c = some e → f c = c)
    (hxfix : f 'x' = 'x') (hufix : f 'u' = 'u')
    (hhexfix : ∀ c e, hex_digit_val? c = some e → f c = c)
    (hintfix : ∀ str m, python_int str = some m → ∀ c ∈ str.toList, f c = c) :
    ∀ (fuel : Nat) (s : CharStream) (position? : Option Nat) (g ili : Bool)
      (path : List (String ⊕ Int)) (tok : Token) (r : CharStream),
      parse_reference fuel s position? g ili path = .ok (tok, r) →
      (∀ str, Sum.inl str ∈ token_path tok → ∀ c ∈ str.toList, f c = c) →
      parse_reference fuel (stream_swap f s) position? g ili path =
        .ok (tok, stream_swap f r) := by
  intro fuel
  induction fuel with
  | zero =>
    intro s p? g ili path tok r h hsegs
    have h2 : (Except.error CompileErr.fuel_exhausted :
        Except CompileErr (Token × CharStream)) = .ok (tok, r) := h
    exact Except.noConfusion h2
  | succ fuel ih =>
    intro s p? g ili path tok r h hsegs
    cases s with
    | nil =>
      have h2 : (Except.error CompileErr.stop_iteration :
          Except CompileErr (Token × CharStream)) = .ok (tok, r) := h
      exact Except.noConfusion h2
    | cons pc rest =>
      obtain ⟨cur, c⟩ := pc
      show parse_reference (fuel + 1) ((cur, f c) :: stream_swap f rest)
        p? g ili path = .ok (tok, stream_swap f r)
      simp only [parse_reference] at h ⊢
      simp only [hwsrefl, hdotP, hbangP, hquotP, hqmP, htermP]
      by_cases hw : c.isWhitespace
      · rw [if_pos hw] at h ⊢
        injection h with h
        injection h with h1 h2
        rw [← h1, ← h2]
        rfl
      · rw [if_neg hw] at h ⊢
        by_cases hdot : c = '.'
        · rw [if_pos hdot] at h ⊢
          exact ih rest _ g ili path tok r h hsegs
        · rw [if_neg hdot] at h ⊢
          by_cases hbang : c = '!'
          · rw [if_pos hbang] at h ⊢
            by_cases hlen : path.length > 0
            · rw [if_pos hlen] at h
              have h2 : (Except.error (CompileErr.json_map_syntax_error cur
                  "Illegal element in path") :
                  Except CompileErr (Token × CharStream)) = .ok (tok, r) := h
              exact Except.noConfusion h2
            · rw [if_neg hlen] at h ⊢
              exact ih rest _ true ili path tok r h hsegs
          · rw [if_neg hbang] at h ⊢
            by_cases hq : c = '"'
            · rw [if_pos hq] at h ⊢
              cases hs : capture_string fuel rest '"' with
              | ok tr =>
                obtain ⟨tkn, r2⟩ := tr
                rw [hs] at h
                have hmem : Sum.inl (String.mk tkn) ∈ token_path tok :=
                  parse_reference_path_mono fuel r2 _ g ili _ tok r h _
                    (List.mem_append_right path (List.mem_singleton.mpr rfl))
                have htkn : ∀ x ∈ tkn, f x = x :=
                  fun x hx => hsegs (String.mk tkn) hmem x hx
                have hfq : f '"' = '"' := cast (hquotP '"').symm rfl
                rw [capture_string_swap f '"' hfq (by decide) hescfix hxfix
                  hufix hhexfix fuel rest tkn r2 hs htkn]
                show parse_reference fuel (stream_swap f r2)
                    (some (p?.getD cur)) g ili
                    (path ++ [Sum.inl (String.mk tkn)]) =
                  .ok (tok, stream_swap f r)
                exact ih r2 _ g ili _ tok r h hsegs
              | error e =>
                rw [hs] at h
                have h2 : (Except.error e :
                    Except CompileErr (Token × CharStream)) = .ok (tok, r) := h
                exact Except.noConfusion h2
            · rw [if_neg hq] at h ⊢
              by_cases hqm : c = '?'
              · rw [if_pos hqm] at h ⊢
                exact ih rest _ g true path tok r h hsegs
              · rw [if_neg hqm] at h ⊢
                by_cases hterm : c = ';' ∨ c = ',' ∨ c = '{' ∨ c = '[' ∨
                    c = '}' ∨ c = ']'
                · rw [if_pos hterm] at h ⊢
                  injection h with h
                  injection h with h1 h2
                  rw [← h1, ← h2]
                  rfl
                · rw [if_neg hterm] at h ⊢
                  cases hb : capture_bare_word fuel ((cur, c) :: rest)
                      reference_delimiters with
                  | ok tr =>
                    obtain ⟨bw, r2⟩ := tr
                    rw [hb] at h
                    cases ili with
                    | true =>
                      have h2 : (match python_int (String.mk bw) with
                          | some m => parse_reference fuel r2
                              (some (p?.getD cur)) g true (path ++ [Sum.inr m])
                          | none => .error (.value_error
                              "invalid literal for int() with base 10") :
                          Except CompileErr (Token × CharStream)) =
                        .ok (tok, r) := h
                      cases hi : python_int (String.mk bw) with
                      | some m =>
                        rw [hi] at h2
                        have hwfix : ∀ x ∈ bw, f x = x :=
                          fun x hx => hintfix (String.mk bw) m hi x hx
                        have hbw := capture_bare_word_swap f
                          reference_delimiters hdel hwsfix fuel
                          ((cur, c) :: rest) bw r2 hb hwfix
                        rw [show stream_swap f ((cur, c) :: rest) =
                          (cur, f c) :: stream_swap f rest from rfl] at hbw
                        rw [hbw]
                        show (match python_int (String.mk bw) with
                            | some m => parse_reference fuel (stream_swap f r2)
                                (some (p?.getD cur)) g true
                                (path ++ [Sum.inr m])
                            | none => .error (.value_error
                                "invalid literal for int() with base 10") :
                            Except CompileErr (Token × CharStream)) =
                          .ok (tok, stream_swap f r)
                        rw [hi]
                        exact ih r2 _ g true _ tok r h2 hsegs
                      | none =>
                        rw [hi] at h2
                        have h3 : (Except.error (CompileErr.value_error
                            "invalid literal for int() with base 10") :
                            Except CompileErr (Token × CharStream)) =
                          .ok (tok, r) := h2
                        exact Except.noConfusion h3
                    | false =>
                      have h2 : parse_reference fuel r2 (some (p?.getD cur))
                          g false (path ++ [Sum.inl (String.mk bw)]) =
                          .ok (tok, r) := h
                      have hmem : Sum.inl (String.mk bw) ∈ token_path tok :=
                        parse_reference_path_mono fuel r2 _ g false _ tok r h2 _
                          (List.mem_append_right path (List.mem_singleton.mpr rfl))
                      have hwfix : ∀ x ∈ bw, f x = x :=
                        fun x hx => hsegs (String.mk bw) hmem x hx
                      have hbw := capture_bare_word_swap f reference_delimiters
                        hdel hwsfix fuel ((cur, c) :: rest) bw r2 hb hwfix
                      rw [show stream_swap f ((cur, c) :: rest) =
                        (cur, f c) :: stream_swap f rest from rfl] at hbw
                      rw [hbw]
                      exact ih r2 _ g false _ tok r h2 hsegs
                  | error e =>
                    rw [hb] at h
                    have h2 : (Except.error e :
                        Except CompileErr (Token × CharStream)) = .ok (tok, r) := h
                    exact Except.noConfusion h2

/-- A fixed token has all its reference path segments fixed pointwise. -/
theorem token_fixed_segs (f : Char → Char) (t : Token)
    (h : token_fixed f t) :
    ∀ str, Sum.inl str ∈ token_path t → ∀ c ∈ str.toList, f c = c := by
  cases t with
  | reference p path g => exact h
  | list_index_reference p path g => exact h
  | symbol p s => exact fun str hs => absurd hs (List.not_mem_nil _)
  | bare_word p w => exact fun str hs => absurd hs (List.not_mem_nil _)
  | literal p w => exact fun str hs => absurd hs (List.not_mem_nil _)
  | interpolation p w => exact fun str hs => absurd hs (List.not_mem_nil _)

/-- The tokenizer loop is unaffected by a character swap that respects
whitespace, the dispatch characters, both delimiter sets, escape codes and
integer syntax, and fixes all the text stored in the produced tokens. -/
theorem tokenize_chars_swap (f : Char → Char)
    (hwsfix : ∀ c, c.isWhitespace → f c = c)
    (hwsrefl : ∀ c, (f c).isWhitespace = c.isWhitespace)
    (heosP : ∀ c, (f c = ';' ∨ f c = ',') = (c = ';' ∨ c = ','))
    (hlcbP : ∀ c, (f c = '{') = (c = '{'))
    (hrcbP : ∀ c, (f c = '}') = (c = '}'))
    (hlsbP : ∀ c, (f c = '[') = (c = '['))
    (hrsbP : ∀ c, (f c = ']') = (c = ']'))
    (hassP : ∀ c, (f c = '=' ∨ f c = ':') = (c = '=' ∨ c = ':'))
    (hquotP : ∀ c, (f c = '"') = (c = '"'))
    (hbtP : ∀ c, (f c = '`') = (c = '`'))
    (hampP : ∀ c, (f c = '&') = (c = '&'))
    (hdotP : ∀ c, (f c = '.') = (c = '.'))
    (hbangP : ∀ c, (f c = '!') = (c = '!'))
    (hqmP : ∀ c, (f c = '?') = (c = '?'))
    (htermP : ∀ c, (f c = ';' ∨ f c = ',' ∨ f c = '{' ∨ f c = '[' ∨
      f c = '}' ∨ f c = ']') = (c = ';' ∨ c = ',' ∨ c = '{' ∨ c = '[' ∨
      c = '}' ∨ c = ']'))
    (hdelbw : ∀ c, c ∈ bare_word_delimiters → f c ∈ bare_word_delimiters)
    (hdelref : ∀ c, c ∈ reference_delimiters → f c ∈ reference_delimiters)
    (hescfix : ∀ c e, ESCAPED_CHARS c = some e → f c = c)
    (hxfix : f 'x' = 'x') (hufix : f 'u' = 'u')
    (hhexfix : ∀ c e, hex_digit_val? c = some e → f c = c)
    (hintfix : ∀ str m, python_int str = some m → ∀ c ∈ str.toList, f c = c) :
    ∀ (fuel : Nat) (s : CharStream) (ts : List Token),
      tokenize_chars fuel s = .ok ts → (∀ t ∈ ts, token_fixed f t) →
      tokenize_chars fuel (stream_swap f s) = .ok ts := by
  intro fuel
  induction fuel with
  | zero =>
    intro s ts h hts
    have h2 : (Except.error CompileErr.fuel_exhausted :
        Except CompileErr (List Token)) = .ok ts := h
    exact Except.noConfusion h2
  | succ fuel ih =>
    intro s ts h hts
    cases s with
    | nil => exact h
    | cons pc rest =>
      obtain ⟨position, ch⟩ := pc
      show tokenize_chars (fuel + 1) ((position, f ch) :: stream_swap f rest) =
        .ok ts
      simp only [tokenize_chars] at h ⊢
      simp only [hwsrefl, heosP, hlcbP, hrcbP, hlsbP, hrsbP, hassP, hquotP,
        hbtP, hampP]
      by_cases hws : ch.isWhitespace
      · rw [if_pos hws] at h ⊢
        exact ih rest ts h hts
      · rw [if_neg hws] at h ⊢
        by_cases heos : ch = ';' ∨ ch = ','
        · rw [if_pos heos] at h ⊢
          cases hr : tokenize_chars fuel rest with
          | ok toks =>
            rw [hr] at h
            injection h with h
            have hts2 : ∀ t ∈ toks, token_fixed f t :=
              fun t ht => hts t (h ▸ List.mem_cons_of_mem _ ht)
            rw [ih rest toks hr hts2]
            show (Except.ok (Token.symbol position Symbol.end_of_statement :: toks) :
                Except CompileErr (List Token)) = .ok ts
            rw [← h]
          | error e =>
            rw [hr] at h
            have h2 : (Except.error e :
                Except CompileErr (List Token)) = .ok ts := h
            exact Except.noConfusion h2
        · rw [if_neg heos] at h ⊢
          by_cases hlcb : ch = '{'
          · rw [if_pos hlcb] at h ⊢
            cases hr : tokenize_chars fuel rest with
            | ok toks =>
              rw [hr] at h
              injection h with h
              have hts2 : ∀ t ∈ toks, token_fixed f t :=
                fun t ht => hts t (h ▸ List.mem_cons_of_mem _ ht)
              rw [ih rest toks hr hts2]
              show (Except.ok (Token.symbol position Symbol.left_curly_brace :: toks) :
                  Except CompileErr (List Token)) = .ok ts
              rw [← h]
            | error e =>
              rw [hr] at h
              have h2 : (Except.error e :
                  Except CompileErr (List Token)) = .ok ts := h
              exact Except.noConfusion h2
          · rw [if_neg hlcb] at h ⊢
            by_cases hrcb : ch = '}'
            · rw [if_pos hrcb] at h ⊢
              cases hr : tokenize_chars fuel rest with
              | ok toks =>
                rw [hr] at h
                injection h with h
                have hts2 : ∀ t ∈ toks, token_fixed f t :=
                  fun t ht => hts t (h ▸ List.mem_cons_of_mem _ ht)
                rw [ih rest toks hr hts2]
                show (Except.ok (Token.symbol position Symbol.right_curly_brace :: toks) :
                    Except CompileErr (List Token)) = .ok ts
                rw [← h]
              | error e =>
                rw [hr] at h
                have h2 : (Except.error e :
                    Except CompileErr (List Token)) = .ok ts := h
                exact Except.noConfusion h2
            · rw [if_neg hrcb] at h ⊢
              by_cases hlsb : ch = '['
              · rw [if_pos hlsb] at h ⊢
                cases hr : tokenize_chars fuel rest with
                | ok toks =>
                  rw [hr] at h
                  injection h with h
                  have hts2 : ∀ t ∈ toks, token_fixed f t :=
                    fun t ht => hts t (h ▸ List.mem_cons_of_mem _ ht)
                  rw [ih rest toks hr hts2]
                  show (Except.ok (Token.symbol position Symbol.left_square_bracket :: toks) :
                      Except CompileErr (List Token)) = .ok ts
                  rw [← h]
                | error e =>
                  rw [hr] at h
                  have h2 : (Except.error e :
                      Except CompileErr (List Token)) = .ok ts := h
                  exact Except.noConfusion h2
              · rw [if_neg hlsb] at h ⊢
                by_cases hrsb : ch = ']'
                · rw [if_pos hrsb] at h ⊢
                  cases hr : tokenize_chars fuel rest with
                  | ok toks =>
                    rw [hr] at h
                    injection h with h
                    have hts2 : ∀ t ∈ toks, token_fixed f t :=
                      fun t ht => hts t (h ▸ List.mem_cons_of_mem _ ht)
                    rw [ih rest toks hr hts2]
                    show (Except.ok (Token.symbol position Symbol.right_square_bracket :: toks) :
                        Except CompileErr (List Token)) = .ok ts
                    rw [← h]
                  | error e =>
                    rw [hr] at h
                    have h2 : (Except.error e :
                        Except CompileErr (List Token)) = .ok ts := h
                    exact Except.noConfusion h2
                · rw [if_neg hrsb] at h ⊢
                  by_cases hass : ch = '=' ∨ ch = ':'
                  · rw [if_pos hass] at h ⊢
                    cases hr : tokenize_chars fuel rest with
                    | ok toks =>
                      rw [hr] at h
                      injection h with h
                      have hts2 : ∀ t ∈ toks, token_fixed f t :=
                        fun t ht => hts t (h ▸ List.mem_cons_of_mem _ ht)
                      rw [ih rest toks hr hts2]
                      show (Except.ok (Token.symbol position Symbol.assignment :: toks) :
                          Except CompileErr (List Token)) = .ok ts
                      rw [← h]
                    | error e =>
                      rw [hr] at h
                      have h2 : (Except.error e :
                          Except CompileErr (List Token)) = .ok ts := h
                      exact Except.noConfusion h2
                  · rw [if_neg hass] at h ⊢
                    by_cases hquot : ch = '"'
                    · rw [if_pos hquot] at h ⊢
                      cases hs : capture_string fuel rest '"' with
                      | ok tr =>
                        obtain ⟨tkn, r2⟩ := tr
                        rw [hs] at h
                        have h2 : (match tokenize_chars fuel r2 with
                            | .ok tokens => .ok (Token.literal position (String.mk tkn) :: tokens)
                            | .error e => .error e :
                            Except CompileErr (List Token)) = .ok ts := h
                        cases hr : tokenize_chars fuel r2 with
                        | ok toks =>
                          rw [hr] at h2
                          injection h2 with h2
                          have hfix : token_fixed f (Token.literal position (String.mk tkn)) :=
                            hts _ (h2 ▸ List.mem_cons_self _ _)
                          have htkn : ∀ c ∈ tkn, f c = c := hfix
                          have hfd : f '"' = '"' := cast (hquotP '"').symm rfl
                          rw [capture_string_swap f '"' hfd (by decide) hescfix hxfix hufix
                            hhexfix fuel rest tkn r2 hs htkn]
                          show (match tokenize_chars fuel (stream_swap f r2) with
                              | .ok tokens => .ok (Token.literal position (String.mk tkn) :: tokens)
                              | .error e => .error e :
                              Except CompileErr (List Token)) = .ok ts
                          have hts2 : ∀ t ∈ toks, token_fixed f t :=
                            fun t ht => hts t (h2 ▸ List.mem_cons_of_mem _ ht)
                          rw [ih r2 toks hr hts2]
                          show (Except.ok (Token.literal position (String.mk tkn) :: toks) :
                              Except CompileErr (List Token)) = .ok ts
                          rw [← h2]
                        | error e =>
                          rw [hr] at h2
                          have h3 : (Except.error e :
                              Except CompileErr (List Token)) = .ok ts := h2
                          exact Except.noConfusion h3
                      | error e =>
                        rw [hs] at h
                        have h2 : (Except.error e :
                            Except CompileErr (List Token)) = .ok ts := h
                        exact Except.noConfusion h2
                    · rw [if_neg hquot] at h ⊢
                      by_cases hbt : ch = '`'
                      · rw [if_pos hbt] at h ⊢
                        cases hs : capture_string fuel rest '`' with
                        | ok tr =>
                          obtain ⟨tkn, r2⟩ := tr
                          rw [hs] at h
                          have h2 : (match tokenize_chars fuel r2 with
                              | .ok tokens => .ok (Token.interpolation position (String.mk tkn) :: tokens)
                              | .error e => .error e :
                              Except CompileErr (List Token)) = .ok ts := h
                          cases hr : tokenize_chars fuel r2 with
                          | ok toks =>
                            rw [hr] at h2
                            injection h2 with h2
                            have hfix : token_fixed f (Token.interpolation position (String.mk tkn)) :=
                              hts _ (h2 ▸ List.mem_cons_self _ _)
                            have htkn : ∀ c ∈ tkn, f c = c := hfix
                            have hfd : f '`' = '`' := cast (hbtP '`').symm rfl
                            rw [capture_string_swap f '`' hfd (by decide) hescfix hxfix hufix
                              hhexfix fuel rest tkn r2 hs htkn]
                            show (match tokenize_chars fuel (stream_swap f r2) with
                                | .ok tokens => .ok (Token.interpolation position (String.mk tkn) :: tokens)
                                | .error e => .error e :
                                Except CompileErr (List Token)) = .ok ts
                            have hts2 : ∀ t ∈ toks, token_fixed f t :=
                              fun t ht => hts t (h2 ▸ List.mem_cons_of_mem _ ht)
                            rw [ih r2 toks hr hts2]
                            show (Except.ok (Token.interpolation position (String.mk tkn) :: toks) :
                                Except CompileErr (List Token)) = .ok ts
                            rw [← h2]
                          | error e =>
                            rw [hr] at h2
                            have h3 : (Except.error e :
                                Except CompileErr (List Token)) = .ok ts := h2
                            exact Except.noConfusion h3
                        | error e =>
                          rw [hs] at h
                          have h2 : (Except.error e :
                              Except CompileErr (List Token)) = .ok ts := h
                          exact Except.noConfusion h2
                      · rw [if_neg hbt] at h ⊢
                        by_cases hamp : ch = '&'
                        · rw [if_pos hamp] at h ⊢
                          cases hs : parse_reference fuel rest none false false [] with
                          | ok tr =>
                            obtain ⟨ref, r2⟩ := tr
                            rw [hs] at h
                            have h2 : (match tokenize_chars fuel r2 with
                                | .ok tokens => .ok (ref :: tokens)
                                | .error e => .error e :
                                Except CompileErr (List Token)) = .ok ts := h
                            cases hr : tokenize_chars fuel r2 with
                            | ok toks =>
                              rw [hr] at h2
                              injection h2 with h2
                              have hfix : token_fixed f ref := hts ref (h2 ▸ List.mem_cons_self _ _)
                              have hsegs := token_fixed_segs f ref hfix
                              rw [parse_reference_swap f hwsfix hwsrefl hdotP hbangP hquotP hqmP
                                htermP hdelref hescfix hxfix hufix hhexfix hintfix fuel rest none
                                false false [] ref r2 hs hsegs]
                              show (match tokenize_chars fuel (stream_swap f r2) with
                                  | .ok tokens => .ok (ref :: tokens)
                                  | .error e => .error e :
                                  Except CompileErr (List Token)) = .ok ts
                              have hts2 : ∀ t ∈ toks, token_fixed f t :=
                                fun t ht => hts t (h2 ▸ List.mem_cons_of_mem _ ht)
                              rw [ih r2 toks hr hts2]
                              show (Except.ok (ref :: toks) :
                                  Except CompileErr (List Token)) = .ok ts
                              rw [← h2]
                            | error e =>
                              rw [hr] at h2
                              have h3 : (Except.error e :
                                  Except CompileErr (List Token)) = .ok ts := h2
                              exact Except.noConfusion h3
                          | error e =>
                            rw [hs] at h
                            have h2 : (Except.error e :
                                Except CompileErr (List Token)) = .ok ts := h
                            exact Except.noConfusion h2
                        · rw [if_neg hamp] at h ⊢
                          cases hb : capture_bare_word fuel rest bare_word_delimiters with
                          | ok tr =>
                            obtain ⟨word, r2⟩ := tr
                            rw [hb] at h
                            have h2 : (match tokenize_chars fuel r2 with
                                | .ok tokens =>
                                  .ok (Token.bare_word position (String.mk (ch :: word)) :: tokens)
                                | .error e => .error e :
                                Except CompileErr (List Token)) = .ok ts := h
                            cases hr : tokenize_chars fuel r2 with
                            | ok toks =>
                              rw [hr] at h2
                              injection h2 with h2
                              have hfix : token_fixed f
                                  (Token.bare_word position (String.mk (ch :: word))) :=
                                hts _ (h2 ▸ List.mem_cons_self _ _)
                              have hchw : ∀ c ∈ ch :: word, f c = c := hfix
                              have hfch : f ch = ch := hchw ch (List.mem_cons_self ch word)
                              have hword : ∀ c ∈ word, f c = c :=
                                fun c hc => hchw c (List.mem_cons_of_mem ch hc)
                              rw [hfch]
                              rw [capture_bare_word_swap f bare_word_delimiters hdelbw hwsfix fuel
                                rest word r2 hb hword]
                              show (match tokenize_chars fuel (stream_swap f r2) with
                                  | .ok tokens =>
                                    .ok (Token.bare_word position (String.mk (ch :: word)) :: tokens)
                                  | .error e => .error e :
                                  Except CompileErr (List Token)) = .ok ts
                              have hts2 : ∀ t ∈ toks, token_fixed f t :=
                                fun t ht => hts t (h2 ▸ List.mem_cons_of_mem _ ht)
                              rw [ih r2 toks hr hts2]
                              show (Except.ok (Token.bare_word position (String.mk (ch :: word)) :: toks) :
                                  Except CompileErr (List Token)) = .ok ts
                              rw [← h2]
                            | error e =>
                              rw [hr] at h2
                              have h3 : (Except.error e :
                                  Except CompileErr (List Token)) = .ok ts := h2
                              exact Except.noConfusion h3
                          | error e =>
                            rw [hb] at h
                            have h2 : (Except.error e :
                                Except CompileErr (List Token)) = .ok ts := h
                            exact Except.noConfusion h2

/-- Enumerating a mapped character list enumerates the original list and
maps the characters. -/
theorem enumFrom_swap (g : Char → Char) :
    ∀ (l : List Char) (i : Nat),
      List.enumFrom i (l.map g) = stream_swap g (List.enumFrom i l) := by
  intro l
  induction l with
  | nil => intro i; rfl
  | cons a tl ih =>
    intro i
    rw [List.map_cons, List.enumFrom, List.enumFrom, ih (i + 1)]
    rfl

/-- A swap whose target stays inside the list maps list members to list
members. -/
theorem char_swap_mem_closed (c0 c1 : Char) (l : List Char)
    (h : c0 ∈ l → c1 ∈ l) : ∀ c ∈ l, char_swap c0 c1 c ∈ l := by
  intro c hc
  by_cases h0 : c = c0
  · subst h0
    unfold char_swap
    rw [if_pos rfl]
    exact h hc
  · rw [char_swap_fix c0 c1 c h0]
    exact hc

/-- A negative `contains` check means the swap fixes the whole list. -/
theorem contains_false_fix (c0 c1 : Char) (l : List Char)
    (h : l.contains c0 = false) : ∀ c ∈ l, char_swap c0 c1 c = c := by
  intro c hc
  apply char_swap_fix
  intro h0
  subst h0
  have h2 : l.contains c = true := List.elem_eq_true_of_mem hc
  rw [h] at h2
  exact Bool.noConfusion h2

/-- A boolean negation that holds forces the underlying test to fail. -/
theorem bool_not_true {b : Bool} (h : (!b) = true) : b = false := by
  cases b with
  | false => rfl
  | true => exact Bool.noConfusion h

/-- A token that passes the textual freedom check is fixed by the swap. -/
theorem char_free_fixed (c0 c1 : Char) (t : Token)
    (h : token_char_free c0 true t = true) :
    token_fixed (char_swap c0 c1) t := by
  cases t with
  | literal p text =>
    exact contains_false_fix c0 c1 text.toList (bool_not_true h)
  | interpolation p text =>
    exact contains_false_fix c0 c1 text.toList (bool_not_true h)
  | bare_word p w =>
    have h2 : (!(w.toList.contains c0)) = true := h
    exact contains_false_fix c0 c1 w.toList (bool_not_true h2)
  | symbol p s => trivial
  | reference p path g =>
    intro str hs
    have h2 := List.all_eq_true.mp h (Sum.inl str) hs
    exact contains_false_fix c0 c1 str.toList (bool_not_true h2)
  | list_index_reference p path g =>
    intro str hs
    have h2 := List.all_eq_true.mp h (Sum.inl str) hs
    exact contains_false_fix c0 c1 str.toList (bool_not_true h2)

/-- Tokenizing after the `;` to `,` substitution yields the same
tokens, provided no produced token stores the character `;` in its
text. -/
theorem tokenize_semi_swap (P : String) (ts : List Token)
    (h : tokenize P = .ok ts) (hfree : tokens_semi_free ts = true) :
    tokenize (semi_to_comma P) = .ok ts := by
  have hwsfix : ∀ c, c.isWhitespace → char_swap ';' ',' c = c := by
    intro c hw
    apply char_swap_fix
    intro h0
    subst h0
    exact absurd hw (by decide)
  have hwsrefl := char_swap_ws ';' ',' (by decide) (by decide)
  have hescfix : ∀ c e, ESCAPED_CHARS c = some e →
      char_swap ';' ',' c = c := by
    intro c e he
    apply char_swap_fix
    intro h0
    subst h0
    rw [show ESCAPED_CHARS ';' = none from rfl] at he
    exact Option.noConfusion he
  have hhexfix : ∀ c e, hex_digit_val? c = some e →
      char_swap ';' ',' c = c := by
    intro c e he
    apply char_swap_fix
    intro h0
    subst h0
    rw [show hex_digit_val? ';' = none from rfl] at he
    exact Option.noConfusion he
  have hintfix : ∀ str m, python_int str = some m →
      ∀ c ∈ str.toList, char_swap ';' ',' c = c := by
    intro str m hi c hc
    apply char_swap_fix
    intro h0
    subst h0
    rcases python_int_chars str m hi ';' hc with hh | hh | hh | hh
    · exact absurd hh (by decide)
    · exact absurd hh (by decide)
    · exact absurd hh (by decide)
    · exact absurd hh (by decide)
  have hts : ∀ t ∈ ts, token_fixed (char_swap ';' ',') t :=
    fun t ht => char_free_fixed ';' ',' t (List.all_eq_true.mp hfree t ht)
  have hstream : (semi_to_comma P).toList.enum =
      stream_swap (char_swap ';' ',') P.toList.enum := by
    show List.enumFrom 0 (P.toList.map (char_swap ';' ',')) =
      stream_swap (char_swap ';' ',') (List.enumFrom 0 P.toList)
    exact enumFrom_swap (char_swap ';' ',') P.toList 0
  have hlen : (semi_to_comma P).length = P.length := by
    show (P.toList.map (char_swap ';' ',')).length = P.length
    rw [List.length_map]
    rfl
  have h2 : tokenize_chars (P.length + 1) P.toList.enum = .ok ts := h
  show tokenize_chars ((semi_to_comma P).length + 1) (semi_to_comma P).toList.enum =
    .ok ts
  rw [hlen, hstream]
  exact tokenize_chars_swap (char_swap ';' ',') hwsfix hwsrefl
    (fun c => propext (char_swap_pred_iff ';' ','
      (fun c => c = ';' ∨ c = ',') (by decide) c))
    (fun c => propext (char_swap_eq_iff ';' ',' '\x7b' (by decide) (by decide) c))
    (fun c => propext (char_swap_eq_iff ';' ',' '\x7d' (by decide) (by decide) c))
    (fun c => propext (char_swap_eq_iff ';' ',' '[' (by decide) (by decide) c))
    (fun c => propext (char_swap_eq_iff ';' ',' ']' (by decide) (by decide) c))
    (fun c => propext (char_swap_pred_iff ';' ','
      (fun c => c = '=' ∨ c = ':') (by decide) c))
    (fun c => propext (char_swap_eq_iff ';' ',' '"' (by decide) (by decide) c))
    (fun c => propext (char_swap_eq_iff ';' ',' '`' (by decide) (by decide) c))
    (fun c => propext (char_swap_eq_iff ';' ',' '&' (by decide) (by decide) c))
    (fun c => propext (char_swap_eq_iff ';' ',' '.' (by decide) (by decide) c))
    (fun c => propext (char_swap_eq_iff ';' ',' '!' (by decide) (by decide) c))
    (fun c => propext (char_swap_eq_iff ';' ',' '?' (by decide) (by decide) c))
    (fun c => propext (char_swap_pred_iff ';' ','
      (fun c => c = ';' ∨ c = ',' ∨ c = '\x7b' ∨ c = '[' ∨ c = '\x7d' ∨ c = ']')
      (by decide) c))
    (char_swap_mem_closed ';' ',' bare_word_delimiters (by decide))
    (char_swap_mem_closed ';' ',' reference_delimiters (by decide))
    hescfix (char_swap_fix _ _ _ (by decide)) (char_swap_fix _ _ _ (by decide))
    hhexfix hintfix (P.length + 1) P.toList.enum ts h2 hts

/-- Tokenizing after the `=` to `:` substitution yields the same
tokens, provided no produced token stores the character `=` in its
text. -/
theorem tokenize_eq_swap (P : String) (ts : List Token)
    (h : tokenize P = .ok ts) (hfree : tokens_eq_free ts = true) :
    tokenize (eq_to_colon P) = .ok ts := by
  have hwsfix : ∀ c, c.isWhitespace → char_swap '=' ':' c = c := by
    intro c hw
    apply char_swap_fix
    intro h0
    subst h0
    exact absurd hw (by decide)
  have hwsrefl := char_swap_ws '=' ':' (by decide) (by decide)
  have hescfix : ∀ c e, ESCAPED_CHARS c = some e →
      char_swap '=' ':' c = c := by
    intro c e he
    apply char_swap_fix
    intro h0
    subst h0
    rw [show ESCAPED_CHARS '=' = none from rfl] at he
    exact Option.noConfusion he
  have hhexfix : ∀ c e, hex_digit_val? c = some e →
      char_swap '=' ':' c = c := by
    intro c e he
    apply char_swap_fix
    intro h0
    subst h0
    rw [show hex_digit_val? '=' = none from rfl] at he
    exact Option.noConfusion he
  have hintfix : ∀ str m, python_int str = some m →
      ∀ c ∈ str.toList, char_swap '=' ':' c = c := by
    intro str m hi c hc
    apply char_swap_fix
    intro h0
    subst h0
    rcases python_int_chars str m hi '=' hc with hh | hh | hh | hh
    · exact absurd hh (by decide)
    · exact absurd hh (by decide)
    · exact absurd hh (by decide)
    · exact absurd hh (by decide)
  have hts : ∀ t ∈ ts, token_fixed (char_swap '=' ':') t :=
    fun t ht => char_free_fixed '=' ':' t (List.all_eq_true.mp hfree t ht)
  have hstream : (eq_to_colon P).toList.enum =
      stream_swap (char_swap '=' ':') P.toList.enum := by
    show List.enumFrom 0 (P.toList.map (char_swap '=' ':')) =
      stream_swap (char_swap '=' ':') (List.enumFrom 0 P.toList)
    exact enumFrom_swap (char_swap '=' ':') P.toList 0
  have hlen : (eq_to_colon P).length = P.length := by
    show (P.toList.map (char_swap '=' ':')).length = P.length
    rw [List.length_map]
    rfl
  have h2 : tokenize_chars (P.length + 1) P.toList.enum = .ok ts := h
  show tokenize_chars ((eq_to_colon P).length + 1) (eq_to_colon P).toList.enum =
    .ok ts
  rw [hlen, hstream]
  exact tokenize_chars_swap (char_swap '=' ':') hwsfix hwsrefl
    (fun c => propext (char_swap_pred_iff '=' ':'
      (fun c => c = ';' ∨ c = ',') (by decide) c))
    (fun c => propext (char_swap_eq_iff '=' ':' '\x7b' (by decide) (by decide) c))
    (fun c => propext (char_swap_eq_iff '=' ':' '\x7d' (by decide) (by decide) c))
    (fun c => propext (char_swap_eq_iff '=' ':' '[' (by decide) (by decide) c))
    (fun c => propext (char_swap_eq_iff '=' ':' ']' (by decide) (by decide) c))
    (fun c => propext (char_swap_pred_iff '=' ':'
      (fun c => c = '=' ∨ c = ':') (by decide) c))
    (fun c => propext (char_swap_eq_iff '=' ':' '"' (by decide) (by decide) c))
    (fun c => propext (char_swap_eq_iff '=' ':' '`' (by decide) (by decide) c))
    (fun c => propext (char_swap_eq_iff '=' ':' '&' (by decide) (by decide) c))
    (fun c => propext (char_swap_eq_iff '=' ':' '.' (by decide) (by decide) c))
    (fun c => propext (char_swap_eq_iff '=' ':' '!' (by decide) (by decide) c))
    (fun c => propext (char_swap_eq_iff '=' ':' '?' (by decide) (by decide) c))
    (fun c => propext (char_swap_pred_iff '=' ':'
      (fun c => c = ';' ∨ c = ',' ∨ c = '\x7b' ∨ c = '[' ∨ c = '\x7d' ∨ c = ']')
      (by decide) c))
    (char_swap_mem_closed '=' ':' bare_word_delimiters (by decide))
    (char_swap_mem_closed '=' ':' reference_delimiters (by decide))
    hescfix (char_swap_fix _ _ _ (by decide)) (char_swap_fix _ _ _ (by decide))
    hhexfix hintfix (P.length + 1) P.toList.enum ts h2 hts

/-- The length of a character-mapped program text. -/
theorem string_map_length (g : Char → Char) (P : String) :
    (String.mk (P.toList.map g)).length = P.length := by
  show (P.toList.map g).length = P.length
  rw [List.length_map]
  rfl

/-- C6 (amended): replacing every `;` by `,` (resp. every `=` by `:`)
preserves the token stream, the compiled program and the apply behavior on
every input, provided no produced token stores the replaced character in
its text (string or interpolation literal, quoted reference segment, or —
for `=` — bare word); without that proviso the counterexample applies. -/
theorem c6_amended_guarded_interchange :
    (∀ P ts, tokenize P = .ok ts → tokens_semi_free ts = true →
      tokenize (semi_to_comma P) = .ok ts ∧
      compile (semi_to_comma P) = compile P ∧
      (∀ j, apply_program (semi_to_comma P) j = apply_program P j)) ∧
    (∀ P ts, tokenize P = .ok ts → tokens_eq_free ts = true →
      tokenize (eq_to_colon P) = .ok ts ∧
      compile (eq_to_colon P) = compile P ∧
      (∀ j, apply_program (eq_to_colon P) j = apply_program P j)) := by
  constructor
  · intro P ts h hfree
    have htok := tokenize_semi_swap P ts h hfree
    have hlen : (semi_to_comma P).length = P.length := string_map_length _ P
    have hc : compile (semi_to_comma P) = compile P := by
      unfold compile
      rw [htok, h]
    refine ⟨htok, hc, ?_⟩
    intro j
    unfold apply_program
    rw [hc, show eval_fuel (semi_to_comma P) = eval_fuel P from by
      unfold eval_fuel
      rw [hlen]]
  · intro P ts h hfree
    have htok := tokenize_eq_swap P ts h hfree
    have hlen : (eq_to_colon P).length = P.length := string_map_length _ P
    have hc : compile (eq_to_colon P) = compile P := by
      unfold compile
      rw [htok, h]
    refine ⟨htok, hc, ?_⟩
    intro j
    unfold apply_program
    rw [hc, show eval_fuel (eq_to_colon P) = eval_fuel P from by
      unfold eval_fuel
      rw [hlen]]

/-- Witness for the amended C6 claim at the program "a = 1;": its tokens
store no `;`, and the substituted program tokenizes identically. -/
theorem c6_amended_guarded_interchange_witness :
    tokenize (semi_to_comma "a = 1;") =
      .ok [Token.bare_word 0 "a", Token.symbol 2 Symbol.assignment,
        Token.bare_word 4 "1", Token.symbol 5 Symbol.end_of_statement] :=
  (c6_amended_guarded_interchange.1 "a = 1;"
    [Token.bare_word 0 "a", Token.symbol 2 Symbol.assignment,
      Token.bare_word 4 "1", Token.symbol 5 Symbol.end_of_statement]
    (by rfl) (by rfl)).1

end JsonMap
